import Mathlib

/-!
Verification of the Fort Knox deterministic compile pipeline
(`apps/api/text_processing.py`, `apps/api/fortknox.py`, `apps/api/main.py`).

Texts are modelled as lists of characters (`Str`).  The Python `re` based
masking rules are modelled by a small backtracking matcher framework whose
matchers return candidate match lengths in the same priority order as the
Python regular-expression engine, so that `re.subn` style scanning can be
reproduced faithfully, including word boundaries (`\b`), greedy repetition
and alternation order.
-/

set_option maxRecDepth 10000

namespace FortKnox

/-- Texts are lists of characters. -/
abbrev Str := List Char

/-- ASCII whitespace as recognised by Python `\s` (for the characters that
occur in this code base). -/
def isSpaceChar (c : Char) : Bool :=
  c = ' ' || c = '\t' || c = '\n' || c = '\r' || c = Char.ofNat 11 || c = Char.ofNat 12

/-- Decimal digit. -/
def isDigitChar (c : Char) : Bool :=
  '0' ≤ c && c ≤ '9'

/-- Latin letters including the Swedish letters that occur in the sources. -/
def isAlphaChar (c : Char) : Bool :=
  ('a' ≤ c && c ≤ 'z') || ('A' ≤ c && c ≤ 'Z') ||
  c = 'å' || c = 'ä' || c = 'ö' || c = 'Å' || c = 'Ä' || c = 'Ö' ||
  c = 'é' || c = 'É' || c = 'ü' || c = 'Ü'

/-- Python `\w` (word character) for the character set of this code base. -/
def isWordChar (c : Char) : Bool :=
  isAlphaChar c || isDigitChar c || c = '_'

/-- Lower-casing, covering the letters that occur in the sources (an
explicit table, as Python `str.lower()` restricted to this alphabet). -/
def lowerChar (c : Char) : Char :=
  if c = 'A' then 'a' else if c = 'B' then 'b' else if c = 'C' then 'c'
  else if c = 'D' then 'd' else if c = 'E' then 'e' else if c = 'F' then 'f'
  else if c = 'G' then 'g' else if c = 'H' then 'h' else if c = 'I' then 'i'
  else if c = 'J' then 'j' else if c = 'K' then 'k' else if c = 'L' then 'l'
  else if c = 'M' then 'm' else if c = 'N' then 'n' else if c = 'O' then 'o'
  else if c = 'P' then 'p' else if c = 'Q' then 'q' else if c = 'R' then 'r'
  else if c = 'S' then 's' else if c = 'T' then 't' else if c = 'U' then 'u'
  else if c = 'V' then 'v' else if c = 'W' then 'w' else if c = 'X' then 'x'
  else if c = 'Y' then 'y' else if c = 'Z' then 'z'
  else if c = 'Å' then 'å' else if c = 'Ä' then 'ä' else if c = 'Ö' then 'ö'
  else if c = 'É' then 'é' else if c = 'Ü' then 'ü'
  else c

def lowerStr (s : Str) : Str := s.map lowerChar

/-- `List.take`-based prefix check for character lists. -/
def prefixOf : Str → Str → Bool
  | [], _ => true
  | _ :: _, [] => false
  | a :: as, b :: bs => a = b && prefixOf as bs

/-- Substring containment (`needle in haystack` in Python). -/
def containsSub (hay pat : Str) : Bool :=
  match hay with
  | [] => prefixOf pat []
  | _ :: rest => prefixOf pat hay || containsSub rest pat

/-- Length of the longest prefix of `s` whose characters satisfy `p`. -/
def runLen (p : Char → Bool) : Str → Nat
  | [] => 0
  | c :: rest => if p c then runLen p rest + 1 else 0

/-- Python `str.split()` with no argument: split on whitespace runs,
dropping empty pieces.  A non-space head starts a word of length
`runLen (not space)`; the rest of that word is dropped from the tail.
Structured with explicit fuel (each step consumes at least one character,
so fuel `s.length` always suffices) so that it reduces in the kernel. -/
def splitWordsF : Nat → Str → List Str
  | _, [] => []
  | 0, _ :: _ => []
  | fuel + 1, c :: rest =>
    if isSpaceChar c then splitWordsF fuel rest
    else
      (c :: rest).take (runLen (fun d => !isSpaceChar d) (c :: rest)) ::
        splitWordsF fuel (rest.drop (runLen (fun d => !isSpaceChar d) (c :: rest) - 1))

def splitWords (s : Str) : List Str := splitWordsF s.length s

/-- Join a list of words with single spaces. -/
def joinSpace : List Str → Str
  | [] => []
  | [w] => w
  | w :: ws => w ++ ' ' :: joinSpace ws

end FortKnox

namespace SHA256

/-- 32-bit truncation. -/
def trunc (x : Nat) : Nat := x % 4294967296

/-- Right rotation of a 32-bit word. -/
def rotr (n x : Nat) : Nat :=
  trunc ((x >>> n) ||| (x <<< (32 - n)))

def bigSigma0 (x : Nat) : Nat := (rotr 2 x) ^^^ (rotr 13 x) ^^^ (rotr 22 x)

def bigSigma1 (x : Nat) : Nat := (rotr 6 x) ^^^ (rotr 11 x) ^^^ (rotr 25 x)

def smallSigma0 (x : Nat) : Nat := (rotr 7 x) ^^^ (rotr 18 x) ^^^ (x >>> 3)

def smallSigma1 (x : Nat) : Nat := (rotr 17 x) ^^^ (rotr 19 x) ^^^ (x >>> 10)

def chFn (x y z : Nat) : Nat := (x &&& y) ^^^ ((x ^^^ 4294967295) &&& z)

def majFn (x y z : Nat) : Nat := (x &&& y) ^^^ (x &&& z) ^^^ (y &&& z)

/-- The 64 round constants (FIPS 180-4, written in decimal). -/
def K : List Nat :=
  [1116352408, 1899447441, 3049323471, 3921009573, 961987163,
   1508970993, 2453635748, 2870763221, 3624381080, 310598401,
   607225278, 1426881987, 1925078388, 2162078206, 2614888103,
   3248222580, 3835390401, 4022224774, 264347078, 604807628,
   770255983, 1249150122, 1555081692, 1996064986, 2554220882,
   2821834349, 2952996808, 3210313671, 3336571891, 3584528711,
   113926993, 338241895, 666307205, 773529912, 1294757372,
   1396182291, 1695183700, 1986661051, 2177026350, 2456956037,
   2730485921, 2820302411, 3259730800, 3345764771, 3516065817,
   3600352804, 4094571909, 275423344, 430227734, 506948616,
   659060556, 883997877, 958139571, 1322822218, 1537002063,
   1747873779, 1955562222, 2024104815, 2227730452, 2361852424,
   2428436474, 2756734187, 3204031479, 3329325298]

/-- Initial hash state (in decimal). -/
def H0 : List Nat :=
  [1779033703, 3144134277, 1013904242, 2773480762,
   1359893119, 2600822924, 528734635, 1541459225]

/-- Pad a byte message per SHA-256 (append 0x80, zeros, 64-bit length). -/
def pad (msg : List Nat) : List Nat :=
  let len := msg.length
  let bitLen := len * 8
  let zeros := (64 - ((len + 9) % 64)) % 64
  msg ++ [0x80] ++ List.replicate zeros 0 ++
    [(bitLen >>> 56) % 256, (bitLen >>> 48) % 256, (bitLen >>> 40) % 256,
     (bitLen >>> 32) % 256, (bitLen >>> 24) % 256, (bitLen >>> 16) % 256,
     (bitLen >>> 8) % 256, bitLen % 256]

/-- Split a list into chunks of length `n` (n > 0). -/
def chunks (n : Nat) (l : List Nat) (fuel : Nat) : List (List Nat) :=
  match fuel with
  | 0 => []
  | fuel + 1 =>
    match l with
    | [] => []
    | _ => l.take n :: chunks n (l.drop n) fuel

/-- Big-endian 32-bit words from bytes. -/
def toWords : List Nat → List Nat
  | b0 :: b1 :: b2 :: b3 :: rest => (((b0 * 256 + b1) * 256 + b2) * 256 + b3) :: toWords rest
  | _ => []

/-- Extend 16 words to the 64-word message schedule. -/
def extendW (w : List Nat) (i : Nat) : List Nat :=
  match i with
  | 0 => w
  | i + 1 =>
    let t := w.length
    let a := w.getD (t - 16) 0
    let b := w.getD (t - 15) 0
    let c := w.getD (t - 7) 0
    let d := w.getD (t - 2) 0
    extendW (w ++ [trunc (a + smallSigma0 b + c + smallSigma1 d)]) i

/-- One round of the compression function. -/
def round (st : List Nat) (kw : Nat) : List Nat :=
  match st with
  | [a, b, c, d, e, f, g, h] =>
    let t1 := trunc (h + bigSigma1 e + chFn e f g + kw)
    let t2 := trunc (bigSigma0 a + majFn a b c)
    [trunc (t1 + t2), a, b, c, trunc (d + t1), e, f, g]
  | other => other

/-- Compress one 64-byte block into the state. -/
def compress (st : List Nat) (block : List Nat) : List Nat :=
  let w := extendW (toWords block) 48
  let kw := List.zipWith (fun k x => trunc (k + x)) K w
  let fin := kw.foldl round st
  List.zipWith (fun a b => trunc (a + b)) st fin

/-- SHA-256 digest (as 8 32-bit words) of a byte list. -/
def digestWords (msg : List Nat) : List Nat :=
  let padded := pad msg
  (chunks 64 padded (padded.length + 1)).foldl compress H0

def hexDigitChar (n : Nat) : Char :=
  if n < 10 then Char.ofNat (48 + n) else Char.ofNat (87 + n)

/-- 8 hex characters (big-endian) of a 32-bit word. -/
def wordHex (x : Nat) : List Char :=
  [hexDigitChar ((x >>> 28) % 16), hexDigitChar ((x >>> 24) % 16),
   hexDigitChar ((x >>> 20) % 16), hexDigitChar ((x >>> 16) % 16),
   hexDigitChar ((x >>> 12) % 16), hexDigitChar ((x >>> 8) % 16),
   hexDigitChar ((x >>> 4) % 16), hexDigitChar (x % 16)]

/-- Hex digest string of a byte message, as `hashlib.sha256(..).hexdigest()`. -/
def hexDigest (msg : List Nat) : List Char :=
  (digestWords msg).flatMap wordHex

/-- UTF-8 encoding of a single code point. -/
def utf8Char (c : Char) : List Nat :=
  let n := c.toNat
  if n < 128 then [n]
  else if n < 2048 then [192 + n / 64, 128 + n % 64]
  else if n < 65536 then [224 + n / 4096, 128 + (n / 64) % 64, 128 + n % 64]
  else [240 + n / 262144, 128 + (n / 4096) % 64, 128 + (n / 64) % 64, 128 + n % 64]

/-- UTF-8 bytes of a text. -/
def utf8 (s : List Char) : List Nat := s.flatMap utf8Char

end SHA256

namespace FortKnox

/-- `compute_sha256` from `fortknox.py`: hex SHA-256 of the UTF-8 encoding. -/
def compute_sha256 (s : Str) : Str := SHA256.hexDigest (SHA256.utf8 s)

end FortKnox

theorem sha256_abc_check :
    FortKnox.compute_sha256 [ 'a', 'b', 'c'] =
      "ba7816bf8f01cfea414140de5dae2223b00361a396177a9cb410ff61f20015ad".toList := by
  decide

namespace Re

open FortKnox

/-- A matcher element: on a suffix of the text it returns candidate match
lengths in backtracking priority order — the order in which the Python
`re` engine tries them.  The overall match at a position is the first
candidate that also satisfies the pattern's word-boundary conditions. -/
abbrev M := Str → List Nat

/-- Single character from a class. -/
def one (p : Char → Bool) : M := fun s =>
  match s with
  | c :: _ => if p c then [1] else []
  | [] => []

def chr (c : Char) : M := one (fun d => d = c)

/-- Case-sensitive literal. -/
def lit (w : String) : M := fun s =>
  if prefixOf w.toList s then [w.toList.length] else []

/-- Case-insensitive literal (`w` given in lower case). -/
def litCI (w : String) : M := fun s =>
  if prefixOf w.toList (lowerStr (s.take w.toList.length)) then [w.toList.length] else []

/-- Sequencing: candidates of the first element, each continued with the
candidates of the second (depth-first, i.e. Python backtracking order). -/
def seqM (a b : M) : M := fun s =>
  (a s).flatMap (fun la => (b (s.drop la)).map (fun lb => la + lb))

/-- Ordered alternation `x|y`. -/
def altM (a b : M) : M := fun s => a s ++ b s

/-- Ordered alternation of a list of branches. -/
def alts (l : List M) : M := fun s => l.flatMap (fun m => m s)

/-- Greedy option `x?`: try the element first, then the empty match. -/
def opt (a : M) : M := fun s => a s ++ [0]

/-- Greedy character-class repetition `p{lo,hi}`: longest candidate first. -/
def classRep (p : Char → Bool) (lo hi : Nat) : M := fun s =>
  let k := min hi (runLen p s)
  if k < lo then [] else (List.range (k - lo + 1)).map (fun i => k - i)

/-- Greedy `p+`. -/
def classPlus (p : Char → Bool) : M := fun s =>
  let k := runLen p s
  (List.range k).map (fun i => k - i)

/-- Greedy `p*`. -/
def classStar (p : Char → Bool) : M := fun s =>
  let k := runLen p s
  (List.range (k + 1)).map (fun i => k - i)

/-- Greedy `p{n,}`. -/
def classAtLeast (p : Char → Bool) (n : Nat) : M := fun s =>
  let k := runLen p s
  if k < n then [] else (List.range (k - n + 1)).map (fun i => k - i)

/-- Exactly `n` characters from a class. -/
def classCnt (p : Char → Bool) (n : Nat) : M := fun s =>
  if n ≤ runLen p s then [n] else []

/-- Greedy group repetition `g{0,n}` (each iteration must consume input). -/
def repUpTo (g : M) : Nat → M
  | 0 => fun _ => [0]
  | n + 1 => fun s => seqM g (repUpTo g n) s ++ [0]

/-- Does this optional character count as a word character (`\w`)?
Out-of-text positions count as non-word, as in Python. -/
def isWordOpt : Option Char → Bool
  | none => false
  | some c => isWordChar c

/-- Python `\b`: a boundary lies between a word and a non-word position. -/
def wb (a b : Option Char) : Bool := isWordOpt a != isWordOpt b

/-- A compiled pattern: matcher plus optional leading/trailing `\b`. -/
structure Pat where
  m : M
  lb : Bool
  tb : Bool

/-- Match a pattern at the current position.  `prev` is the character just
before the position (for `\b`).  Returns the matched length: the first
candidate in priority order whose trailing boundary condition holds. -/
def matchAt (pt : Pat) (prev : Option Char) (s : Str) : Option Nat :=
  if pt.lb && !wb prev s.head? then none
  else
    (pt.m s).find? (fun l =>
      !pt.tb || wb ((s.take l).getLast?) ((s.drop l).head?))

/-- `re.subn` style scan: leftmost non-overlapping matches, replacement via
`repl` applied to the matched text; returns the new text and the number of
substitutions.  Boundary context (`prev`) always refers to the original
text, as in Python.  Fuel-structured (every step consumes at least one
character) so that it reduces in the kernel. -/
def scanSub (pt : Pat) (repl : Str → Str) : Nat → Option Char → Str → Str × Nat
  | _, _, [] => ([], 0)
  | 0, _, _ :: _ => ([], 0)
  | fuel + 1, prev, c :: rest =>
    match matchAt pt prev (c :: rest) with
    | some l =>
      if 0 < l then
        let matched := (c :: rest).take l
        let res := scanSub pt repl fuel matched.getLast? ((c :: rest).drop l)
        (repl matched ++ res.1, res.2 + 1)
      else
        let res := scanSub pt repl fuel (some c) rest
        (c :: res.1, res.2)
    | none =>
      let res := scanSub pt repl fuel (some c) rest
      (c :: res.1, res.2)

/-- `re.subn(pattern, repl, text)`. -/
def subn (pt : Pat) (repl : Str → Str) (s : Str) : Str × Nat :=
  scanSub pt repl s.length none s

/-- `re.sub` with a constant replacement string. -/
def subC (pt : Pat) (repl : String) (s : Str) : Str :=
  (subn pt (fun _ => repl.toList) s).1

/-- `re.search(...) is not None`. -/
def searchB (pt : Pat) : Option Char → Str → Bool
  | _, [] => false
  | prev, c :: rest => (matchAt pt prev (c :: rest)).isSome || searchB pt (some c) rest

def search (pt : Pat) (s : Str) : Bool := searchB pt none s

/-- `re.finditer`: the list of (start index, matched text) of the leftmost
non-overlapping matches.  Fuel-structured like `scanSub`. -/
def findAllB (pt : Pat) : Nat → Nat → Option Char → Str → List (Nat × Str)
  | _, _, _, [] => []
  | 0, _, _, _ :: _ => []
  | fuel + 1, pos, prev, c :: rest =>
    match matchAt pt prev (c :: rest) with
    | some l =>
      if 0 < l then
        let matched := (c :: rest).take l
        (pos, matched) :: findAllB pt fuel (pos + l) matched.getLast? ((c :: rest).drop l)
      else
        findAllB pt fuel (pos + 1) (some c) rest
    | none => findAllB pt fuel (pos + 1) (some c) rest

def findAll (pt : Pat) (s : Str) : List (Nat × Str) := findAllB pt s.length 0 none s

end Re

namespace FortKnox

open Re

/-! ### The date/time patterns of `mask_datetime` -/

def digit19 (c : Char) : Bool := '1' ≤ c && c ≤ '9'

/-- `(19|20)` -/
def yearHead : M := altM (lit "19") (lit "20")

/-- separator: dash or slash -/
def dateSep : M := one (fun c => c = '-' || c = '/')

/-- `(0[1-9]|1[0-2])` -/
def month2 : M :=
  altM (seqM (chr '0') (one digit19))
       (seqM (chr '1') (one (fun c => c = '0' || c = '1' || c = '2')))

/-- `(0[1-9]|[12]\d|3[01])` -/
def day2 : M :=
  alts [seqM (chr '0') (one digit19),
        seqM (one (fun c => c = '1' || c = '2')) (one isDigitChar),
        seqM (chr '3') (one (fun c => c = '0' || c = '1'))]

/-- `(0?[1-9]|[12]\d|3[01])` -/
def dayFlex : M :=
  alts [seqM (opt (chr '0')) (one digit19),
        seqM (one (fun c => c = '1' || c = '2')) (one isDigitChar),
        seqM (chr '3') (one (fun c => c = '0' || c = '1'))]

/-- `(0?[1-9]|1[0-2])` -/
def monthFlex : M :=
  altM (seqM (opt (chr '0')) (one digit19))
       (seqM (chr '1') (one (fun c => c = '0' || c = '1' || c = '2')))

/-- `\s+` -/
def ws1 : M := classPlus isSpaceChar

/-- `\b(19|20)\d{2}` sep `(0[1-9]|1[0-2])` sep `(0[1-9]|[12]\d|3[01])\b` -/
def isoDatePat : Pat :=
  ⟨seqM yearHead (seqM (classCnt isDigitChar 2)
     (seqM dateSep (seqM month2 (seqM dateSep day2)))), true, true⟩

/-- `\b(0?[1-9]|[12]\d|3[01])/(0?[1-9]|1[0-2])/(19|20)\d{2}\b` -/
def dmyPat : Pat :=
  ⟨seqM dayFlex (seqM (chr '/') (seqM monthFlex
     (seqM (chr '/') (seqM yearHead (classCnt isDigitChar 2))))), true, true⟩

def longMonths : List String :=
  ["januari", "februari", "mars", "april", "maj", "juni", "juli",
   "augusti", "september", "oktober", "november", "december"]

def shortMonths : List String :=
  ["jan", "feb", "mar", "apr", "maj", "jun", "jul", "aug", "sep", "sept",
   "okt", "nov", "dec"]

def longMonthM : M := alts (longMonths.map litCI)

def shortMonthM : M := alts (shortMonths.map litCI)

/-- `\b(day)\s+(long month)\s+(19|20)\d{2}\b`, case-insensitive. -/
def longMonthYearPat : Pat :=
  ⟨seqM dayFlex (seqM ws1 (seqM longMonthM
     (seqM ws1 (seqM yearHead (classCnt isDigitChar 2))))), true, true⟩

/-- `\b(day)\s+(short month)\.?\s+(19|20)\d{2}\b`, case-insensitive. -/
def shortMonthYearPat : Pat :=
  ⟨seqM dayFlex (seqM ws1 (seqM shortMonthM (seqM (opt (chr '.'))
     (seqM ws1 (seqM yearHead (classCnt isDigitChar 2)))))), true, true⟩

/-- `\b(day)\s+(long month)\b`, case-insensitive. -/
def longMonthNoYearPat : Pat :=
  ⟨seqM dayFlex (seqM ws1 longMonthM), true, true⟩

/-- `(0?[0-9]|1\d|2[0-3])` -/
def hourM : M :=
  alts [seqM (opt (chr '0')) (one isDigitChar),
        seqM (chr '1') (one isDigitChar),
        seqM (chr '2') (one (fun c => c = '0' || c = '1' || c = '2' || c = '3'))]

/-- `\b(kl\.?\s+)?(0?[0-9]|1\d|2[0-3])[:\.]([0-5]\d)\b`, case-insensitive. -/
def timePat : Pat :=
  ⟨seqM (opt (seqM (litCI "kl") (seqM (opt (chr '.')) ws1)))
     (seqM hourM (seqM (one (fun c => c = ':' || c = '.'))
       (seqM (one (fun c => '0' ≤ c && c ≤ '5')) (one isDigitChar)))), true, true⟩

def relativeWords : List String :=
  ["igår", "idag", "imorgon", "i går", "i dag", "i morgon", "förrgår",
   "övermorgon"]

/-- `\b(igår|idag|imorgon|i går|i dag|i morgon|förrgår|övermorgon)\b`,
case-insensitive. -/
def relativePat : Pat := ⟨alts (relativeWords.map litCI), true, true⟩

/-- One `re.subn` masking pass feeding the running count. -/
def pass (pt : Pat) (repl : String) (st : Str × Nat) : Str × Nat :=
  let r := subn pt (fun _ => repl.toList) st.1
  (r.1, st.2 + r.2)

/-- `mask_datetime(text, level)` from `text_processing.py`: the sequence of
date, month-name, clock-time (and, at paranoid, relative-word) substitution
passes; returns the masked text and the substitution count. -/
def mask_datetime (text : Str) (level : String) : Str × Nat :=
  let st := (text, 0)
  let st := pass isoDatePat "[DATUM]" st
  let st := pass dmyPat "[DATUM]" st
  let st := pass longMonthYearPat "[DATUM]" st
  let st := pass shortMonthYearPat "[DATUM]" st
  let st := pass longMonthNoYearPat "[DATUM]" st
  let st := pass timePat "[TID]" st
  if level = "paranoid" then pass relativePat "[RELATIV_TID]" st else st

/-! ### `mask_text` and its three levels -/

/-- The character class of the email patterns: `[\w\.-]`. -/
def emailCls (c : Char) : Bool := isWordChar c || c = '.' || c = '-'

/-- `\b[\w\.-]+@[\w\.-]+\.\w+\b` (used by normal and paranoid masking). -/
def emailMaskPat : Pat :=
  ⟨seqM (classPlus emailCls) (seqM (chr '@') (seqM (classPlus emailCls)
     (seqM (chr '.') (classPlus isWordChar)))), true, true⟩

/-- The gate's email pattern `[\w\.-]+@[\w\.-]+\.\w+` — same body but with
no word-boundary anchors. -/
def emailGatePat : Pat :=
  ⟨seqM (classPlus emailCls) (seqM (chr '@') (seqM (classPlus emailCls)
     (seqM (chr '.') (classPlus isWordChar)))), false, false⟩

/-- `\b(19|20)\d{6}[- ]\d{4}\b|\b(19|20)\d{10}\b` -/
def personnummerPat : Pat :=
  ⟨altM (seqM yearHead (seqM (classCnt isDigitChar 6)
           (seqM (one (fun c => c = '-' || c = ' ')) (classCnt isDigitChar 4))))
        (seqM yearHead (classCnt isDigitChar 10)), true, true⟩

/-- `[- ]` -/
def sepSp : M := one (fun c => c = '-' || c = ' ')

/-- `\+46\s*\d{1,2}[- ]?\d{2,3}[- ]?\d{2,3}[- ]?\d{2,4}` (no anchors). -/
def phonePat1 : Pat :=
  ⟨seqM (lit "+46") (seqM (classStar isSpaceChar) (seqM (classRep isDigitChar 1 2)
     (seqM (opt sepSp) (seqM (classRep isDigitChar 2 3) (seqM (opt sepSp)
       (seqM (classRep isDigitChar 2 3) (seqM (opt sepSp)
         (classRep isDigitChar 2 4)))))))), false, false⟩

/-- `\b0\d{1,2}[- ]\d{2,3}[- ]?\d{2,3}[- ]?\d{2,4}\b` -/
def phonePat2 : Pat :=
  ⟨seqM (chr '0') (seqM (classRep isDigitChar 1 2) (seqM sepSp
     (seqM (classRep isDigitChar 2 3) (seqM (opt sepSp)
       (seqM (classRep isDigitChar 2 3) (seqM (opt sepSp)
         (classRep isDigitChar 2 4))))))), true, true⟩

/-- `\b07\d[- ]\d{2,3}[- ]?\d{2,3}[- ]?\d{2,4}\b` -/
def phonePat3 : Pat :=
  ⟨seqM (lit "07") (seqM (one isDigitChar) (seqM sepSp
     (seqM (classRep isDigitChar 2 3) (seqM (opt sepSp)
       (seqM (classRep isDigitChar 2 3) (seqM (opt sepSp)
         (classRep isDigitChar 2 4))))))), true, true⟩

/-- `-\d{4}\b` -/
def phonePat4 : Pat := ⟨seqM (chr '-') (classCnt isDigitChar 4), false, true⟩

/-- `\b\d{2,3}[- ]\d{2,3}[- ]\d{2,4}\b` -/
def phonePat5 : Pat :=
  ⟨seqM (classRep isDigitChar 2 3) (seqM sepSp (seqM (classRep isDigitChar 2 3)
     (seqM sepSp (classRep isDigitChar 2 4)))), true, true⟩

/-- `\b\d{11,}\b` -/
def longNumberPat : Pat := ⟨classAtLeast isDigitChar 11, true, true⟩

/-- `mask_text_normal`: email, personnummer, the five phone patterns, then
11+-digit runs. -/
def mask_text_normal (text : Str) : Str :=
  let text := subC emailMaskPat "[EMAIL]" text
  let text := subC personnummerPat "[REDACTED]" text
  let text := subC phonePat1 "[PHONE]" text
  let text := subC phonePat2 "[PHONE]" text
  let text := subC phonePat3 "[PHONE]" text
  let text := subC phonePat4 "[PHONE]" text
  let text := subC phonePat5 "[PHONE]" text
  subC longNumberPat "[REDACTED]" text

/-- `Dok\.Id\s+\d+`, case-insensitive. -/
def idLabelPat1 : Pat :=
  ⟨seqM (litCI "dok.id") (seqM ws1 (classPlus isDigitChar)), false, false⟩

/-- `ID:\s*\d+`, case-insensitive (the `Id:` variant is identical). -/
def idLabelPat2 : Pat :=
  ⟨seqM (litCI "id:") (seqM (classStar isSpaceChar) (classPlus isDigitChar)),
   false, false⟩

/-- `\bID\s+\d+`, case-insensitive. -/
def idLabelPat4 : Pat :=
  ⟨seqM (litCI "id") (seqM ws1 (classPlus isDigitChar)), true, false⟩

/-- The negative lookahead `(?:19|20)\d{2}[- ]\d{2}[- ]\d{2}` of the digit
cluster pattern. -/
def dateLookaheadM : M :=
  seqM yearHead (seqM (classCnt isDigitChar 2) (seqM sepSp
    (seqM (classCnt isDigitChar 2) (seqM sepSp (classCnt isDigitChar 2)))))

/-- The (vacuous) second lookahead's character class
`[\[PHONE\]\[EMAIL\]\[REDACTED\]\[ID\]\[NUM\]]`. -/
def tokenCls (c : Char) : Bool :=
  c = '[' || c = ']' || c = 'P' || c = 'H' || c = 'O' || c = 'N' || c = 'E' ||
  c = 'A' || c = 'M' || c = 'I' || c = 'L' || c = 'R' || c = 'D' ||
  c = 'C' || c = 'T' || c = 'U'

/-- `\b(?!date)(?![tokencls])\d{1,4}(?:[- ]\d{1,4}){1,4}\b`: spaced or
hyphenated digit clusters. -/
def digitClusterPat : Pat :=
  ⟨fun s =>
    if !(dateLookaheadM s).isEmpty then []
    else if (one tokenCls s) ≠ [] then []
    else seqM (classRep isDigitChar 1 4)
           (seqM (seqM sepSp (classRep isDigitChar 1 4))
             (repUpTo (seqM sepSp (classRep isDigitChar 1 4)) 3)) s,
   true, true⟩

def maskTokens : List String :=
  ["[PHONE]", "[EMAIL]", "[REDACTED]", "[ID]", "[NUM]"]

/-- `mask_digit_cluster` replacement callback: keep already-masked tokens,
replace clusters with ≥ 5 digits by `[NUM]`. -/
def maskDigitCluster (matched : Str) : Str :=
  if maskTokens.any (fun tok => containsSub matched tok.toList) then matched
  else if 5 ≤ (matched.filter isDigitChar).length then "[NUM]".toList
  else matched

/-- `\b\d{5,}\b` -/
def standaloneLongPat : Pat := ⟨classAtLeast isDigitChar 5, true, true⟩

/-- `mask_text_strict`: datetime masking first, then normal masking, ID
labels, digit clusters and standalone 5+-digit runs. -/
def mask_text_strict (text : Str) : Str :=
  let text := (mask_datetime text "strict").1
  let text := mask_text_normal text
  let text := subC idLabelPat1 "[ID]" text
  let text := subC idLabelPat2 "[ID]" text
  let text := subC idLabelPat2 "[ID]" text
  let text := subC idLabelPat4 "[ID]" text
  let text := (subn digitClusterPat maskDigitCluster text).1
  subC standaloneLongPat "[NUM]" text

/-- `https?://[^\s]+`, case-insensitive. -/
def urlPat : Pat :=
  ⟨seqM (litCI "http") (seqM (opt (one (fun c => c = 's' || c = 'S')))
     (seqM (lit "://") (classPlus (fun c => !isSpaceChar c)))), false, false⟩

/-- A single digit (paranoid replaces every digit by `[NUM]`). -/
def digitPat : Pat := ⟨one isDigitChar, false, false⟩

/-- The role labels of paranoid name masking, with their literal
replacements (`^Label\s+(.+)` → `Label [NAME]`, case-insensitive match,
canonical capitalisation in the replacement). -/
def nameLabels : List (String × String) :=
  [("sökande", "Sökande [NAME]"), ("motpart", "Motpart [NAME]"),
   ("ombud", "Ombud [NAME]"), ("rätten", "RÄTTEN [NAME]"),
   ("rådmannen", "Rådmannen [NAME]")]

/-- Does `^label\s+(.+)` match this (newline-free) line?  It needs the
label prefix, at least one whitespace character, and at least one further
character for `.+`. -/
def labelLineMatches (label : String) (line : Str) : Bool :=
  let ll := label.toList
  prefixOf ll (lowerStr (line.take ll.length)) &&
    (let rest := line.drop ll.length
     match rest with
     | c :: _ :: _ => isSpaceChar c
     | _ => false)

/-- Paranoid name masking of a single line: the first matching label
rewrites the whole line to its canonical replacement. -/
def maskNameLine (line : Str) : Str :=
  match nameLabels.find? (fun lp => labelLineMatches lp.1 line) with
  | some lp => lp.2.toList
  | none => line

/-- Python `text.split(sep)` for a single separator character (keeps empty
pieces). -/
def splitOn (sep : Char) : Str → List Str
  | [] => [[]]
  | c :: rest =>
    if c = sep then [] :: splitOn sep rest
    else
      match splitOn sep rest with
      | w :: ws => (c :: w) :: ws
      | [] => [[c]]

/-- `sep.join(pieces)`. -/
def joinWith (sep : Char) : List Str → Str
  | [] => []
  | [w] => w
  | w :: ws => w ++ sep :: joinWith sep ws

/-- `mask_text_paranoid`: datetime (paranoid), emails and URLs to
`[LINK]`, every digit to `[NUM]`, then per-line role-label name masking. -/
def mask_text_paranoid (text : Str) : Str :=
  let text := (mask_datetime text "paranoid").1
  let text := subC emailMaskPat "[LINK]" text
  let text := subC urlPat "[LINK]" text
  let text := subC digitPat "[NUM]" text
  joinWith '\n' ((splitOn '\n' text).map maskNameLine)

/-- `mask_text(text, level)`. -/
def mask_text (text : Str) (level : String) : Str :=
  if level = "paranoid" then mask_text_paranoid text
  else if level = "strict" then mask_text_strict text
  else mask_text_normal text

/-! ### `pii_gate_check` -/

def allowedTokens : List String :=
  ["[phone]", "[email]", "[personnummer]", "[id]", "[redacted]", "[num]",
   "[link]", "[name]"]

/-- Step 1: replace every allowed masking token (case-insensitively) by
`[TOKEN]` before re-scanning. -/
def sanitizeTokens (text : Str) : Str :=
  allowedTokens.foldl
    (fun t tok => subC ⟨litCI tok, false, false⟩ "[TOKEN]" t) text

/-- `\b\d{6}[- ]\d{4}\b` -/
def pnPat3 : Pat :=
  ⟨seqM (classCnt isDigitChar 6) (seqM sepSp (classCnt isDigitChar 4)), true, true⟩

/-- `\b\d{10}\b` -/
def pnPat4 : Pat := ⟨classCnt isDigitChar 10, true, true⟩

/-- `\b(19|20)\d{2}[- ]\d{4}\b` and 12-digit variant are
`personnummerPat`; the gate checks those plus `pnPat3`/`pnPat4`. -/
def gatePersonnummer (s : Str) : Bool :=
  search ⟨seqM yearHead (seqM (classCnt isDigitChar 6)
            (seqM sepSp (classCnt isDigitChar 4))), true, true⟩ s ||
  search ⟨seqM yearHead (classCnt isDigitChar 10), true, true⟩ s ||
  search pnPat3 s || search pnPat4 s

/-- `\b(19|20)\d{2}(0[1-9]|1[0-2])(0[1-9]|[12]\d|3[01])\b` -/
def birthdatePat : Pat :=
  ⟨seqM yearHead (seqM (classCnt isDigitChar 2) (seqM month2 day2)), true, true⟩

/-- `\d{4}-\d{2}-\d{2}` (no anchors), used on the ±20 character context. -/
def dashDatePat : Pat :=
  ⟨seqM (classCnt isDigitChar 4) (seqM (chr '-') (seqM (classCnt isDigitChar 2)
     (seqM (chr '-') (classCnt isDigitChar 2)))), false, false⟩

/-- The birthdate check: some (non-overlapping) birthdate-shaped match
whose ±20-character context contains no dashed date. -/
def gateBirthdate (s : Str) : Bool :=
  (findAll birthdatePat s).any (fun ms =>
    let start := ms.1
    let stop := ms.1 + ms.2.length
    let cs := start - 20
    let ce := min s.length (stop + 20)
    let ctx := (s.drop cs).take (ce - cs)
    !search dashDatePat ctx)

/-- `^(19|20)\d{2}-\d{2}-\d{2}$` on a matched text (the gate skips phone
matches that are exactly a dashed date). -/
def isFullDashDate (t : Str) : Bool :=
  match t with
  | [a, b, c, d, e, f, g, h, i, j] =>
    ((a = '1' && b = '9') || (a = '2' && b = '0')) &&
    isDigitChar c && isDigitChar d && e = '-' &&
    isDigitChar f && isDigitChar g && h = '-' &&
    isDigitChar i && isDigitChar j
  | _ => false

/-- The gate's phone check: one of the three prefix phone patterns has a
match that is not a dashed date and contains ≥ 7 digits. -/
def gatePhone (s : Str) : Bool :=
  [phonePat1, phonePat2, phonePat3].any (fun pt =>
    (findAll pt s).any (fun ms =>
      !isFullDashDate ms.2 && 7 ≤ (ms.2.filter isDigitChar).length))

/-- The gate's unmasked-ID check (the four ID label patterns). -/
def gateIdLabel (s : Str) : Bool :=
  search idLabelPat1 s || search idLabelPat2 s || search idLabelPat2 s ||
    search idLabelPat4 s

/-- `\b\d{9,}\b` -/
def longNumber9Pat : Pat := ⟨classAtLeast isDigitChar 9, true, true⟩

/-- The reason codes collected by `pii_gate_check`, in check order. -/
def piiReasonList (text : Str) : List String :=
  let sanitized := sanitizeTokens text
  (if gatePersonnummer sanitized then ["personnummer_detected"] else []) ++
  (if gateBirthdate sanitized then ["birthdate_like_sequence_detected"] else []) ++
  (if search emailGatePat sanitized then ["email_detected"] else []) ++
  (if gatePhone sanitized then ["phone_detected"] else []) ++
  (if gateIdLabel sanitized then ["unmasked_id_detected"] else []) ++
  (if search longNumber9Pat sanitized then ["long_number_detected"] else [])

/-- `pii_gate_check(text)`: deterministic re-scan of already-masked text;
returns `(is_safe, reasons)`. -/
def pii_gate_check (text : Str) : Bool × List String :=
  ((piiReasonList text).isEmpty, piiReasonList text)

/-! ### Policies (`fortknox.py`) -/

/-- `KnoxPolicy` (`schemas.py`).  `quote_limit_words` and `max_bytes` are
non-negative in every policy the code constructs, so they are modelled as
`Nat`. -/
structure KnoxPolicy where
  policy_id : String
  policy_version : String
  ruleset_hash : String
  mode : String
  sanitize_min_level : String
  quote_limit_words : Nat
  date_strictness : String
  max_bytes : Nat
deriving DecidableEq, Repr

/-- The fixed `internal` policy of `get_policy`. -/
def internalPolicy : KnoxPolicy :=
  ⟨"internal", "1.0", "internal_v1", "internal", "normal", 8, "relaxed", 800000⟩

/-- The fixed `external` policy of `get_policy`. -/
def externalPolicy : KnoxPolicy :=
  ⟨"external", "1.0", "external_v1", "external", "strict", 8, "strict", 300000⟩

/-- `get_policy(policy_id)`: the two fixed policies; unknown ids raise. -/
def get_policy (policy_id : String) : Option KnoxPolicy :=
  if policy_id = "internal" then some internalPolicy
  else if policy_id = "external" then some externalPolicy
  else none

/-! ### Re-identification guard and quote breaking (`fortknox.py`) -/

/-- `\s+` as a free-standing pattern (for whitespace collapapsing). -/
def wsRunPat : Pat := ⟨classPlus isSpaceChar, false, false⟩

/-- Python `str.strip()` (for the whitespace of this code base). -/
def stripStr (s : Str) : Str :=
  ((s.dropWhile isSpaceChar).reverse.dropWhile isSpaceChar).reverse

/-- `normalize_text_for_n_gram`: lower-case, collapse whitespace runs to a
single space, strip. -/
def normalize_text_for_n_gram (text : Str) : Str :=
  stripStr (subC wsRunPat " " (lowerStr text))

/-- `create_n_grams(text, n)`: the `n`-word windows of `text.split()`,
joined with single spaces. -/
def create_n_grams (text : Str) (n : Nat) : List Str :=
  let words := splitWords text
  if words.length < n then []
  else (List.range (words.length - n + 1)).map
    (fun i => joinSpace ((words.drop i).take n))

/-- All `(quote_limit_words + 1)`-grams of the normalized input texts
(the code collects them into a set; membership is all that is used). -/
def inputNgrams (input_texts : List Str) (n : Nat) : List Str :=
  (input_texts.map (fun t => create_n_grams (normalize_text_for_n_gram t) n)).flatten

/-- `re_id_guard(rendered_text, input_texts, policy)`: flags
`quote_detected` when any `(quote_limit_words + 1)`-gram of a normalized
input text occurs as a substring of the normalized output. -/
def re_id_guard (rendered_text : Str) (input_texts : List Str)
    (policy : KnoxPolicy) : Bool × List String :=
  let normalized_output := normalize_text_for_n_gram rendered_text
  let n := policy.quote_limit_words + 1
  let reasons : List String :=
    if (inputNgrams input_texts n).any (fun g => containsSub normalized_output g)
    then ["quote_detected"] else []
  (reasons.isEmpty, reasons)

/-- A segment of `re.finditer(r"\s+|\S+", text)` together with its
`isspace()` flag, as kept by `break_quote_ngrams`. -/
abbrev Seg := Str × Bool

/-- Python `s.isspace()`. -/
def isSpaceSeg (s : Str) : Bool := !s.isEmpty && s.all isSpaceChar

/-- Maximal same-class (space / non-space) runs of a text, i.e. the
matches of `\s+|\S+` in order.  Fuel-structured like `splitWordsF`. -/
def segmentF : Nat → Str → List Str
  | _, [] => []
  | 0, _ :: _ => []
  | fuel + 1, c :: rest =>
    (c :: rest).take (runLen (fun d => isSpaceChar d = isSpaceChar c) (c :: rest)) ::
      segmentF fuel (rest.drop (runLen (fun d => isSpaceChar d = isSpaceChar c) (c :: rest) - 1))

def segment (s : Str) : List Str := segmentF s.length s

/-- `"".join(segs)`. -/
def joinSegs : List Seg → Str
  | [] => []
  | s :: rest => s.1 ++ joinSegs rest

/-- `word_seg_idxs` of `_rebuild_word_index`: indices of non-space
segments. -/
def wordSegIdxsFrom : Nat → List Seg → List Nat
  | _, [] => []
  | i, s :: rest =>
    if s.2 then wordSegIdxsFrom (i + 1) rest else i :: wordSegIdxsFrom (i + 1) rest

def wordSegIdxs (segs : List Seg) : List Nat := wordSegIdxsFrom 0 segs

/-- `word_tokens` of `_rebuild_word_index`: the non-space segments,
lower-cased. -/
def wordToks (segs : List Seg) : List Str :=
  (segs.filter (fun s => !s.2)).map (fun s => lowerStr s.1)

/-- First word index whose `n`-gram is one of the input `n`-grams
(`found_i` of the breaking loop). -/
def findNgramIdx (ngrams : List Str) (toks : List Str) (n : Nat) : Option Nat :=
  (List.range (toks.length - n + 1)).find?
    (fun i => ngrams.contains (joinSpace ((toks.drop i).take n)))

/-- Insert the break segments `" … "` before segment index `at`. -/
def insertBreak (segs : List Seg) (idx : Nat) : List Seg :=
  segs.take idx ++ [(" ".toList, true), ([ '…'], false), (" ".toList, true)] ++
    segs.drop idx

/-- The bounded breaking loop of `break_quote_ngrams`. -/
def breakLoop (ngrams : List Str) (n : Nat) :
    Nat → List Seg → Nat → List Seg × Nat
  | 0, segs, breaks => (segs, breaks)
  | fuel + 1, segs, breaks =>
    let toks := wordToks segs
    if toks.length < n then (segs, breaks)
    else
      match findNgramIdx ngrams toks n with
      | none => (segs, breaks)
      | some i =>
        let cut := max 3 (n / 2)
        let pos := min (i + cut) toks.length
        let idxs := wordSegIdxs segs
        let sat := if idxs.length ≤ pos then segs.length else idxs.getD pos 0
        breakLoop ngrams n fuel (insertBreak segs sat) (breaks + 1)

/-- `break_quote_ngrams(rendered_text, input_texts, policy, max_breaks)`:
deterministic de-quoting by inserting `…` markers. -/
def break_quote_ngrams (rendered_text : Str) (input_texts : List Str)
    (policy : KnoxPolicy) (max_breaks : Nat) : Str × Nat :=
  if rendered_text.isEmpty then (rendered_text, 0)
  else if input_texts.isEmpty then (rendered_text, 0)
  else if policy.quote_limit_words = 0 then (rendered_text, 0)
  else
    let n := policy.quote_limit_words + 1
    let ngrams := inputNgrams input_texts n
    let segs := (segment rendered_text).map (fun s => (s, isSpaceSeg s))
    let res := breakLoop ngrams n max_breaks segs 0
    (joinSegs res.1, res.2)

/-- Well-formedness of one segment: non-empty, and uniform in the space
class recorded by its flag. -/
def SegOK (s : Seg) : Prop := s.1 ≠ [] ∧ ∀ c ∈ s.1, isSpaceChar c = s.2

/-- Well-formedness of a segment list as maintained by the breaking loop:
every segment is well formed and no two word segments are adjacent. -/
def SegWF (segs : List Seg) : Prop :=
  (∀ s ∈ segs, SegOK s) ∧
    List.Chain' (fun a b : Seg => a.2 = true ∨ b.2 = true) segs

/-- Lower-casing one segment (spaceness flags are unaffected). -/
def lowerSeg (s : Seg) : Seg := (lowerStr s.1, s.2)

end FortKnox

namespace FortKnox

/-- A small policy (quote budget 2) used to exercise the guard on short
texts; the guard and breaker read only `quote_limit_words`. -/
def smallPolicy : KnoxPolicy :=
  ⟨"small", "1.0", "small_v1", "internal", "normal", 2, "relaxed", 800000⟩

/-- Another small policy value for separate concrete scenarios. -/
def smallPolicyB : KnoxPolicy :=
  ⟨"smallb", "1.0", "small_v1", "internal", "normal", 2, "relaxed", 800000⟩

end FortKnox

open FortKnox

/-- Claim C1: the spec and the code's own docstring require that paranoid
masking always passes `pii_gate_check`, but the input `"-@a.b"` is left
unchanged by `mask_text(_, "paranoid")` (the masking email pattern requires
a word boundary before the leading `-`, which fails at the start of the
text) while the gate's unanchored email pattern then matches, so the gate
returns `(False, ["email_detected"])` instead of `(True, [])`. -/
theorem claim1_paranoid_gate_code_bug :
    pii_gate_check (mask_text "-@a.b".toList "paranoid") =
      (false, ["email_detected"]) ∧
    pii_gate_check (mask_text "-@a.b".toList "paranoid") ≠ (true, []) := by
  constructor
  · decide
  · decide

/-- Claim C4: quote-guard soundness.  If some `(quote_limit_words + 1)`-word
n-gram of a normalized source text occurs (as a substring) in the
normalized candidate output, `re_id_guard` returns
`(False, ["quote_detected"])`. -/
theorem claim4_quote_guard_sound (rendered_text : Str) (input_texts : List Str)
    (policy : KnoxPolicy)
    (h : ∃ src ∈ input_texts,
         ∃ g ∈ create_n_grams (normalize_text_for_n_gram src)
                 (policy.quote_limit_words + 1),
           containsSub (normalize_text_for_n_gram rendered_text) g = true) :
    re_id_guard rendered_text input_texts policy = (false, ["quote_detected"]) := by
  obtain ⟨src, hsrc, g, hg, hsub⟩ := h
  have hmem : g ∈ inputNgrams input_texts (policy.quote_limit_words + 1) := by
    unfold inputNgrams
    rw [List.mem_flatten]
    exact ⟨_, List.mem_map_of_mem _ hsrc, hg⟩
  have hany : (inputNgrams input_texts (policy.quote_limit_words + 1)).any
      (fun g => containsSub (normalize_text_for_n_gram rendered_text) g) = true := by
    rw [List.any_eq_true]
    exact ⟨g, hmem, hsub⟩
  unfold re_id_guard
  simp only [hany]
  rfl

/-- Witness for C4 at a concrete candidate, source and policy. -/
theorem claim4_quote_guard_sound_witness :
    re_id_guard "xx en två tre yy".toList ["en två tre".toList] smallPolicy =
      (false, ["quote_detected"]) :=
  claim4_quote_guard_sound "xx en två tre yy".toList ["en två tre".toList]
    smallPolicy (by decide)

/-- Claim C5 counterexample: with quote budget 2, the source `"e f g"`
contributes the 3-gram `"e f g"`, which occurs in the candidate
`"xe f g"` only as a substring starting inside the word `"xe"`.  The
guard reports `quote_detected`, but `break_quote_ngrams` (which searches
only word-aligned n-grams) changes nothing — zero breaks — and re-running
the guard on the repaired text still reports the same n-gram. -/
theorem claim5_break_counterexample :
    re_id_guard "xe f g".toList ["e f g".toList] smallPolicyB =
      (false, ["quote_detected"]) ∧
    break_quote_ngrams "xe f g".toList ["e f g".toList] smallPolicyB 12 =
      ("xe f g".toList, 0) ∧
    re_id_guard
      (break_quote_ngrams "xe f g".toList ["e f g".toList] smallPolicyB 12).1
      ["e f g".toList] smallPolicyB = (false, ["quote_detected"]) := by
  refine ⟨by decide, by decide, by decide⟩

/-- Claim C8 counterexample: `mask_datetime` on
`"Möte 2026-01-06 13:24."` at `strict` does not produce the
`[DATE]`/`[TIME]` tokens stated in the claim — the code's tokens are
`[DATUM]` and `[TID]`. -/
theorem claim8_datetime_counterexample :
    (mask_datetime "Möte 2026-01-06 13:24.".toList "strict").1 ≠
      "Möte [DATE] [TIME].".toList := by
  decide

/-- Claim C8 (amended): `mask_datetime` on `"Möte 2026-01-06 13:24."` at
`strict` yields `"Möte [DATUM] [TID]."` — the ISO date replaced by the
date token and the clock time by the time token — with substitution
count 2 (hence ≥ 2). -/
theorem claim8_datetime_amended :
    (mask_datetime "Möte 2026-01-06 13:24.".toList "strict").1 =
      "Möte [DATUM] [TID].".toList ∧
    2 ≤ (mask_datetime "Möte 2026-01-06 13:24.".toList "strict").2 := by
  refine ⟨by decide, by decide⟩

/-- Claim C10: with quote budget 2 the source `"b c d"` has the single
3-gram `"b c d"`; the candidate `"ab c d"` contains it as a raw substring
(starting inside the word `"ab"`) but at no word-aligned position, yet
`re_id_guard` reports `quote_detected` — and `break_quote_ngrams` (which
searches only word-aligned n-grams) finds nothing to repair. -/
theorem claim10_substring_match_not_word_aligned :
    re_id_guard "ab c d".toList ["b c d".toList] smallPolicy =
      (false, ["quote_detected"]) ∧
    (∀ g ∈ inputNgrams ["b c d".toList] (smallPolicy.quote_limit_words + 1),
       g ∉ create_n_grams (normalize_text_for_n_gram "ab c d".toList)
             (smallPolicy.quote_limit_words + 1)) ∧
    break_quote_ngrams "ab c d".toList ["b c d".toList] smallPolicy 12 =
      ("ab c d".toList, 0) := by
  refine ⟨by decide, by decide, by decide⟩

namespace FortKnox

/-! ### Canonical JSON (`canonical_json` in `fortknox.py`)

`json.dumps(data, sort_keys=True, separators=(',',':'), ensure_ascii=False)`
with `datetime` values rendered via `isoformat()`.  Timestamps are modelled
as their ISO strings throughout. -/

/-- A scalar JSON value (the leaves of every value this pipeline
serializes). -/
inductive JScalar where
  | jnull : JScalar
  | jnum : Nat → JScalar
  | jstr : Str → JScalar
deriving DecidableEq, Repr

def lbrace : Char := Char.ofNat 123

def rbrace : Char := Char.ofNat 125

/-- Decimal digits of a natural number (fuel-structured). -/
def natDecF : Nat → Nat → Str
  | 0, _ => []
  | fuel + 1, n =>
    if n < 10 then [Char.ofNat (48 + n)]
    else natDecF fuel (n / 10) ++ [Char.ofNat (48 + n % 10)]

def natDec (n : Nat) : Str := natDecF (n + 1) n

def strOfNat (n : Nat) : String := String.mk (natDec n)

/-- JSON string escaping as `json.dumps` with `ensure_ascii=False`. -/
def jescChar (c : Char) : Str :=
  if c = '"' then ['\\', '"']
  else if c = '\\' then ['\\', '\\']
  else if c = '\n' then ['\\', 'n']
  else if c = '\t' then ['\\', 't']
  else if c = '\r' then ['\\', 'r']
  else if c = Char.ofNat 8 then ['\\', 'b']
  else if c = Char.ofNat 12 then ['\\', 'f']
  else if c.toNat < 32 then
    ['\\', 'u', '0', '0', SHA256.hexDigitChar (c.toNat / 16),
     SHA256.hexDigitChar (c.toNat % 16)]
  else [c]

def jesc (s : Str) : Str := s.flatMap jescChar

/-- Code-point lexicographic order on texts (Python string `<`). -/
def strLt : Str → Str → Bool
  | [], [] => false
  | [], _ :: _ => true
  | _ :: _, [] => false
  | a :: as, b :: bs =>
    if a.toNat < b.toNat then true
    else if b.toNat < a.toNat then false
    else strLt as bs

/-- Stable insertion into a sorted list (equal keys keep first-come order). -/
def insertSorted (le : α → α → Bool) (x : α) : List α → List α
  | [] => [x]
  | y :: ys => if le y x then y :: insertSorted le x ys else x :: y :: ys

/-- Stable insertion sort (Python `sorted` is stable). -/
def sortByB (le : α → α → Bool) : List α → List α
  | [] => []
  | x :: xs => insertSorted le x (sortByB le xs)

def jencScalar : JScalar → Str
  | .jnull => "null".toList
  | .jnum n => natDec n
  | .jstr s => '"' :: jesc s ++ ['"']

/-- A JSON string literal. -/
def jstrEnc (s : Str) : Str := '"' :: jesc s ++ ['"']

/-- Comma-join pre-encoded values (`separators=(',', ':')`). -/
def joinComma : List Str → Str
  | [] => []
  | [v] => v
  | v :: rest => v ++ ',' :: joinComma rest

/-- Encode sorted `key: encoded-value` entries. -/
def jencEntries (l : List (Str × Str)) : Str :=
  joinComma (l.map (fun kv => jstrEnc kv.1 ++ ':' :: kv.2))

/-- `sort_keys=True`: object keys in code-point order; entries carry
pre-encoded values. -/
def jencObjE (l : List (Str × Str)) : Str :=
  lbrace :: jencEntries (sortByB (fun a b => !strLt b.1 a.1) l) ++ [rbrace]

/-- A flat JSON object (scalar values only), canonically encoded
(`canonical_json` instantiated at this shape). -/
def jencFlatObj (l : List (Str × JScalar)) : Str :=
  jencObjE (l.map (fun kv => (kv.1, jencScalar kv.2)))

/-- A JSON array of pre-encoded values. -/
def jencArrE (l : List Str) : Str := '[' :: joinComma l ++ [']']

/-! ### Project entities (`models.py`), limited to the fields the Fort Knox
pack builder reads. -/

/-- A stored document.  `fortknox_excluded` models
`usage_restrictions["fortknox_excluded"]`; `is_fortknox_report` models
`document_metadata["source_type"] == "fortknox_report"`; `created_at` is the
ISO timestamp string. -/
structure Document where
  id : Nat
  created_at : Str
  sanitize_level : String
  sha256 : Option Str
  masked_text : Str
  fortknox_excluded : Bool
  is_fortknox_report : Bool
deriving DecidableEq, Repr

structure ProjectNote where
  id : Nat
  created_at : Str
  sanitize_level : String
  masked_body : Str
  fortknox_excluded : Bool
deriving DecidableEq, Repr

structure ProjectSource where
  id : Nat
  type : String
  title : Str
  url : Option Str
  created_at : Str
deriving DecidableEq, Repr

structure Project where
  id : Nat
  name : Str
  tags : List Str
  status : String
  created_at : Str
deriving DecidableEq, Repr

/-! ### The input pack builder (`build_knox_input_pack`) -/

structure KnoxDocumentItem where
  doc_id : Nat
  sha256 : Str
  sanitize_level : String
  updated_at : Str
  masked_text : Str
deriving DecidableEq, Repr

structure KnoxNoteItem where
  note_id : Nat
  sha256 : Str
  sanitize_level : String
  updated_at : Str
  masked_body : Str
deriving DecidableEq, Repr

structure KnoxSourceItem where
  source_id : Nat
  type : String
  title : Str
deriving DecidableEq, Repr

/-- A manifest entry: document/note entries carry
`kind/id/sha256/sanitize_level/updated_at`; source entries carry
`kind/id/url_hash/updated_at`. -/
inductive MEntry where
  | item (kind : String) (id : Nat) (sha256 : Str) (sanitize_level : String)
      (updated_at : Str) : MEntry
  | src (id : Nat) (url_hash : Option Str) (updated_at : Str) : MEntry
deriving DecidableEq, Repr

/-- The JSON object of a manifest entry, with the keys used in the code. -/
def mentryFields : MEntry → List (Str × JScalar)
  | .item kind id sha lvl upd =>
    [("kind".toList, .jstr kind.toList), ("id".toList, .jnum id),
     ("sha256".toList, .jstr sha), ("sanitize_level".toList, .jstr lvl.toList),
     ("updated_at".toList, .jstr upd)]
  | .src id uh upd =>
    [("kind".toList, .jstr "source".toList), ("id".toList, .jnum id),
     ("url_hash".toList, match uh with | some h => .jstr h | none => .jnull),
     ("updated_at".toList, .jstr upd)]

/-- `canonical_json(input_manifest)` — the fingerprint payload. -/
def manifestJson (manifest : List MEntry) : Str :=
  jencArrE (manifest.map (fun m => jencFlatObj (mentryFields m)))

/-- `m.get("kind", "")` as used for manifest sorting. -/
def mentryKind : MEntry → String
  | .item kind _ _ _ _ => kind
  | .src _ _ _ => "source"

/-- `m.get("id", 0)` as used for manifest sorting. -/
def mentryId : MEntry → Nat
  | .item _ id _ _ _ => id
  | .src id _ _ => id

structure KnoxInputPack where
  project : Project
  documents : List KnoxDocumentItem
  notes : List KnoxNoteItem
  sources : List KnoxSourceItem
  policy : KnoxPolicy
  template_id : String
  input_manifest : List MEntry
  input_fingerprint : Str
deriving DecidableEq, Repr

/-- Document content hash: use `doc.sha256` when truthy, else
`compute_sha256(doc.masked_text)`. -/
def docHash (d : Document) : Str :=
  match d.sha256 with
  | some h => if h.isEmpty then compute_sha256 d.masked_text else h
  | none => compute_sha256 d.masked_text

/-- The document query order: `created_at` ascending, then `id` ascending
(ISO timestamp strings compare chronologically). -/
def docLe (a b : Document) : Bool :=
  strLt a.created_at b.created_at ||
    (a.created_at = b.created_at && a.id ≤ b.id)

def noteLe (a b : ProjectNote) : Bool :=
  strLt a.created_at b.created_at ||
    (a.created_at = b.created_at && a.id ≤ b.id)

/-- The source query order: `type` ascending, then `id` ascending. -/
def sourceLe (a b : ProjectSource) : Bool :=
  strLt a.type.toList b.type.toList || (a.type = b.type && a.id ≤ b.id)

/-- `build_knox_input_pack`: sort, filter exclusions, build items and the
manifest, fingerprint the canonical manifest JSON. -/
def build_knox_input_pack (project : Project) (documents : List Document)
    (notes : List ProjectNote) (sources : List ProjectSource)
    (policy : KnoxPolicy) (template_id : String) : KnoxInputPack :=
  let docs := (sortByB docLe documents).filter
    (fun d => !(d.fortknox_excluded || d.is_fortknox_report))
  let nts := (sortByB noteLe notes).filter (fun n => !n.fortknox_excluded)
  let srcs := sortByB sourceLe sources
  let document_items := docs.map (fun d =>
    KnoxDocumentItem.mk d.id (docHash d) d.sanitize_level d.created_at d.masked_text)
  let document_manifest := docs.map (fun d =>
    MEntry.item "document" d.id (docHash d) d.sanitize_level d.created_at)
  let note_items := nts.map (fun n =>
    KnoxNoteItem.mk n.id (compute_sha256 n.masked_body) n.sanitize_level
      n.created_at n.masked_body)
  let note_manifest := nts.map (fun n =>
    MEntry.item "note" n.id (compute_sha256 n.masked_body) n.sanitize_level
      n.created_at)
  let source_items := srcs.map (fun s => KnoxSourceItem.mk s.id s.type s.title)
  let source_manifest := srcs.map (fun s =>
    MEntry.src s.id (s.url.map compute_sha256) s.created_at)
  let input_manifest := document_manifest ++ note_manifest ++ source_manifest
  let manifest_json := manifestJson input_manifest
  let input_fingerprint := compute_sha256 manifest_json
  ⟨project, document_items, note_items, source_items, policy, template_id,
   input_manifest, input_fingerprint⟩

/-! ### Pack serialization (`pack.model_dump()` fed to `canonical_json`) -/

def docItemJson (d : KnoxDocumentItem) : Str :=
  jencFlatObj
    [("doc_id".toList, .jnum d.doc_id), ("sha256".toList, .jstr d.sha256),
     ("sanitize_level".toList, .jstr d.sanitize_level.toList),
     ("updated_at".toList, .jstr d.updated_at),
     ("masked_text".toList, .jstr d.masked_text)]

def noteItemJson (n : KnoxNoteItem) : Str :=
  jencFlatObj
    [("note_id".toList, .jnum n.note_id), ("sha256".toList, .jstr n.sha256),
     ("sanitize_level".toList, .jstr n.sanitize_level.toList),
     ("updated_at".toList, .jstr n.updated_at),
     ("masked_body".toList, .jstr n.masked_body)]

def sourceItemJson (s : KnoxSourceItem) : Str :=
  jencFlatObj
    [("source_id".toList, .jnum s.source_id),
     ("type".toList, .jstr s.type.toList), ("title".toList, .jstr s.title)]

def policyJson (p : KnoxPolicy) : Str :=
  jencFlatObj
    [("policy_id".toList, .jstr p.policy_id.toList),
     ("policy_version".toList, .jstr p.policy_version.toList),
     ("ruleset_hash".toList, .jstr p.ruleset_hash.toList),
     ("mode".toList, .jstr p.mode.toList),
     ("sanitize_min_level".toList, .jstr p.sanitize_min_level.toList),
     ("quote_limit_words".toList, .jnum p.quote_limit_words),
     ("date_strictness".toList, .jstr p.date_strictness.toList),
     ("max_bytes".toList, .jnum p.max_bytes)]

/-- `canonical_json(pack.model_dump())`: the full pack object; the
`project` sub-object carries `id/name/tags/status/created_at`. -/
def packJson (pk : KnoxInputPack) : Str :=
  jencObjE
    [("project".toList,
      jencObjE
        [("id".toList, jencScalar (.jnum pk.project.id)),
         ("name".toList, jstrEnc pk.project.name),
         ("tags".toList, jencArrE (pk.project.tags.map jstrEnc)),
         ("status".toList, jstrEnc pk.project.status.toList),
         ("created_at".toList, jstrEnc pk.project.created_at)]),
     ("documents".toList, jencArrE (pk.documents.map docItemJson)),
     ("notes".toList, jencArrE (pk.notes.map noteItemJson)),
     ("sources".toList, jencArrE (pk.sources.map sourceItemJson)),
     ("policy".toList, policyJson pk.policy),
     ("template_id".toList, jstrEnc pk.template_id.toList),
     ("input_manifest".toList,
      jencArrE (pk.input_manifest.map (fun m => jencFlatObj (mentryFields m)))),
     ("input_fingerprint".toList, jstrEnc pk.input_fingerprint)]

/-! ### `input_gate` (`fortknox.py`) -/

/-- `min_level_order.get(level, 0)` with `normal < strict < paranoid`. -/
def levelOrd (s : String) : Nat :=
  if s = "normal" then 0
  else if s = "strict" then 1
  else if s = "paranoid" then 2
  else 0

/-- The concatenated sanitized payload: `"\n\n".join(documents + notes)`. -/
def combinedText (pack : KnoxInputPack) : Str :=
  joinWith2 ((pack.documents.map (fun d => d.masked_text)) ++
             (pack.notes.map (fun n => n.masked_body)))
where
  joinWith2 : List Str → Str
    | [] => []
    | [t] => t
    | t :: rest => t ++ '\n' :: '\n' :: joinWith2 rest

/-- Serialized pack size in bytes: `len(canonical_json(pack.model_dump())
.encode("utf-8"))`. -/
def packSize (pack : KnoxInputPack) : Nat :=
  (SHA256.utf8 (packJson pack)).length

/-- The per-document sanitize-level reasons of `input_gate`. -/
def gateDocReasons (pack : KnoxInputPack) (policy : KnoxPolicy) : List String :=
  pack.documents.flatMap (fun d =>
    if levelOrd d.sanitize_level < levelOrd policy.sanitize_min_level
    then ["document_" ++ strOfNat d.doc_id ++ "_sanitize_level_too_low"] else [])

/-- The per-note sanitize-level reasons of `input_gate`. -/
def gateNoteReasons (pack : KnoxInputPack) (policy : KnoxPolicy) : List String :=
  pack.notes.flatMap (fun n =>
    if levelOrd n.sanitize_level < levelOrd policy.sanitize_min_level
    then ["note_" ++ strOfNat n.note_id ++ "_sanitize_level_too_low"] else [])

/-- The PII-gate reasons of `input_gate`, prefixed with `pii_gate_`. -/
def gatePiiReasons (pack : KnoxInputPack) : List String :=
  if (pii_gate_check (combinedText pack)).1 then []
  else (pii_gate_check (combinedText pack)).2.map (fun r => "pii_gate_" ++ r)

/-- The byte-budget reason of `input_gate`. -/
def gateSizeReasons (pack : KnoxInputPack) (policy : KnoxPolicy) : List String :=
  if policy.max_bytes < packSize pack
  then ["pack_size_exceeded_" ++ strOfNat (packSize pack) ++ "_" ++
        strOfNat policy.max_bytes]
  else []

/-- `input_gate(pack, policy)`: sanitize levels, PII gate on the combined
payload, byte budget. -/
def input_gate (pack : KnoxInputPack) (policy : KnoxPolicy) :
    Bool × List String :=
  let reasons := gateDocReasons pack policy ++ gateNoteReasons pack policy ++
    gatePiiReasons pack ++ gateSizeReasons pack policy
  (reasons.isEmpty, reasons)

end FortKnox

namespace FortKnox

/-! ### The compile pipeline, steps 1–5 of `compile_fortknox_report`
(`main.py`).

The pipeline is modelled up to the external-compiler boundary: the result
of a compile request is either a structured error, a stored report returned
by the idempotency lookup, or the decision to call the external compiler
with the assembled pack (`callsRemote`).  Environment values model
`os.getenv` results. -/

structure KnoxReport where
  id : Nat
  project_id : Nat
  policy_id : String
  policy_version : String
  ruleset_hash : String
  template_id : String
  engine_id : String
  input_fingerprint : Str
  input_manifest : List MEntry
  rendered_markdown : Option Str
deriving DecidableEq, Repr

structure SelectionItem where
  type : String
  id : Nat
deriving DecidableEq, Repr

structure SelectionSet where
  includeItems : List SelectionItem
  excludeItems : List SelectionItem
deriving DecidableEq, Repr

structure KnoxCompileRequest where
  project_id : Nat
  policy_id : String
  template_id : String
  selection : Option SelectionSet
  snapshot_mode : Bool
deriving DecidableEq, Repr

/-- `FORTKNOX_TESTMODE == "1"`, `os.getenv("FORTKNOX_ENGINE_ID", "remote")`
and `os.getenv("FORTKNOX_REMOTE_URL", "")`. -/
structure CompileEnv where
  test_mode : Bool
  engine_env : String
  remote_url : String
deriving DecidableEq, Repr

/-- `engine_id_current`: `"test_mode"` in test mode, else the stripped
engine env var with fallback `"remote"`. -/
def engineIdCurrent (env : CompileEnv) : String :=
  let e0 := if env.test_mode then "test_mode" else env.engine_env
  let e1 := String.mk (stripStr e0.toList)
  if e1 = "" then (if env.test_mode then "test_mode" else "remote") else e1

def selIncludeDocs (sel : SelectionSet) : List Nat :=
  (sel.includeItems.filter (fun i => i.type = "document")).map (fun i => i.id)

def selIncludeNotes (sel : SelectionSet) : List Nat :=
  (sel.includeItems.filter (fun i => i.type = "note")).map (fun i => i.id)

def selExcludeDocs (sel : SelectionSet) : List Nat :=
  (sel.excludeItems.filter (fun i => i.type = "document")).map (fun i => i.id)

def selExcludeNotes (sel : SelectionSet) : List Nat :=
  (sel.excludeItems.filter (fun i => i.type = "note")).map (fun i => i.id)

/-- Membership in `final_doc_ids`: include-intersection (only when an
include list is given) minus excludes. -/
def selKeepDoc (sel : SelectionSet) (currentIds : List Nat) (id : Nat) : Bool :=
  (if (selIncludeDocs sel).isEmpty then true
   else (selIncludeDocs sel).contains id && currentIds.contains id) &&
  !((selExcludeDocs sel).contains id)

def selKeepNote (sel : SelectionSet) (currentIds : List Nat) (id : Nat) : Bool :=
  (if (selIncludeNotes sel).isEmpty then true
   else (selIncludeNotes sel).contains id && currentIds.contains id) &&
  !((selExcludeNotes sel).contains id)

/-- Manifest sort key `(kind, id)` used after a selection. -/
def mentryLe (a b : MEntry) : Bool :=
  strLt (mentryKind a).toList (mentryKind b).toList ||
    (mentryKind a = mentryKind b && mentryId a ≤ mentryId b)

/-- Step 1.2: apply the selection / snapshot filter, rebuild the manifest
and re-fingerprint; empty selections fail with `EMPTY_INPUT_SET`. -/
def applySelection (pack : KnoxInputPack) (request : KnoxCompileRequest) :
    Except (String × List String) KnoxInputPack :=
  if request.snapshot_mode || request.selection.isSome then
    let sel := request.selection.getD ⟨[], []⟩
    let currentD := pack.documents.map (fun d => d.doc_id)
    let currentN := pack.notes.map (fun n => n.note_id)
    let newDocs := pack.documents.filter (fun d => selKeepDoc sel currentD d.doc_id)
    let newNotes := pack.notes.filter (fun n => selKeepNote sel currentN n.note_id)
    if newDocs.length + newNotes.length = 0 then
      .error ("EMPTY_INPUT_SET",
        ["Du har exkluderat allt underlag. Välj minst ett dokument eller en anteckning."])
    else
      let newManifest :=
        newDocs.map (fun d =>
          MEntry.item "document" d.doc_id d.sha256 d.sanitize_level d.updated_at) ++
        newNotes.map (fun n =>
          MEntry.item "note" n.note_id n.sha256 n.sanitize_level n.updated_at) ++
        pack.input_manifest.filter (fun m => mentryKind m = "source")
      let sortedManifest := sortByB mentryLe newManifest
      let fp := compute_sha256 (manifestJson sortedManifest)
      .ok { pack with documents := newDocs, notes := newNotes,
                      input_manifest := sortedManifest, input_fingerprint := fp }
  else .ok pack

/-- Outcome of the pipeline up to the external-compiler boundary. -/
inductive CompileStage where
  | failure (error_code : String) (reasons : List String) : CompileStage
  | cached (r : KnoxReport) : CompileStage
  | callsRemote (pack : KnoxInputPack) (engine_id : String) : CompileStage
deriving DecidableEq, Repr

/-- The idempotency lookup filter: `(project_id, policy_id, template_id,
input_fingerprint, engine_id)`. -/
def reportMatches (request : KnoxCompileRequest) (fp : Str) (eng : String)
    (r : KnoxReport) : Bool :=
  r.project_id = request.project_id && r.policy_id = request.policy_id &&
  r.template_id = request.template_id && r.input_fingerprint = fp &&
  r.engine_id = eng

/-- Steps 1–5 of `compile_fortknox_report`: policy lookup, pack build,
selection, empty-set check, input gate, idempotency lookup, offline check,
then the external call.  An unknown policy id raises `ValueError`, which
the generic handler converts to `INTERNAL_ERROR`. -/
def compile_fortknox_report (env : CompileEnv) (store : List KnoxReport)
    (project : Project) (documents : List Document) (notes : List ProjectNote)
    (sources : List ProjectSource) (request : KnoxCompileRequest) : CompileStage :=
  match get_policy request.policy_id with
  | none => .failure "INTERNAL_ERROR" ["unexpected_error"]
  | some policy =>
    let pack0 := build_knox_input_pack project documents notes sources policy
      request.template_id
    match applySelection pack0 request with
    | .error e => .failure e.1 e.2
    | .ok pack =>
      if pack.documents.length + pack.notes.length + pack.sources.length = 0 then
        .failure "EMPTY_INPUT_SET"
          ["Alla dokument, anteckningar och källor är exkluderade från sammanställningen"]
      else if !(input_gate pack policy).1 then
        .failure "INPUT_GATE_FAILED" (input_gate pack policy).2
      else
        let eng := engineIdCurrent env
        match store.find? (reportMatches request pack.input_fingerprint eng) with
        | some r => .cached r
        | none =>
          if !env.test_mode && String.mk (stripStr env.remote_url.toList) = "" then
            .failure "FORTKNOX_OFFLINE" ["remote_url_not_configured"]
          else .callsRemote pack eng

def stageErrorCode : CompileStage → Option String
  | .failure c _ => some c
  | _ => none

def stageRemotePack : CompileStage → Option KnoxInputPack
  | .callsRemote pk _ => some pk
  | _ => none

end FortKnox

namespace FortKnox

/-! ### Fingerprint dependence analysis (claim C2)

`docProj`/`noteProj`/`srcProj` project exactly the manifest-relevant data
of each stored item: identity, timestamp, sanitize level, exclusion flags
and content hash.  The fingerprint of a built pack is a function of these
projections alone. -/

structure DocKey where
  id : Nat
  created_at : Str
  sanitize_level : String
  fortknox_excluded : Bool
  is_fortknox_report : Bool
  hash : Str
deriving DecidableEq, Repr

def docProj (d : Document) : DocKey :=
  ⟨d.id, d.created_at, d.sanitize_level, d.fortknox_excluded,
   d.is_fortknox_report, docHash d⟩

def docKeyLe (a b : DocKey) : Bool :=
  strLt a.created_at b.created_at || (a.created_at = b.created_at && a.id ≤ b.id)

def docKeyKeep (k : DocKey) : Bool := !(k.fortknox_excluded || k.is_fortknox_report)

def docKeyEntry (k : DocKey) : MEntry :=
  .item "document" k.id k.hash k.sanitize_level k.created_at

structure NoteKey where
  id : Nat
  created_at : Str
  sanitize_level : String
  fortknox_excluded : Bool
  bodyHash : Str
deriving DecidableEq, Repr

def noteProj (n : ProjectNote) : NoteKey :=
  ⟨n.id, n.created_at, n.sanitize_level, n.fortknox_excluded,
   compute_sha256 n.masked_body⟩

def noteKeyLe (a b : NoteKey) : Bool :=
  strLt a.created_at b.created_at || (a.created_at = b.created_at && a.id ≤ b.id)

def noteKeyKeep (k : NoteKey) : Bool := !k.fortknox_excluded

def noteKeyEntry (k : NoteKey) : MEntry :=
  .item "note" k.id k.bodyHash k.sanitize_level k.created_at

structure SrcKey where
  id : Nat
  type : String
  created_at : Str
  urlHash : Option Str
deriving DecidableEq, Repr

def srcProj (s : ProjectSource) : SrcKey :=
  ⟨s.id, s.type, s.created_at, s.url.map compute_sha256⟩

def srcKeyLe (a b : SrcKey) : Bool :=
  strLt a.type.toList b.type.toList || (a.type = b.type && a.id ≤ b.id)

def srcKeyEntry (k : SrcKey) : MEntry := .src k.id k.urlHash k.created_at

/-- `insertSorted` commutes with a projection the order factors through. -/
theorem map_insertSorted_factor (f : α → β) (le : α → α → Bool)
    (leB : β → β → Bool) (h : ∀ a b, le a b = leB (f a) (f b)) (x : α) :
    ∀ l : List α,
      (insertSorted le x l).map f = insertSorted leB (f x) (l.map f)
  | [] => rfl
  | y :: ys => by
    simp only [insertSorted, List.map_cons, h]
    by_cases hc : leB (f y) (f x) = true
    · simp only [hc, if_true, List.map_cons,
        map_insertSorted_factor f le leB h x ys]
    · simp only [Bool.not_eq_true] at hc
      simp only [hc, Bool.false_eq_true, if_false, List.map_cons]

/-- `sortByB` commutes with a projection the order factors through. -/
theorem map_sortByB_factor (f : α → β) (le : α → α → Bool)
    (leB : β → β → Bool) (h : ∀ a b, le a b = leB (f a) (f b)) :
    ∀ l : List α, (sortByB le l).map f = sortByB leB (l.map f)
  | [] => rfl
  | x :: xs => by
    simp only [sortByB, List.map_cons]
    rw [map_insertSorted_factor f le leB h, map_sortByB_factor f le leB h xs]

/-- `filter` commutes with a projection the predicate factors through. -/
theorem map_filter_factor (f : α → β) (q : α → Bool) (qB : β → Bool)
    (h : ∀ a, q a = qB (f a)) :
    ∀ l : List α, (l.filter q).map f = (l.map f).filter qB
  | [] => rfl
  | x :: xs => by
    simp only [List.filter_cons, h, List.map_cons]
    by_cases hc : qB (f x) = true
    · simp only [hc, if_true, List.map_cons, map_filter_factor f q qB h xs]
    · simp only [Bool.not_eq_true] at hc
      simp only [hc, Bool.false_eq_true, if_false, map_filter_factor f q qB h xs]

/-- `map` factors through a projection. -/
theorem map_map_factor (f : α → β) (g : α → γ) (gB : β → γ)
    (h : ∀ a, g a = gB (f a)) :
    ∀ l : List α, l.map g = (l.map f).map gB
  | [] => rfl
  | x :: xs => by
    simp only [List.map_cons, h, map_map_factor f g gB h xs]

/-- The document part of the manifest is a function of `docProj`. -/
theorem docManifest_factor (documents : List Document) :
    (((sortByB docLe documents).filter
        (fun d => !(d.fortknox_excluded || d.is_fortknox_report))).map
      (fun d => MEntry.item "document" d.id (docHash d) d.sanitize_level d.created_at)) =
    (((sortByB docKeyLe (documents.map docProj)).filter docKeyKeep).map docKeyEntry) := by
  have h3 := map_map_factor docProj
    (fun d => MEntry.item "document" d.id (docHash d) d.sanitize_level d.created_at)
    docKeyEntry (fun d => rfl)
  have h2 := map_filter_factor docProj
    (fun d => !(d.fortknox_excluded || d.is_fortknox_report)) docKeyKeep (fun d => rfl)
  have h1 := map_sortByB_factor docProj docLe docKeyLe (fun a b => rfl)
  rw [h3, h2, h1]

/-- The note part of the manifest is a function of `noteProj`. -/
theorem noteManifest_factor (notes : List ProjectNote) :
    (((sortByB noteLe notes).filter (fun n => !n.fortknox_excluded)).map
      (fun n => MEntry.item "note" n.id (compute_sha256 n.masked_body)
        n.sanitize_level n.created_at)) =
    (((sortByB noteKeyLe (notes.map noteProj)).filter noteKeyKeep).map noteKeyEntry) := by
  have h3 := map_map_factor noteProj
    (fun n => MEntry.item "note" n.id (compute_sha256 n.masked_body) n.sanitize_level n.created_at)
    noteKeyEntry (fun n => rfl)
  have h2 := map_filter_factor noteProj (fun n => !n.fortknox_excluded)
    noteKeyKeep (fun n => rfl)
  have h1 := map_sortByB_factor noteProj noteLe noteKeyLe (fun a b => rfl)
  rw [h3, h2, h1]

/-- The source part of the manifest is a function of `srcProj`. -/
theorem srcManifest_factor (sources : List ProjectSource) :
    ((sortByB sourceLe sources).map
      (fun s => MEntry.src s.id (s.url.map compute_sha256) s.created_at)) =
    ((sortByB srcKeyLe (sources.map srcProj)).map srcKeyEntry) := by
  have h3 := map_map_factor srcProj
    (fun s => MEntry.src s.id (s.url.map compute_sha256) s.created_at)
    srcKeyEntry (fun s => rfl)
  have h1 := map_sortByB_factor srcProj sourceLe srcKeyLe (fun a b => rfl)
  rw [h3, h1]

def c2project : Project :=
  ⟨1, "Projekt".toList, [], "active", "2026-01-01T00:00:00".toList⟩

/-- A document with a precomputed content hash. -/
def c2docA : Document :=
  ⟨1, "2026-01-01T00:00:00".toList, "normal", some "aa".toList,
   "hej".toList, false, false⟩

/-- The same document except for its timestamp: same id, same content
hash, same sanitize level, same membership. -/
def c2docB : Document :=
  ⟨1, "2026-01-02T00:00:00".toList, "normal", some "aa".toList,
   "hej".toList, false, false⟩

end FortKnox

/-- Claim C2 counterexample: two packs built from documents with equal
content hashes, sanitize levels and set membership (same single document
id) nevertheless get different fingerprints, because the manifest also
contains each entry's `updated_at` timestamp, which differs. -/
theorem claim2_fingerprint_counterexample :
    (build_knox_input_pack c2project [c2docB] [] [] internalPolicy "t1").input_fingerprint ≠
      (build_knox_input_pack c2project [c2docA] [] [] internalPolicy "t1").input_fingerprint ∧
    ((build_knox_input_pack c2project [c2docB] [] [] internalPolicy "t1").documents.map
        (fun d => (d.doc_id, d.sha256, d.sanitize_level)) =
      (build_knox_input_pack c2project [c2docA] [] [] internalPolicy "t1").documents.map
        (fun d => (d.doc_id, d.sha256, d.sanitize_level))) ∧
    (build_knox_input_pack c2project [c2docB] [] [] internalPolicy "t1").notes =
      (build_knox_input_pack c2project [c2docA] [] [] internalPolicy "t1").notes ∧
    (build_knox_input_pack c2project [c2docB] [] [] internalPolicy "t1").sources =
      (build_knox_input_pack c2project [c2docA] [] [] internalPolicy "t1").sources := by
  refine ⟨by decide, by decide, by decide, by decide⟩

/-- Claim C2 (amended): the input-pack fingerprint is equal across repeated
builds from identical inputs, and is a function of the manifest data alone —
each item's id, timestamp, sanitize level, exclusion flags and content hash
(and for sources the URL hash) — never of the project metadata, policy,
template id, item texts behind a precomputed hash, or source titles.  It
therefore also changes when an entry's `updated_at` timestamp changes (see
the counterexample), not only on hash / sanitize-level / membership
changes. -/
theorem claim2_fingerprint_amended (p p2 : Project) (pol pol2 : KnoxPolicy)
    (t t2 : String) (documents documents2 : List Document)
    (notes notes2 : List ProjectNote) (sources sources2 : List ProjectSource)
    (hd : documents2.map docProj = documents.map docProj)
    (hn : notes2.map noteProj = notes.map noteProj)
    (hs : sources2.map srcProj = sources.map srcProj) :
    (build_knox_input_pack p2 documents2 notes2 sources2 pol2 t2).input_fingerprint =
      (build_knox_input_pack p documents notes sources pol t).input_fingerprint := by
  unfold build_knox_input_pack
  simp only []
  rw [docManifest_factor, docManifest_factor, hd,
      noteManifest_factor, noteManifest_factor, hn,
      srcManifest_factor, srcManifest_factor, hs]

/-- Witness for C2 (amended): a build with different project metadata,
policy, template id and masked text (behind the same precomputed hash)
yields the same fingerprint. -/
theorem claim2_fingerprint_amended_witness :
    (build_knox_input_pack
        (Project.mk 2 "Annat".toList ["x".toList] "archived" "2027-01-01T00:00:00".toList)
        [⟨1, "2026-01-01T00:00:00".toList, "normal", some "aa".toList,
          "helt annan text".toList, false, false⟩]
        [] [] externalPolicy "t9").input_fingerprint =
      (build_knox_input_pack c2project [c2docA] [] [] internalPolicy "t1").input_fingerprint :=
  claim2_fingerprint_amended c2project
    (Project.mk 2 "Annat".toList ["x".toList] "archived" "2027-01-01T00:00:00".toList)
    internalPolicy externalPolicy "t1" "t9"
    [c2docA]
    [⟨1, "2026-01-01T00:00:00".toList, "normal", some "aa".toList,
      "helt annan text".toList, false, false⟩]
    [] [] [] []
    (by decide) (by decide) (by decide)

namespace FortKnox

def c3env : CompileEnv := ⟨false, "remote", "http://llm.local"⟩

def c3source : ProjectSource :=
  ⟨1, "web", "källa".toList, none, "2026-03-01T00:00:00".toList⟩

def c3request : KnoxCompileRequest := ⟨1, "internal", "t1", none, false⟩

end FortKnox

/-- Claim C3 counterexample: a request without a selection, for a project
whose pack contains zero documents and zero notes but one source, does not
fail with `EMPTY_INPUT_SET` — the emptiness check counts sources too — and
the pipeline proceeds all the way to the external-compiler call with an
empty document/note payload. -/
theorem claim3_empty_input_counterexample :
    stageErrorCode
      (compile_fortknox_report c3env [] c2project [] [] [c3source] c3request) = none ∧
    (stageRemotePack
        (compile_fortknox_report c3env [] c2project [] [] [c3source] c3request)).map
      (fun pk => (pk.documents, pk.notes)) = some ([], []) := by
  refine ⟨by decide, by decide⟩

/-- Claim C3 (amended): a compile fails with `EMPTY_INPUT_SET` before any
external call in exactly these situations: on the no-selection path, when
the built pack has zero documents, zero notes **and zero sources**; and on
the selection/snapshot path, when the selection filter leaves zero
documents and zero notes.  (A sources-only pack without a selection is not
rejected; see the counterexample.) -/
theorem claim3_empty_input_amended :
    (∀ (env : CompileEnv) (store : List KnoxReport) (project : Project)
       (docs : List Document) (notes : List ProjectNote)
       (srcs : List ProjectSource) (request : KnoxCompileRequest)
       (policy : KnoxPolicy),
      get_policy request.policy_id = some policy →
      request.selection = none →
      request.snapshot_mode = false →
      (build_knox_input_pack project docs notes srcs policy request.template_id).documents = [] →
      (build_knox_input_pack project docs notes srcs policy request.template_id).notes = [] →
      (build_knox_input_pack project docs notes srcs policy request.template_id).sources = [] →
      compile_fortknox_report env store project docs notes srcs request =
        .failure "EMPTY_INPUT_SET"
          ["Alla dokument, anteckningar och källor är exkluderade från sammanställningen"]) ∧
    (∀ (env : CompileEnv) (store : List KnoxReport) (project : Project)
       (docs : List Document) (notes : List ProjectNote)
       (srcs : List ProjectSource) (request : KnoxCompileRequest)
       (policy : KnoxPolicy),
      get_policy request.policy_id = some policy →
      (request.snapshot_mode || request.selection.isSome) = true →
      (build_knox_input_pack project docs notes srcs policy request.template_id).documents.filter
          (fun d => selKeepDoc (request.selection.getD ⟨[], []⟩)
            ((build_knox_input_pack project docs notes srcs policy request.template_id).documents.map
              (fun d => d.doc_id)) d.doc_id) = [] →
      (build_knox_input_pack project docs notes srcs policy request.template_id).notes.filter
          (fun n => selKeepNote (request.selection.getD ⟨[], []⟩)
            ((build_knox_input_pack project docs notes srcs policy request.template_id).notes.map
              (fun n => n.note_id)) n.note_id) = [] →
      compile_fortknox_report env store project docs notes srcs request =
        .failure "EMPTY_INPUT_SET"
          ["Du har exkluderat allt underlag. Välj minst ett dokument eller en anteckning."]) := by
  constructor
  · intro env store project docs notes srcs request policy hpol hsel hsnap hd hn hs
    unfold compile_fortknox_report
    rw [hpol]
    unfold applySelection
    rw [hsel, hsnap]
    simp only [Option.isSome_none, Bool.or_false, Bool.false_eq_true, if_false]
    rw [hd, hn, hs]
    simp
  · intro env store project docs notes srcs request policy hpol hcond hd hn
    unfold compile_fortknox_report
    rw [hpol]
    unfold applySelection
    rw [hcond]
    simp only [if_true]
    rw [hd, hn]
    simp

/-- Witness for C3 (amended), first part: an entirely empty project fails
with `EMPTY_INPUT_SET`. -/
theorem claim3_empty_input_amended_witness :
    compile_fortknox_report c3env [] c2project [] [] [] c3request =
      .failure "EMPTY_INPUT_SET"
        ["Alla dokument, anteckningar och källor är exkluderade från sammanställningen"] :=
  claim3_empty_input_amended.1 c3env [] c2project [] [] [] c3request
    internalPolicy (by decide) (by decide) (by decide) (by decide) (by decide)
    (by decide)

/-- Claim C6: when the input set is non-empty and the input gate passes,
the idempotency lookup runs before the endpoint check: with test mode off
and no remote endpoint configured, a stored report whose
`(project_id, policy_id, template_id, engine_id, fingerprint)` key matches
is returned as-is, and only when no stored report matches does the compile
fail with `FORTKNOX_OFFLINE`. -/
theorem claim6_offline_idempotency (env : CompileEnv) (store : List KnoxReport)
    (project : Project) (docs : List Document) (notes : List ProjectNote)
    (srcs : List ProjectSource) (request : KnoxCompileRequest)
    (policy : KnoxPolicy) (pack : KnoxInputPack)
    (hpol : get_policy request.policy_id = some policy)
    (hsel : applySelection
      (build_knox_input_pack project docs notes srcs policy request.template_id)
      request = .ok pack)
    (hne : ¬(pack.documents.length + pack.notes.length + pack.sources.length = 0))
    (hgate : (input_gate pack policy).1 = true)
    (htm : env.test_mode = false)
    (hurl : String.mk (stripStr env.remote_url.toList) = "") :
    (∀ r, store.find?
        (reportMatches request pack.input_fingerprint (engineIdCurrent env)) = some r →
      compile_fortknox_report env store project docs notes srcs request = .cached r) ∧
    (store.find?
        (reportMatches request pack.input_fingerprint (engineIdCurrent env)) = none →
      compile_fortknox_report env store project docs notes srcs request =
        .failure "FORTKNOX_OFFLINE" ["remote_url_not_configured"]) := by
  constructor
  · intro r hfind
    unfold compile_fortknox_report
    rw [hpol]
    dsimp only
    rw [hsel]
    dsimp only
    rw [if_neg hne, hgate]
    simp only [Bool.not_true, Bool.false_eq_true, if_false]
    rw [hfind]
  · intro hfind
    unfold compile_fortknox_report
    rw [hpol]
    dsimp only
    rw [hsel]
    dsimp only
    rw [if_neg hne, hgate]
    simp only [Bool.not_true, Bool.false_eq_true, if_false]
    rw [hfind]
    simp only [htm, hurl, Bool.not_false, Bool.true_and, decide_True, if_true]

namespace FortKnox

def w6doc : Document :=
  ⟨1, "2026-01-01T00:00:00".toList, "normal", some "aa".toList,
   "hej".toList, false, false⟩

def w6pack : KnoxInputPack :=
  build_knox_input_pack c2project [w6doc] [] [] internalPolicy "t1"

/-- A stored report for the same idempotency key as `w6pack`. -/
def w6report : KnoxReport :=
  ⟨7, 1, "internal", "1.0", "internal_v1", "t1", "remote",
   w6pack.input_fingerprint, w6pack.input_manifest, some "rapport".toList⟩

def w6env : CompileEnv := ⟨false, "remote", ""⟩

def w6request : KnoxCompileRequest := ⟨1, "internal", "t1", none, false⟩

end FortKnox

/-- Witness for C6: while offline (no endpoint, test mode off), a compile
for a fingerprint that was stored earlier returns the stored report. -/
theorem claim6_offline_idempotency_witness :
    compile_fortknox_report w6env [w6report] c2project [w6doc] [] [] w6request =
      .cached w6report :=
  (claim6_offline_idempotency w6env [w6report] c2project [w6doc] [] []
      w6request internalPolicy w6pack (by decide) rfl (by decide)
      (by decide) (by decide) (by decide)).1 w6report (by decide)

namespace FortKnox

/-- A conditional singleton `flatMap` is empty iff no element satisfies the
condition. -/
theorem flatMapIte_eq_nil_iff {α : Type} (l : List α) (P : α → Prop)
    [DecidablePred P] (msg : α → String) :
    (l.flatMap (fun a => if P a then [msg a] else []) = []) ↔ ∀ a ∈ l, ¬P a := by
  induction l with
  | nil => simp
  | cons x xs ih =>
    by_cases hx : P x
    · simp [hx]
    · simp [hx, ih]

/-- A satisfied condition contributes its message to the `flatMap`. -/
theorem mem_flatMapIte {α : Type} (l : List α) (P : α → Prop)
    [DecidablePred P] (msg : α → String) (a : α) (ha : a ∈ l) (hp : P a) :
    msg a ∈ l.flatMap (fun a => if P a then [msg a] else []) := by
  induction l with
  | nil => cases ha
  | cons x xs ih =>
    rcases List.mem_cons.mp ha with h | h
    · subst h
      simp [hp]
    · by_cases hx : P x <;> simp [hx, ih h]

/-- `pii_gate_check` is safe exactly when its reason list is empty. -/
theorem pii_gate_check_fst (t : Str) :
    (pii_gate_check t).1 = (pii_gate_check t).2.isEmpty := by
  simp only [pii_gate_check]

/-- `gatePiiReasons` is empty iff the PII gate passed. -/
theorem gatePiiReasons_eq_nil_iff (pack : KnoxInputPack) :
    gatePiiReasons pack = [] ↔ (pii_gate_check (combinedText pack)).1 = true := by
  unfold gatePiiReasons
  by_cases h : (pii_gate_check (combinedText pack)).1 = true
  · simp [h]
  · have hb : (pii_gate_check (combinedText pack)).1 = false :=
      Bool.not_eq_true _ |>.mp h
    simp only [hb, Bool.false_eq_true, if_false]
    constructor
    · intro hmap
      rw [List.map_eq_nil_iff] at hmap
      have hfst : (pii_gate_check (combinedText pack)).1 = true := by
        rw [pii_gate_check_fst, hmap]
        rfl
      exact absurd hfst h
    · intro htrue
      exact htrue.elim

end FortKnox

/-- Claim C7: `input_gate` returns `(True, [])` exactly when every
document's and note's sanitize level reaches `policy.sanitize_min_level`
(under `normal < strict < paranoid`), the concatenated masked payload
passes `pii_gate_check`, and the serialized pack fits in
`policy.max_bytes`; and each violated check contributes its specific
reason code. -/
theorem claim7_input_gate_iff (pack : KnoxInputPack) (policy : KnoxPolicy) :
    (input_gate pack policy = (true, []) ↔
      ((∀ d ∈ pack.documents,
          levelOrd policy.sanitize_min_level ≤ levelOrd d.sanitize_level) ∧
       (∀ n ∈ pack.notes,
          levelOrd policy.sanitize_min_level ≤ levelOrd n.sanitize_level) ∧
       (pii_gate_check (combinedText pack)).1 = true ∧
       packSize pack ≤ policy.max_bytes)) ∧
    (∀ d ∈ pack.documents,
       levelOrd d.sanitize_level < levelOrd policy.sanitize_min_level →
       ("document_" ++ strOfNat d.doc_id ++ "_sanitize_level_too_low") ∈
         (input_gate pack policy).2) ∧
    (∀ n ∈ pack.notes,
       levelOrd n.sanitize_level < levelOrd policy.sanitize_min_level →
       ("note_" ++ strOfNat n.note_id ++ "_sanitize_level_too_low") ∈
         (input_gate pack policy).2) ∧
    (∀ r ∈ (pii_gate_check (combinedText pack)).2,
       ("pii_gate_" ++ r) ∈ (input_gate pack policy).2 ∨
         (pii_gate_check (combinedText pack)).1 = true) ∧
    (policy.max_bytes < packSize pack →
       ("pack_size_exceeded_" ++ strOfNat (packSize pack) ++ "_" ++
         strOfNat policy.max_bytes) ∈ (input_gate pack policy).2) := by
  have hgate2 : (input_gate pack policy).2 =
      gateDocReasons pack policy ++ gateNoteReasons pack policy ++
      gatePiiReasons pack ++ gateSizeReasons pack policy := rfl
  refine ⟨?_, ?_, ?_, ?_, ?_⟩
  · constructor
    · intro h
      have hr : (input_gate pack policy).2 = [] := by rw [h]
      rw [hgate2] at hr
      rcases List.append_eq_nil.mp hr with ⟨hr1, hr4⟩
      rcases List.append_eq_nil.mp hr1 with ⟨hr2, hr3⟩
      rcases List.append_eq_nil.mp hr2 with ⟨hA, hB⟩
      refine ⟨?_, ?_, ?_, ?_⟩
      · intro d hd
        have := (flatMapIte_eq_nil_iff pack.documents _ _).mp hA d hd
        omega
      · intro n hn
        have := (flatMapIte_eq_nil_iff pack.notes _ _).mp hB n hn
        omega
      · exact (gatePiiReasons_eq_nil_iff pack).mp hr3
      · unfold gateSizeReasons at hr4
        by_cases hlt : policy.max_bytes < packSize pack
        · rw [if_pos hlt] at hr4
          cases hr4
        · omega
    · intro ⟨h1, h2, h3, h4⟩
      have hA : gateDocReasons pack policy = [] := by
        refine (flatMapIte_eq_nil_iff pack.documents _ _).mpr ?_
        intro d hd
        have := h1 d hd
        omega
      have hB : gateNoteReasons pack policy = [] := by
        refine (flatMapIte_eq_nil_iff pack.notes _ _).mpr ?_
        intro n hn
        have := h2 n hn
        omega
      have hC : gatePiiReasons pack = [] := (gatePiiReasons_eq_nil_iff pack).mpr h3
      have hD : gateSizeReasons pack policy = [] := by
        unfold gateSizeReasons
        rw [if_neg (by omega)]
      simp only [input_gate]
      rw [hA, hB, hC, hD]
      rfl
  · intro d hd hlt
    rw [hgate2]
    refine List.mem_append_left _ (List.mem_append_left _ (List.mem_append_left _ ?_))
    exact mem_flatMapIte pack.documents _
      (fun d => "document_" ++ strOfNat d.doc_id ++ "_sanitize_level_too_low") d hd hlt
  · intro n hn hlt
    rw [hgate2]
    refine List.mem_append_left _ (List.mem_append_left _ (List.mem_append_right _ ?_))
    exact mem_flatMapIte pack.notes _
      (fun n => "note_" ++ strOfNat n.note_id ++ "_sanitize_level_too_low") n hn hlt
  · intro r hr
    by_cases hsafe : (pii_gate_check (combinedText pack)).1 = true
    · exact Or.inr hsafe
    · refine Or.inl ?_
      rw [hgate2]
      refine List.mem_append_left _ (List.mem_append_right _ ?_)
      unfold gatePiiReasons
      simp only [Bool.not_eq_true] at hsafe
      rw [hsafe]
      simp only [Bool.false_eq_true, if_false]
      exact List.mem_map_of_mem _ hr
  · intro hlt
    rw [hgate2]
    refine List.mem_append_right _ ?_
    unfold gateSizeReasons
    rw [if_pos hlt]
    exact List.mem_singleton.mpr rfl

namespace FortKnox

def w7pack : KnoxInputPack :=
  build_knox_input_pack c2project [w6doc] [] [] internalPolicy "t1"

end FortKnox

/-- Witness for C7: a concrete benign pack passes the gate, by the
right-to-left direction of the characterisation. -/
theorem claim7_input_gate_iff_witness :
    input_gate w7pack internalPolicy = (true, []) :=
  (claim7_input_gate_iff w7pack internalPolicy).1.mpr
    ⟨by decide, by decide, by decide, by decide⟩

namespace FortKnox

/-! ### Word-splitting infrastructure for the quote-breaking analysis -/

theorem lowerChar_space {c : Char} (h : isSpaceChar c = true) :
    lowerChar c = c := by
  unfold isSpaceChar at h
  simp only [Bool.or_eq_true, decide_eq_true_eq] at h
  rcases h with ((((h | h) | h) | h) | h) | h <;> subst h <;> decide

theorem isSpaceChar_lowerChar (c : Char) :
    isSpaceChar (lowerChar c) = isSpaceChar c := by
  by_cases h1 : c = 'A'
  · subst h1
    decide
  by_cases h2 : c = 'B'
  · subst h2
    decide
  by_cases h3 : c = 'C'
  · subst h3
    decide
  by_cases h4 : c = 'D'
  · subst h4
    decide
  by_cases h5 : c = 'E'
  · subst h5
    decide
  by_cases h6 : c = 'F'
  · subst h6
    decide
  by_cases h7 : c = 'G'
  · subst h7
    decide
  by_cases h8 : c = 'H'
  · subst h8
    decide
  by_cases h9 : c = 'I'
  · subst h9
    decide
  by_cases h10 : c = 'J'
  · subst h10
    decide
  by_cases h11 : c = 'K'
  · subst h11
    decide
  by_cases h12 : c = 'L'
  · subst h12
    decide
  by_cases h13 : c = 'M'
  · subst h13
    decide
  by_cases h14 : c = 'N'
  · subst h14
    decide
  by_cases h15 : c = 'O'
  · subst h15
    decide
  by_cases h16 : c = 'P'
  · subst h16
    decide
  by_cases h17 : c = 'Q'
  · subst h17
    decide
  by_cases h18 : c = 'R'
  · subst h18
    decide
  by_cases h19 : c = 'S'
  · subst h19
    decide
  by_cases h20 : c = 'T'
  · subst h20
    decide
  by_cases h21 : c = 'U'
  · subst h21
    decide
  by_cases h22 : c = 'V'
  · subst h22
    decide
  by_cases h23 : c = 'W'
  · subst h23
    decide
  by_cases h24 : c = 'X'
  · subst h24
    decide
  by_cases h25 : c = 'Y'
  · subst h25
    decide
  by_cases h26 : c = 'Z'
  · subst h26
    decide
  by_cases h27 : c = 'Å'
  · subst h27
    decide
  by_cases h28 : c = 'Ä'
  · subst h28
    decide
  by_cases h29 : c = 'Ö'
  · subst h29
    decide
  by_cases h30 : c = 'É'
  · subst h30
    decide
  by_cases h31 : c = 'Ü'
  · subst h31
    decide
  unfold lowerChar
  rw [if_neg h1, if_neg h2, if_neg h3, if_neg h4, if_neg h5, if_neg h6, if_neg h7, if_neg h8, if_neg h9, if_neg h10, if_neg h11, if_neg h12, if_neg h13, if_neg h14, if_neg h15, if_neg h16, if_neg h17, if_neg h18, if_neg h19, if_neg h20, if_neg h21, if_neg h22, if_neg h23, if_neg h24, if_neg h25, if_neg h26, if_neg h27, if_neg h28, if_neg h29, if_neg h30, if_neg h31]

theorem runLen_cons_pos {p : Char → Bool} {c : Char} (rest : Str)
    (h : p c = true) : runLen p (c :: rest) = runLen p rest + 1 := by
  simp [runLen, h]

theorem runLen_cons_neg {p : Char → Bool} {c : Char} (rest : Str)
    (h : p c = false) : runLen p (c :: rest) = 0 := by
  simp [runLen, h]

theorem runLen_le_length (p : Char → Bool) : ∀ s : Str, runLen p s ≤ s.length
  | [] => Nat.le_refl 0
  | c :: rest => by
    by_cases h : p c = true
    · rw [runLen_cons_pos rest h]
      simpa using runLen_le_length p rest
    · rw [runLen_cons_neg rest (by simpa using h)]
      simp

theorem runLen_append_of_all {p : Char → Bool} :
    ∀ w v : Str, (∀ c ∈ w, p c = true) →
      runLen p (w ++ v) = w.length + runLen p v
  | [], v, _ => by simp
  | c :: w2, v, h => by
    have hc : p c = true := h c (List.mem_cons_self c w2)
    rw [List.cons_append, runLen_cons_pos _ hc,
      runLen_append_of_all w2 v (fun d hd => h d (List.mem_cons_of_mem c hd))]
    simp only [List.length_cons]
    omega

theorem runLen_eq_length {p : Char → Bool} (s : Str)
    (h : ∀ c ∈ s, p c = true) : runLen p s = s.length := by
  have := runLen_append_of_all s [] h
  simpa using this

theorem runLen_append_of_lt {p : Char → Bool} :
    ∀ w v : Str, runLen p w < w.length → runLen p (w ++ v) = runLen p w
  | [], _, h => by simp at h
  | c :: w2, v, h => by
    by_cases hc : p c = true
    · rw [runLen_cons_pos w2 hc] at h
      rw [List.cons_append, runLen_cons_pos _ hc,
        runLen_append_of_lt w2 v (by simpa using h), runLen_cons_pos w2 hc]
    · have hc2 : p c = false := by simpa using hc
      rw [List.cons_append, runLen_cons_neg _ hc2, runLen_cons_neg _ hc2]

theorem runLen_eq_zero {p : Char → Bool} (s : Str)
    (h : s = [] ∨ ∃ c rest, s = c :: rest ∧ p c = false) : runLen p s = 0 := by
  rcases h with h | ⟨c, rest, rfl, hc⟩
  · subst h
    rfl
  · exact runLen_cons_neg rest hc

theorem runLen_eq_length_all {p : Char → Bool} :
    ∀ s : Str, runLen p s = s.length → ∀ c ∈ s, p c = true
  | [], _, c, hc => by cases hc
  | c :: rest, h, d, hd => by
    by_cases hc : p c = true
    · rw [runLen_cons_pos rest hc] at h
      rcases List.mem_cons.mp hd with rfl | hd2
      · exact hc
      · exact runLen_eq_length_all rest (by simpa using h) d hd2
    · rw [runLen_cons_neg rest (by simpa using hc)] at h
      simp at h

theorem splitWordsF_congr :
    ∀ (f1 : Nat) (s : Str) (f2 : Nat), s.length ≤ f1 → s.length ≤ f2 →
      splitWordsF f1 s = splitWordsF f2 s
  | f1, [], f2, _, _ => by cases f1 <;> cases f2 <;> rfl
  | 0, c :: rest, _, h1, _ => by simp at h1
  | f1 + 1, c :: rest, 0, _, h2 => by simp at h2
  | f1 + 1, c :: rest, f2 + 1, h1, h2 => by
    simp only [splitWordsF]
    by_cases hc : isSpaceChar c = true
    · rw [if_pos hc, if_pos hc,
        splitWordsF_congr f1 rest f2 (by simpa using h1) (by simpa using h2)]
    · rw [if_neg hc, if_neg hc,
        splitWordsF_congr f1 (rest.drop (runLen (fun d => !isSpaceChar d) (c :: rest) - 1)) f2
          (by simp only [List.length_drop]; simp at h1; omega)
          (by simp only [List.length_drop]; simp at h2; omega)]

theorem splitWords_cons_space {c : Char} (rest : Str)
    (h : isSpaceChar c = true) : splitWords (c :: rest) = splitWords rest := by
  show splitWordsF (rest.length + 1) (c :: rest) = splitWordsF rest.length rest
  simp only [splitWordsF, h, if_pos]

theorem splitWords_cons_word {c : Char} (rest : Str)
    (h : isSpaceChar c = false) :
    splitWords (c :: rest) =
      (c :: rest).take (runLen (fun d => !isSpaceChar d) (c :: rest)) ::
        splitWords (rest.drop (runLen (fun d => !isSpaceChar d) (c :: rest) - 1)) := by
  show splitWordsF (rest.length + 1) (c :: rest) = _
  simp only [splitWordsF, h, Bool.false_eq_true, if_false]
  rw [splitWordsF_congr rest.length
    (rest.drop (runLen (fun d => !isSpaceChar d) (c :: rest) - 1))
    (rest.drop (runLen (fun d => !isSpaceChar d) (c :: rest) - 1)).length
    (by simp only [List.length_drop]; omega) (Nat.le_refl _)]
  rfl

theorem splitWords_space_append :
    ∀ (w v : Str), (∀ c ∈ w, isSpaceChar c = true) →
      splitWords (w ++ v) = splitWords v
  | [], v, _ => rfl
  | c :: w2, v, h => by
    rw [List.cons_append,
      splitWords_cons_space _ (h c (List.mem_cons_self c w2)),
      splitWords_space_append w2 v (fun d hd => h d (List.mem_cons_of_mem c hd))]

theorem splitWords_all_space (w : Str) (h : ∀ c ∈ w, isSpaceChar c = true) :
    splitWords w = [] := by
  have := splitWords_space_append w [] h
  simpa using this

/-- Prepending a non-empty all-non-space word to a text that does not start
with a word character splits off exactly that word. -/
theorem splitWords_word_append (w v : Str) (hw : w ≠ [])
    (hall : ∀ c ∈ w, isSpaceChar c = false)
    (hv : runLen (fun d => !isSpaceChar d) v = 0) :
    splitWords (w ++ v) = w :: splitWords v := by
  rcases w with _ | ⟨c, w2⟩
  · exact absurd rfl hw
  have hq : ∀ d ∈ c :: w2, (fun d => !isSpaceChar d) d = true := by
    intro d hd
    simp [hall d hd]
  have hc : isSpaceChar c = false := hall c (List.mem_cons_self c w2)
  rw [List.cons_append, splitWords_cons_word _ hc]
  have hrun : runLen (fun d => !isSpaceChar d) (c :: (w2 ++ v)) =
      (c :: w2).length := by
    have := runLen_append_of_all (c :: w2) v hq
    simp only [List.cons_append] at this
    rw [this, hv]
    omega
  rw [hrun]
  congr 1
  · have : c :: (w2 ++ v) = (c :: w2) ++ v := by simp
    rw [this, List.take_left]
  · have hlen : (c :: w2).length - 1 = w2.length := by simp
    rw [hlen, List.drop_left]

/-- Appending all-space text does not change the words. -/
theorem splitWords_append_space :
    ∀ (v w : Str), (∀ c ∈ w, isSpaceChar c = true) →
      splitWords (v ++ w) = splitWords v
  | [], w, h => by simpa using splitWords_all_space w h
  | c :: v2, w, h => by
    by_cases hc : isSpaceChar c = true
    · rw [List.cons_append, splitWords_cons_space _ hc,
        splitWords_cons_space _ hc, splitWords_append_space v2 w h]
    · have hc2 : isSpaceChar c = false := by simpa using hc
      have hw0 : runLen (fun d => !isSpaceChar d) w = 0 := by
        rcases w with _ | ⟨d, w2⟩
        · rfl
        · exact runLen_cons_neg w2 (by simp [h d (List.mem_cons_self d w2)])
      rw [List.cons_append, splitWords_cons_word _ hc2, splitWords_cons_word _ hc2]
      by_cases hk : runLen (fun d => !isSpaceChar d) (c :: v2) < (c :: v2).length
      · have hrun : runLen (fun d => !isSpaceChar d) (c :: (v2 ++ w)) =
            runLen (fun d => !isSpaceChar d) (c :: v2) := by
          have := runLen_append_of_lt (c :: v2) w hk
          simpa using this
        rw [hrun]
        have hkle : runLen (fun d => !isSpaceChar d) (c :: v2) ≤ (c :: v2).length :=
          Nat.le_of_lt hk
        have hpos : 0 < runLen (fun d => !isSpaceChar d) (c :: v2) := by
          rw [runLen_cons_pos v2 (by simp [hc2])]
          omega
        congr 1
        · rw [show c :: (v2 ++ w) = (c :: v2) ++ w by simp,
            List.take_append_of_le_length hkle]
        · rw [List.drop_append_of_le_length (by simp at hkle ⊢; omega)]
          exact splitWords_append_space _ w h
      · have hkeq : runLen (fun d => !isSpaceChar d) (c :: v2) = (c :: v2).length := by
          have := runLen_le_length (fun d => !isSpaceChar d) (c :: v2)
          omega
        have hall : ∀ d ∈ c :: v2, (fun d => !isSpaceChar d) d = true :=
          runLen_eq_length_all (c :: v2) hkeq
        have hrun : runLen (fun d => !isSpaceChar d) (c :: (v2 ++ w)) =
            (c :: v2).length := by
          have := runLen_append_of_all (c :: v2) w hall
          simp only [List.cons_append] at this ⊢
          rw [this, hw0]
          omega
        rw [hrun]
        congr 1
        · rw [show c :: (v2 ++ w) = (c :: v2) ++ w by simp, List.take_left,
            hkeq, List.take_length]
        · rw [hkeq]
          simp only [List.length_cons, Nat.add_sub_cancel]
          rw [List.drop_left, List.drop_length, splitWords_all_space w h]
          rfl
  termination_by v _ _ => v.length
  decreasing_by
    · simp
    · simp only [List.length_drop, List.length_cons]
      omega

end FortKnox

namespace FortKnox

theorem dropWhile_len_le (p : Char → Bool) :
    ∀ s : Str, (s.dropWhile p).length ≤ s.length
  | [] => Nat.le_refl 0
  | c :: rest => by
    by_cases hc : p c = true
    · rw [List.dropWhile_cons_of_pos hc]
      have := dropWhile_len_le p rest
      simp only [List.length_cons]
      omega
    · rw [List.dropWhile_cons_of_neg (by simpa using hc)]

theorem drop_runLen (p : Char → Bool) :
    ∀ s : Str, s.drop (runLen p s) = s.dropWhile p
  | [] => rfl
  | c :: rest => by
    by_cases hc : p c = true
    · rw [runLen_cons_pos rest hc, List.dropWhile_cons_of_pos hc]
      exact drop_runLen p rest
    · rw [runLen_cons_neg rest (by simpa using hc),
        List.dropWhile_cons_of_neg (by simpa using hc)]
      rfl

/-- Reference form of the whitespace-collapsing pass: each maximal
whitespace run becomes a single space. -/
def specCollapse : Str → Str
  | [] => []
  | c :: rest =>
    if isSpaceChar c then ' ' :: specCollapse (rest.dropWhile isSpaceChar)
    else c :: specCollapse rest
  termination_by s => s.length
  decreasing_by
    · have := dropWhile_len_le isSpaceChar rest
      simp only [List.length_cons]
      omega
    · simp

theorem specCollapse_eq (c : Char) (rest : Str) :
    specCollapse (c :: rest) =
      if isSpaceChar c then ' ' :: specCollapse (rest.dropWhile isSpaceChar)
      else c :: specCollapse rest := by
  rw [specCollapse]

theorem specCollapse_nil : specCollapse [] = [] := by
  rw [specCollapse]

theorem matchAt_wsRunPat (prev : Option Char) (s : Str) :
    Re.matchAt wsRunPat prev s =
      if 0 < runLen isSpaceChar s then some (runLen isSpaceChar s) else none := by
  show Re.matchAt ⟨Re.classPlus isSpaceChar, false, false⟩ prev s = _
  unfold Re.matchAt
  simp only [Bool.false_and, Bool.false_eq_true, if_false]
  unfold Re.classPlus
  by_cases h : 0 < runLen isSpaceChar s
  · rw [if_pos h]
    rcases hk : runLen isSpaceChar s with _ | k
    · omega
    · dsimp only
      rw [List.range_succ_eq_map, List.map_cons,
        List.find?_cons_of_pos _ (by simp)]
      simp
  · rw [if_neg h]
    have h0 : runLen isSpaceChar s = 0 := by omega
    dsimp only
    rw [h0]
    rfl

theorem scanSub_wsRun :
    ∀ (fuel : Nat) (prev : Option Char) (s : Str), s.length ≤ fuel →
      (Re.scanSub wsRunPat (fun _ => " ".toList) fuel prev s).1 = specCollapse s
  | fuel, _, [], _ => by cases fuel <;> simp [Re.scanSub, specCollapse]
  | 0, _, _ :: _, h => by simp at h
  | fuel + 1, prev, c :: rest, h => by
    simp only [Re.scanSub, matchAt_wsRunPat]
    by_cases hc : isSpaceChar c = true
    · have hpos : 0 < runLen isSpaceChar (c :: rest) := by
        rw [runLen_cons_pos rest hc]
        omega
      rw [if_pos hpos]
      dsimp only
      rw [if_pos hpos]
      dsimp only
      have hdrop : (c :: rest).drop (runLen isSpaceChar (c :: rest)) =
          rest.dropWhile isSpaceChar := by
        rw [drop_runLen, List.dropWhile_cons_of_pos hc]
      rw [hdrop]
      rw [scanSub_wsRun fuel
        ((c :: rest).take (runLen isSpaceChar (c :: rest))).getLast?
        (rest.dropWhile isSpaceChar)
        (by
          have := dropWhile_len_le isSpaceChar rest
          simp only [List.length_cons] at h
          omega)]
      rw [specCollapse_eq, if_pos hc]
      rfl
    · have h0 : runLen isSpaceChar (c :: rest) = 0 :=
        runLen_cons_neg rest (by simpa using hc)
      rw [h0]
      simp only [Nat.lt_irrefl, if_false]
      rw [scanSub_wsRun fuel (some c) rest
        (by simp only [List.length_cons] at h; omega)]
      rw [specCollapse_eq, if_neg (by simp [hc])]

/-- The collapsing pass of `normalize_text_for_n_gram` equals its
reference form. -/
theorem subC_wsRun (s : Str) : Re.subC wsRunPat " " s = specCollapse s := by
  unfold Re.subC Re.subn
  exact scanSub_wsRun s.length none s (Nat.le_refl _)

theorem splitWords_dropWhile_space (s : Str) :
    splitWords (s.dropWhile isSpaceChar) = splitWords s := by
  conv_rhs => rw [← List.takeWhile_append_dropWhile (p := isSpaceChar) (l := s)]
  rw [splitWords_space_append]
  intro c hc
  exact List.mem_takeWhile_imp hc

theorem specCollapse_word_append :
    ∀ (w v : Str), (∀ c ∈ w, isSpaceChar c = false) →
      specCollapse (w ++ v) = w ++ specCollapse v
  | [], v, _ => rfl
  | c :: w2, v, h => by
    have hc : isSpaceChar c = false := h c (List.mem_cons_self c w2)
    rw [List.cons_append, specCollapse_eq, if_neg (by simp [hc]),
      specCollapse_word_append w2 v (fun d hd => h d (List.mem_cons_of_mem c hd))]
    rfl

theorem dropWhile_head_not (p : Char → Bool) :
    ∀ s : Str, s.dropWhile p = [] ∨
      ∃ d v2, s.dropWhile p = d :: v2 ∧ p d = false
  | [] => Or.inl rfl
  | c :: rest => by
    by_cases hc : p c = true
    · rw [List.dropWhile_cons_of_pos hc]
      exact dropWhile_head_not p rest
    · rw [List.dropWhile_cons_of_neg (by simpa using hc)]
      exact Or.inr ⟨c, rest, rfl, by simpa using hc⟩

/-- Collapsing whitespace does not change the word list. -/
theorem splitWords_specCollapse :
    ∀ u : Str, splitWords (specCollapse u) = splitWords u
  | [] => by rw [specCollapse_nil]
  | c :: rest => by
    by_cases hc : isSpaceChar c = true
    · rw [specCollapse_eq, if_pos hc, splitWords_cons_space _ (by decide),
        splitWords_specCollapse (rest.dropWhile isSpaceChar),
        splitWords_dropWhile_space rest, splitWords_cons_space _ hc]
    · have hc2 : isSpaceChar c = false := by simpa using hc
      have hq : (fun d => !isSpaceChar d) c = true := by simp [hc2]
      have hsplit := List.takeWhile_append_dropWhile
        (p := fun d => !isSpaceChar d) (l := c :: rest)
      have hwne : (c :: rest).takeWhile (fun d => !isSpaceChar d) ≠ [] := by
        simp [List.takeWhile_cons, hc2]
      have hall : ∀ d ∈ (c :: rest).takeWhile (fun d => !isSpaceChar d),
          isSpaceChar d = false := by
        intro d hd
        have := List.mem_takeWhile_imp hd
        simpa using this
      have hv0 : runLen (fun d => !isSpaceChar d)
          ((c :: rest).dropWhile (fun d => !isSpaceChar d)) = 0 := by
        rcases dropWhile_head_not (fun d => !isSpaceChar d) (c :: rest) with h | ⟨d, v2, hd, hdf⟩
        · rw [h]
          rfl
        · rw [hd]
          exact runLen_cons_neg v2 hdf
      have hcv0 : runLen (fun d => !isSpaceChar d)
          (specCollapse ((c :: rest).dropWhile (fun d => !isSpaceChar d))) = 0 := by
        rcases dropWhile_head_not (fun d => !isSpaceChar d) (c :: rest) with h | ⟨d, v2, hd, hdf⟩
        · rw [h, specCollapse_nil]
          rfl
        · rw [hd, specCollapse_eq, if_pos (by simpa using hdf)]
          exact runLen_cons_neg _ (by decide)
      conv_rhs => rw [← hsplit]
      rw [splitWords_word_append _ _ hwne hall hv0]
      conv_lhs => rw [← hsplit]
      rw [specCollapse_word_append _ _ hall,
        splitWords_word_append _ _ hwne hall hcv0,
        splitWords_specCollapse ((c :: rest).dropWhile (fun d => !isSpaceChar d))]
  termination_by u => u.length
  decreasing_by
    · have := dropWhile_len_le isSpaceChar rest
      simp only [List.length_cons]
      omega
    · have h1 := dropWhile_len_le (fun d => !isSpaceChar d) rest
      simp only [List.dropWhile_cons, hc2, Bool.not_false, if_true, List.length_cons]
      omega

/-- Stripping outer whitespace does not change the word list. -/
theorem splitWords_stripStr (u : Str) :
    splitWords (stripStr u) = splitWords u := by
  unfold stripStr
  have ha : splitWords (u.dropWhile isSpaceChar) = splitWords u :=
    splitWords_dropWhile_space u
  set a := u.dropWhile isSpaceChar with hadef
  have hdecomp : a = ((a.reverse.dropWhile isSpaceChar).reverse) ++
      ((a.reverse.takeWhile isSpaceChar).reverse) := by
    have h1 : a.reverse.takeWhile isSpaceChar ++ a.reverse.dropWhile isSpaceChar =
        a.reverse := List.takeWhile_append_dropWhile _ _
    have h2 := congrArg List.reverse h1
    rw [List.reverse_append, List.reverse_reverse] at h2
    exact h2.symm
  have hsp : ∀ c ∈ (a.reverse.takeWhile isSpaceChar).reverse,
      isSpaceChar c = true := by
    intro c hc
    rw [List.mem_reverse] at hc
    exact List.mem_takeWhile_imp hc
  calc splitWords ((a.reverse.dropWhile isSpaceChar).reverse)
      = splitWords (((a.reverse.dropWhile isSpaceChar).reverse) ++
          ((a.reverse.takeWhile isSpaceChar).reverse)) :=
        (splitWords_append_space _ _ hsp).symm
    _ = splitWords a := by rw [← hdecomp]
    _ = splitWords u := ha

/-- The words of a normalized text are the lower-cased words of the
original text. -/
theorem splitWords_normalize (t : Str) :
    splitWords (normalize_text_for_n_gram t) = splitWords (lowerStr t) := by
  unfold normalize_text_for_n_gram
  rw [splitWords_stripStr, subC_wsRun, splitWords_specCollapse]

end FortKnox

namespace FortKnox

/-- Characters inside the measured run satisfy the predicate. -/
theorem take_runLen_all {p : Char → Bool} :
    ∀ s : Str, ∀ c ∈ s.take (runLen p s), p c = true
  | [], c, hc => by simp at hc
  | d :: rest, c, hc => by
    by_cases hd : p d = true
    · rw [runLen_cons_pos rest hd, List.take_succ_cons] at hc
      rcases List.mem_cons.mp hc with rfl | hc2
      · exact hd
      · exact take_runLen_all rest c hc2
    · rw [runLen_cons_neg rest (by simpa using hd)] at hc
      simp at hc

/-- A non-empty text all of whose characters have space class b is
classified b by isSpaceSeg. -/
theorem isSpaceSeg_uniform : ∀ (s : Str) (b : Bool), s ≠ [] →
    (∀ c ∈ s, isSpaceChar c = b) → isSpaceSeg s = b
  | [], _, hne, _ => absurd rfl hne
  | c :: rest, b, _, hall => by
    cases b with
    | false =>
      have hc : isSpaceChar c = false := hall c (List.mem_cons_self c rest)
      simp [isSpaceSeg, hc]
    | true =>
      simp only [isSpaceSeg, List.isEmpty_cons, Bool.not_false, Bool.true_and]
      rw [List.all_eq_true]
      exact hall

/-- The empty-text arm of segmentF, for every fuel value. -/
theorem segmentF_nil : ∀ fuel : Nat, segmentF fuel [] = []
  | 0 => rfl
  | _ + 1 => rfl

/-- Unfolding segmentF on a non-empty text. -/
theorem segmentF_cons (fuel : Nat) (c : Char) (rest : Str) :
    segmentF (fuel + 1) (c :: rest) =
      (c :: rest).take (runLen (fun d => isSpaceChar d = isSpaceChar c) (c :: rest)) ::
        segmentF fuel
          (rest.drop
            (runLen (fun d => isSpaceChar d = isSpaceChar c) (c :: rest) - 1)) := rfl

/-- The leading run of a non-empty text is non-empty, uniform, and
classified by the class of the first character. -/
theorem take_runLen_class (c : Char) (rest : Str) :
    (c :: rest).take (runLen (fun d => isSpaceChar d = isSpaceChar c) (c :: rest)) ≠ [] ∧
      (∀ d ∈ (c :: rest).take
          (runLen (fun d => isSpaceChar d = isSpaceChar c) (c :: rest)),
        isSpaceChar d = isSpaceChar c) ∧
      isSpaceSeg ((c :: rest).take
          (runLen (fun d => isSpaceChar d = isSpaceChar c) (c :: rest))) = isSpaceChar c := by
  have hpc : (fun d => decide (isSpaceChar d = isSpaceChar c)) c = true := by simp
  have hk := runLen_cons_pos (p := fun d => decide (isSpaceChar d = isSpaceChar c)) rest hpc
  have huni : ∀ d ∈ (c :: rest).take
      (runLen (fun d => isSpaceChar d = isSpaceChar c) (c :: rest)),
      isSpaceChar d = isSpaceChar c := by
    intro d hd
    have h2 := take_runLen_all (c :: rest) d hd
    exact of_decide_eq_true h2
  have hne : (c :: rest).take
      (runLen (fun d => isSpaceChar d = isSpaceChar c) (c :: rest)) ≠ [] := by
    rw [hk, List.take_succ_cons]
    exact List.cons_ne_nil c _
  exact ⟨hne, huni, isSpaceSeg_uniform _ _ hne huni⟩

/-- Every segment produced by segmentF is a non-empty uniform run, and
no two consecutive segments are both word runs. -/
theorem segmentF_ok :
    ∀ (fuel : Nat) (t : Str), t.length ≤ fuel →
      (∀ s ∈ segmentF fuel t, s ≠ [] ∧ ∀ c ∈ s, isSpaceChar c = isSpaceSeg s) ∧
        List.Chain' (fun a b : Str => isSpaceSeg a = true ∨ isSpaceSeg b = true)
          (segmentF fuel t)
  | fuel, [], _ => by
    rw [segmentF_nil]
    exact ⟨fun s hs => absurd hs (List.not_mem_nil s), List.chain'_nil⟩
  | 0, c :: rest, h => by simp at h
  | fuel + 1, c :: rest, h => by
    rw [segmentF_cons]
    obtain ⟨hne, huni, hcls⟩ := take_runLen_class c rest
    have hdrop : rest.drop
        (runLen (fun d => isSpaceChar d = isSpaceChar c) (c :: rest) - 1) =
        (c :: rest).dropWhile (fun d => isSpaceChar d = isSpaceChar c) := by
      have h2 := drop_runLen (fun d => isSpaceChar d = isSpaceChar c) (c :: rest)
      rw [runLen_cons_pos rest (by simp), Nat.add_sub_cancel]
      rw [runLen_cons_pos rest (by simp)] at h2
      exact h2
    have hlen2 : ((c :: rest).dropWhile
        (fun d => isSpaceChar d = isSpaceChar c)).length ≤ fuel := by
      rw [List.dropWhile_cons_of_pos (by simp)]
      have h4 := dropWhile_len_le (fun d => isSpaceChar d = isSpaceChar c) rest
      simp only [List.length_cons] at h
      omega
    have hih := segmentF_ok fuel
      (rest.drop (runLen (fun d => isSpaceChar d = isSpaceChar c) (c :: rest) - 1))
      (by rw [hdrop]; exact hlen2)
    constructor
    · intro s hs
      rcases List.mem_cons.mp hs with rfl | hs2
      · exact ⟨hne, fun d hd => by rw [huni d hd, hcls]⟩
      · exact hih.1 s hs2
    · apply List.chain'_cons'.mpr
      refine ⟨?_, hih.2⟩
      intro h2 hh2
      rcases dropWhile_head_not (fun d => isSpaceChar d = isSpaceChar c) (c :: rest)
        with hnil | ⟨d, u, hdu, hdf⟩
      · rw [hdrop, hnil, segmentF_nil] at hh2
        simp at hh2
      · rw [hdrop, hdu] at hh2
        have hlen3 : (d :: u).length ≤ fuel := by
          rw [← hdu]
          exact hlen2
        rcases fuel with _ | f2
        · simp at hlen3
        · rw [segmentF_cons] at hh2
          simp only [List.head?_cons, Option.mem_def, Option.some.injEq] at hh2
          subst hh2
          obtain ⟨hne2, huni2, hcls2⟩ := take_runLen_class d u
          have hdiff : isSpaceChar d ≠ isSpaceChar c := by simpa using hdf
          rw [hcls, hcls2]
          cases hc : isSpaceChar c with
          | true => exact Or.inl rfl
          | false =>
            cases hd : isSpaceChar d with
            | true => exact Or.inr rfl
            | false => exact absurd (hd.trans hc.symm) hdiff

/-- The flagged segmentation of any text is well formed. -/
theorem segment_SegWF (t : Str) :
    SegWF ((segment t).map (fun s => (s, isSpaceSeg s))) := by
  obtain ⟨h1, h2⟩ := segmentF_ok t.length t (Nat.le_refl _)
  constructor
  · intro s hs
    rw [List.mem_map] at hs
    obtain ⟨w, hw, rfl⟩ := hs
    obtain ⟨hne, huni⟩ := h1 w hw
    exact ⟨hne, huni⟩
  · exact List.chain'_map_of_chain' (fun s => (s, isSpaceSeg s))
      (fun a b hab => hab) h2

/-- Concatenating segment lists concatenates the joined texts. -/
theorem joinSegs_append :
    ∀ a b : List Seg, joinSegs (a ++ b) = joinSegs a ++ joinSegs b
  | [], _ => rfl
  | s :: a2, b => by
    rw [List.cons_append]
    show s.1 ++ joinSegs (a2 ++ b) = (s.1 ++ joinSegs a2) ++ joinSegs b
    rw [joinSegs_append a2 b, List.append_assoc]

/-- On a well-formed segment list, the word split of the joined text is
exactly the list of word segments. -/
theorem splitWords_joinSegs :
    ∀ segs : List Seg, SegWF segs →
      splitWords (joinSegs segs) = (segs.filter (fun s => !s.2)).map Prod.fst
  | [], _ => rfl
  | (w, b) :: rest, h => by
    obtain ⟨hok, hch⟩ := h
    have hokw := hok (w, b) (List.mem_cons_self _ _)
    have hrest : SegWF rest :=
      ⟨fun s hs => hok s (List.mem_cons_of_mem _ hs), hch.tail⟩
    have hih := splitWords_joinSegs rest hrest
    cases b with
    | true =>
      have hsp : ∀ c ∈ w, isSpaceChar c = true := fun c hc => hokw.2 c hc
      show splitWords (w ++ joinSegs rest) = _
      rw [splitWords_space_append w _ hsp, hih]
      simp [List.filter_cons]
    | false =>
      have hword : ∀ c ∈ w, isSpaceChar c = false := fun c hc => hokw.2 c hc
      have hv : runLen (fun d => !isSpaceChar d) (joinSegs rest) = 0 := by
        rcases rest with _ | ⟨s2, rest2⟩
        · rfl
        · have hs2 : s2.2 = true := by
            rcases (List.chain'_cons.mp hch).1 with h2 | h2
            · exact absurd h2 (by simp)
            · exact h2
          have hoks2 := hok s2 (List.mem_cons_of_mem _ (List.mem_cons_self _ _))
          rcases hs21 : s2.1 with _ | ⟨d, u⟩
          · exact absurd hs21 hoks2.1
          · show runLen _ (s2.1 ++ joinSegs rest2) = 0
            rw [hs21, List.cons_append]
            apply runLen_cons_neg
            have h3 := hoks2.2 d (by rw [hs21]; exact List.mem_cons_self _ _)
            rw [hs2] at h3
            simp [h3]
      show splitWords (w ++ joinSegs rest) = _
      rw [splitWords_word_append w _ hokw.1 hword hv, hih]
      simp [List.filter_cons]

/-- Lower-casing a joined segment list lower-cases every segment. -/
theorem joinSegs_map_lower :
    ∀ segs : List Seg, lowerStr (joinSegs segs) = joinSegs (segs.map lowerSeg)
  | [] => rfl
  | s :: rest => by
    show lowerStr (s.1 ++ joinSegs rest) = lowerStr s.1 ++ joinSegs (rest.map lowerSeg)
    rw [← joinSegs_map_lower rest]
    simp [lowerStr]

/-- Lower-casing preserves segment-list well-formedness. -/
theorem SegWF_lower {segs : List Seg} (h : SegWF segs) :
    SegWF (segs.map lowerSeg) := by
  obtain ⟨h1, h2⟩ := h
  constructor
  · intro s hs
    rw [List.mem_map] at hs
    obtain ⟨t, ht, rfl⟩ := hs
    obtain ⟨hne, huni⟩ := h1 t ht
    constructor
    · show lowerStr t.1 ≠ []
      intro hc
      simp only [lowerStr, List.map_eq_nil_iff] at hc
      exact hne hc
    · intro c hc
      simp only [lowerSeg, lowerStr, List.mem_map] at hc
      obtain ⟨d, hd, rfl⟩ := hc
      show isSpaceChar (lowerChar d) = t.2
      rw [isSpaceChar_lowerChar]
      exact huni d hd
  · exact List.chain'_map_of_chain' lowerSeg (fun a b hab => hab) h2

/-- The word segments of the lower-cased list are the lower-cased word
segments. -/
theorem wordToks_map_lower :
    ∀ segs : List Seg,
      ((segs.map lowerSeg).filter (fun s => !s.2)).map Prod.fst =
        (segs.filter (fun s => !s.2)).map (fun s => lowerStr s.1)
  | [] => rfl
  | s :: rest => by
    have hih := wordToks_map_lower rest
    cases hs : s.2 with
    | true =>
      simp only [List.map_cons, List.filter_cons, lowerSeg, hs, Bool.not_true,
        Bool.false_eq_true, if_false]
      exact hih
    | false =>
      simp only [List.map_cons, List.filter_cons, lowerSeg, hs, Bool.not_false,
        if_true]
      rw [hih]

/-- On a well-formed segment list, the words of the lower-cased joined
text are exactly the word tokens maintained by the loop. -/
theorem splitWords_lower_joinSegs {segs : List Seg} (h : SegWF segs) :
    splitWords (lowerStr (joinSegs segs)) = wordToks segs := by
  rw [joinSegs_map_lower, splitWords_joinSegs _ (SegWF_lower h), wordToks_map_lower]
  rfl

end FortKnox

namespace FortKnox

/-- Inserting the space-ellipsis-space break triple anywhere preserves
segment-list well-formedness. -/
theorem SegWF_insertBreak {segs : List Seg} (idx : Nat) (h : SegWF segs) :
    SegWF (insertBreak segs idx) := by
  obtain ⟨h1, h2⟩ := h
  have h2' : List.Chain' (fun a b : Seg => a.2 = true ∨ b.2 = true)
      (segs.take idx ++ segs.drop idx) := by
    rw [List.take_append_drop]
    exact h2
  obtain ⟨hct, hcd, _⟩ := List.chain'_append.mp h2'
  constructor
  · intro s hs
    simp only [insertBreak, List.mem_append, List.mem_cons,
      List.not_mem_nil, or_false] at hs
    rcases hs with (hs | (hs | hs | hs)) | hs
    · exact h1 s (List.take_subset idx segs hs)
    · subst hs
      exact ⟨by simp, by decide⟩
    · subst hs
      exact ⟨by simp, by decide⟩
    · subst hs
      exact ⟨by simp, by decide⟩
    · exact h1 s (List.drop_subset idx segs hs)
  · rw [insertBreak]
    apply List.chain'_append.mpr
    refine ⟨?_, hcd, ?_⟩
    · apply List.chain'_append.mpr
      refine ⟨hct, ?_, ?_⟩
      · exact List.chain'_cons.mpr ⟨Or.inl rfl,
          List.chain'_cons.mpr ⟨Or.inr rfl, List.chain'_singleton _⟩⟩
      · intro x hx y hy
        simp only [List.head?_cons, Option.mem_def, Option.some.injEq] at hy
        subst hy
        exact Or.inr rfl
    · intro x hx y hy
      rw [show segs.take idx ++
          [((" ".toList : Str), true), (([ '…'] : Str), false), ((" ".toList : Str), true)] =
          (segs.take idx ++ [((" ".toList : Str), true), (([ '…'] : Str), false)]) ++
            [((" ".toList : Str), true)] by simp] at hx
      rw [List.getLast?_concat] at hx
      simp only [Option.mem_def, Option.some.injEq] at hx
      subst hx
      exact Or.inl rfl

/-- The breaking loop preserves segment-list well-formedness. -/
theorem breakLoop_wf (ngrams : List Str) (n : Nat) :
    ∀ (fuel : Nat) (segs : List Seg) (b : Nat), SegWF segs →
      SegWF (breakLoop ngrams n fuel segs b).1
  | 0, _, _, h => h
  | fuel + 1, segs, b, h => by
    rw [breakLoop]
    dsimp only
    by_cases ht : (wordToks segs).length < n
    · rw [if_pos ht]
      exact h
    · rw [if_neg ht]
      cases hf : findNgramIdx ngrams (wordToks segs) n with
      | none => exact h
      | some i => exact breakLoop_wf ngrams n fuel _ _ (SegWF_insertBreak _ h)

/-- If the breaking loop stops short of its fuel, it stopped because no
tracked n-gram remains word-aligned in its final segment list. -/
theorem breakLoop_exit (ngrams : List Str) (n : Nat) :
    ∀ (fuel : Nat) (segs : List Seg) (b : Nat),
      (breakLoop ngrams n fuel segs b).2 < b + fuel →
      (wordToks (breakLoop ngrams n fuel segs b).1).length < n ∨
        findNgramIdx ngrams (wordToks (breakLoop ngrams n fuel segs b).1) n = none
  | 0, segs, b, h => by
    simp only [breakLoop] at h
    omega
  | fuel + 1, segs, b, h => by
    rw [breakLoop] at h ⊢
    dsimp only at h ⊢
    by_cases ht : (wordToks segs).length < n
    · rw [if_pos ht] at h ⊢
      exact Or.inl ht
    · rw [if_neg ht] at h ⊢
      generalize hfe : findNgramIdx ngrams (wordToks segs) n = o at h ⊢
      cases o with
      | none => exact Or.inr hfe
      | some i =>
        dsimp only at h ⊢
        exact breakLoop_exit ngrams n fuel _ (b + 1) (by omega)

end FortKnox

namespace FortKnox

/-- If the breaking loop stops short of its fuel, no tracked n-gram is a
word-aligned n-gram of the normalized final text. -/
theorem breakLoop_no_ngram (ngrams : List Str) (n fuel : Nat)
    (segs : List Seg) (hwfs : SegWF segs)
    (hlt : (breakLoop ngrams n fuel segs 0).2 < fuel) :
    ∀ g ∈ create_n_grams
        (normalize_text_for_n_gram (joinSegs (breakLoop ngrams n fuel segs 0).1)) n,
      g ∉ ngrams := by
  have hwf : SegWF (breakLoop ngrams n fuel segs 0).1 :=
    breakLoop_wf ngrams n fuel segs 0 hwfs
  have hexit := breakLoop_exit ngrams n fuel segs 0 (by omega)
  intro g hg
  have hwords : splitWords (normalize_text_for_n_gram
      (joinSegs (breakLoop ngrams n fuel segs 0).1)) =
      wordToks (breakLoop ngrams n fuel segs 0).1 := by
    rw [splitWords_normalize]
    exact splitWords_lower_joinSegs hwf
  simp only [create_n_grams] at hg
  rw [hwords] at hg
  by_cases hlen : (wordToks (breakLoop ngrams n fuel segs 0).1).length < n
  · rw [if_pos hlen] at hg
    simp at hg
  · rw [if_neg hlen] at hg
    have hfind : findNgramIdx ngrams
        (wordToks (breakLoop ngrams n fuel segs 0).1) n = none := by
      rcases hexit with hx | hx
      · exact absurd hx hlen
      · exact hx
    rw [List.mem_map] at hg
    obtain ⟨i, hi, rfl⟩ := hg
    intro hmem
    have helem := List.elem_eq_true_of_mem hmem
    have hnone := List.find?_eq_none.mp hfind i hi
    exact hnone helem

end FortKnox

/-- Claim C5 (amended): when the breaker stops before exhausting its break
budget (fewer breaks reported than max_breaks) and the policy's quote
budget is positive, the repaired text contains no word-aligned
(quote_limit_words + 1)-word n-gram of any normalized input text: every
n-gram of the normalized repaired text avoids the tracked input n-gram
set.  (The unamended claim is refuted by claim5_break_counterexample: the
loop can exhaust its budget without removing the detected n-gram, because
the break position i + max(3, n / 2) can lie beyond the end of the
detected n-gram.) -/
theorem claim5_break_amended (rendered_text : Str) (input_texts : List Str)
    (policy : KnoxPolicy) (max_breaks : Nat)
    (hq : 0 < policy.quote_limit_words)
    (hbr : (break_quote_ngrams rendered_text input_texts policy max_breaks).2
      < max_breaks) :
    ∀ g ∈ create_n_grams
        (normalize_text_for_n_gram
          (break_quote_ngrams rendered_text input_texts policy max_breaks).1)
        (policy.quote_limit_words + 1),
      g ∉ inputNgrams input_texts (policy.quote_limit_words + 1) := by
  by_cases h1 : rendered_text.isEmpty = true
  · have hrt : rendered_text = [] := List.isEmpty_iff.mp h1
    subst hrt
    intro g hg
    rw [show break_quote_ngrams [] input_texts policy max_breaks =
      (([] : Str), 0) from rfl] at hg
    dsimp only at hg
    simp only [create_n_grams] at hg
    rw [show splitWords (normalize_text_for_n_gram ([] : Str)) = ([] : List Str) from by
      rw [splitWords_normalize]
      rfl] at hg
    rw [if_pos (by simp)] at hg
    simp at hg
  · by_cases h2 : input_texts.isEmpty = true
    · have hits : input_texts = [] := List.isEmpty_iff.mp h2
      subst hits
      intro g hg hmem
      simp [inputNgrams] at hmem
    · have h3 : ¬policy.quote_limit_words = 0 := by omega
      have hexp : break_quote_ngrams rendered_text input_texts policy max_breaks =
          (joinSegs (breakLoop
              (inputNgrams input_texts (policy.quote_limit_words + 1))
              (policy.quote_limit_words + 1) max_breaks
              ((segment rendered_text).map (fun s => (s, isSpaceSeg s))) 0).1,
            (breakLoop
              (inputNgrams input_texts (policy.quote_limit_words + 1))
              (policy.quote_limit_words + 1) max_breaks
              ((segment rendered_text).map (fun s => (s, isSpaceSeg s))) 0).2) := by
        rw [break_quote_ngrams, if_neg h1, if_neg h2, if_neg h3]
      rw [hexp] at hbr ⊢
      dsimp only at hbr ⊢
      exact breakLoop_no_ngram
        (inputNgrams input_texts (policy.quote_limit_words + 1))
        (policy.quote_limit_words + 1) max_breaks
        ((segment rendered_text).map (fun s => (s, isSpaceSeg s)))
        (segment_SegWF rendered_text) hbr

/-- Witness for claim5_break_amended: on the output "a b c d e f g h i"
with that same text as the sole source, the internal policy (quote budget
8) detects the 9-word n-gram; one break is inserted (1 < 2 = max_breaks)
and the repaired text contains no word-aligned source 9-gram. -/
theorem claim5_break_amended_witness :
    0 < internalPolicy.quote_limit_words ∧
      (break_quote_ngrams ("a b c d e f g h i").toList
        [("a b c d e f g h i").toList] internalPolicy 2).2 < 2 ∧
      ∀ g ∈ create_n_grams
          (normalize_text_for_n_gram
            (break_quote_ngrams ("a b c d e f g h i").toList
              [("a b c d e f g h i").toList] internalPolicy 2).1)
          (internalPolicy.quote_limit_words + 1),
        g ∉ inputNgrams [("a b c d e f g h i").toList]
          (internalPolicy.quote_limit_words + 1) :=
  ⟨by decide, by decide, claim5_break_amended _ _ _ _ (by decide) (by decide)⟩

namespace FortKnox

/-- Word classification is insensitive to lower-casing. -/
theorem isWordChar_lowerChar (c : Char) :
    isWordChar (lowerChar c) = isWordChar c := by
  by_cases h1 : c = 'A'
  · subst h1
    decide
  by_cases h2 : c = 'B'
  · subst h2
    decide
  by_cases h3 : c = 'C'
  · subst h3
    decide
  by_cases h4 : c = 'D'
  · subst h4
    decide
  by_cases h5 : c = 'E'
  · subst h5
    decide
  by_cases h6 : c = 'F'
  · subst h6
    decide
  by_cases h7 : c = 'G'
  · subst h7
    decide
  by_cases h8 : c = 'H'
  · subst h8
    decide
  by_cases h9 : c = 'I'
  · subst h9
    decide
  by_cases h10 : c = 'J'
  · subst h10
    decide
  by_cases h11 : c = 'K'
  · subst h11
    decide
  by_cases h12 : c = 'L'
  · subst h12
    decide
  by_cases h13 : c = 'M'
  · subst h13
    decide
  by_cases h14 : c = 'N'
  · subst h14
    decide
  by_cases h15 : c = 'O'
  · subst h15
    decide
  by_cases h16 : c = 'P'
  · subst h16
    decide
  by_cases h17 : c = 'Q'
  · subst h17
    decide
  by_cases h18 : c = 'R'
  · subst h18
    decide
  by_cases h19 : c = 'S'
  · subst h19
    decide
  by_cases h20 : c = 'T'
  · subst h20
    decide
  by_cases h21 : c = 'U'
  · subst h21
    decide
  by_cases h22 : c = 'V'
  · subst h22
    decide
  by_cases h23 : c = 'W'
  · subst h23
    decide
  by_cases h24 : c = 'X'
  · subst h24
    decide
  by_cases h25 : c = 'Y'
  · subst h25
    decide
  by_cases h26 : c = 'Z'
  · subst h26
    decide
  by_cases h27 : c = 'Å'
  · subst h27
    decide
  by_cases h28 : c = 'Ä'
  · subst h28
    decide
  by_cases h29 : c = 'Ö'
  · subst h29
    decide
  by_cases h30 : c = 'É'
  · subst h30
    decide
  by_cases h31 : c = 'Ü'
  · subst h31
    decide
  unfold lowerChar
  rw [if_neg h1, if_neg h2, if_neg h3, if_neg h4, if_neg h5, if_neg h6, if_neg h7, if_neg h8, if_neg h9, if_neg h10, if_neg h11, if_neg h12, if_neg h13, if_neg h14, if_neg h15, if_neg h16, if_neg h17, if_neg h18, if_neg h19, if_neg h20, if_neg h21, if_neg h22, if_neg h23, if_neg h24, if_neg h25, if_neg h26, if_neg h27, if_neg h28, if_neg h29, if_neg h30, if_neg h31]

end FortKnox

namespace FortKnox

/-- The element of a getLast? is a member. -/
theorem getLast?_mem_self {l : Str} {a : Char} (h : l.getLast? = some a) : a ∈ l := by
  obtain ⟨hne, rfl⟩ := List.mem_getLast?_eq_getLast h
  exact List.getLast_mem hne

/-- A non-empty list has a last element, which inherits any pointwise
property of the members. -/
theorem exists_getLast?_prop {s : Str} {P : Char → Prop} (hne : s ≠ [])
    (hall : ∀ c ∈ s, P c) : ∃ c, s.getLast? = some c ∧ P c := by
  refine ⟨s.getLast hne, List.getLast?_eq_getLast_of_ne_nil hne, ?_⟩
  exact hall _ (List.getLast_mem hne)

/-- Dropping the head of a cons preserves getLast? when the tail is
non-empty. -/
theorem getLast?_cons_ne {c : Char} {xs : Str} (h : xs ≠ []) :
    (c :: xs).getLast? = xs.getLast? := by
  cases xs with
  | nil => exact absurd rfl h
  | cons d ds => simp [List.getLast?_cons]

/-- Bounded-run membership: the first l characters all satisfy the class
and really exist. -/
theorem le_runLen_iff {p : Char → Bool} :
    ∀ (l : Nat) (s : Str), l ≤ runLen p s ↔
      (s.take l).length = l ∧ ∀ c ∈ s.take l, p c = true
  | 0, s => by simp
  | l + 1, [] => by
    show l + 1 ≤ 0 ↔ _
    simp
  | l + 1, c :: rest => by
    by_cases hc : p c = true
    · rw [runLen_cons_pos rest hc]
      simp only [List.take_succ_cons, List.length_cons, List.mem_cons]
      constructor
      · intro h
        have h2 := (le_runLen_iff (p := p) l rest).mp (by omega)
        refine ⟨by omega, ?_⟩
        intro d hd
        rcases hd with rfl | hd2
        · exact hc
        · exact h2.2 d hd2
      · rintro ⟨h1, h2⟩
        have h3 := (le_runLen_iff (p := p) l rest).mpr
          ⟨by omega, fun d hd => h2 d (Or.inr hd)⟩
        omega
    · have hc2 : p c = false := by simpa using hc
      rw [runLen_cons_neg rest hc2]
      simp only [List.take_succ_cons, List.length_cons, List.mem_cons]
      constructor
      · omega
      · rintro ⟨h1, h2⟩
        have h3 := h2 c (Or.inl rfl)
        rw [h3] at hc2
        cases hc2

end FortKnox

namespace Re

open FortKnox

/-! ### Membership characterizations of the matcher elements -/

theorem mem_one {p : Char → Bool} {s : Str} {l : Nat} :
    l ∈ one p s ↔ l = 1 ∧ ∃ c, s.head? = some c ∧ p c = true := by
  cases s with
  | nil => simp [one]
  | cons c rest =>
    by_cases hc : p c = true
    · simp [one, hc]
    · simp [one, hc]

theorem mem_lit {w : String} {s : Str} {l : Nat} :
    l ∈ lit w s ↔ l = w.toList.length ∧ prefixOf w.toList s = true := by
  constructor
  · intro hmem
    unfold lit at hmem
    by_cases h : prefixOf w.toList s = true
    · rw [if_pos h] at hmem
      simp at hmem
      exact ⟨hmem, h⟩
    · rw [if_neg h] at hmem
      simp at hmem
  · rintro ⟨rfl, h⟩
    unfold lit
    rw [if_pos h]
    simp

theorem mem_litCI {w : String} {s : Str} {l : Nat} :
    l ∈ litCI w s ↔ l = w.toList.length ∧
      prefixOf w.toList (lowerStr (s.take w.toList.length)) = true := by
  constructor
  · intro hmem
    unfold litCI at hmem
    by_cases h : prefixOf w.toList (lowerStr (s.take w.toList.length)) = true
    · rw [if_pos h] at hmem
      simp at hmem
      exact ⟨hmem, h⟩
    · rw [if_neg h] at hmem
      simp at hmem
  · rintro ⟨rfl, h⟩
    unfold litCI
    rw [if_pos h]
    simp

theorem mem_seqM {a b : M} {s : Str} {l : Nat} :
    l ∈ seqM a b s ↔ ∃ la lb, la ∈ a s ∧ lb ∈ b (s.drop la) ∧ la + lb = l := by
  simp only [seqM, List.mem_flatMap, List.mem_map]
  constructor
  · rintro ⟨la, hla, lb, hlb, rfl⟩
    exact ⟨la, lb, hla, hlb, rfl⟩
  · rintro ⟨la, lb, hla, hlb, rfl⟩
    exact ⟨la, hla, lb, hlb, rfl⟩

theorem mem_altM {a b : M} {s : Str} {l : Nat} :
    l ∈ altM a b s ↔ l ∈ a s ∨ l ∈ b s := by
  simp [altM]

theorem mem_alts {ms : List M} {s : Str} {l : Nat} :
    l ∈ alts ms s ↔ ∃ m ∈ ms, l ∈ m s := by
  simp [alts]

theorem mem_opt {a : M} {s : Str} {l : Nat} :
    l ∈ opt a s ↔ l ∈ a s ∨ l = 0 := by
  simp [opt]

theorem mem_classPlus {p : Char → Bool} {s : Str} {l : Nat} :
    l ∈ classPlus p s ↔ 1 ≤ l ∧ l ≤ runLen p s := by
  simp only [classPlus, List.mem_map, List.mem_range]
  constructor
  · rintro ⟨i, hi, rfl⟩
    omega
  · rintro ⟨h1, h2⟩
    exact ⟨runLen p s - l, by omega, by omega⟩

theorem mem_classCnt {p : Char → Bool} {n : Nat} {s : Str} {l : Nat} :
    l ∈ classCnt p n s ↔ l = n ∧ n ≤ runLen p s := by
  constructor
  · intro hmem
    unfold classCnt at hmem
    by_cases h : n ≤ runLen p s
    · rw [if_pos h] at hmem
      simp at hmem
      exact ⟨hmem, h⟩
    · rw [if_neg h] at hmem
      simp at hmem
  · rintro ⟨rfl, h⟩
    unfold classCnt
    rw [if_pos h]
    simp

/-- prefixOf is the take-equality test. -/
theorem prefixOf_eq_true_iff :
    ∀ (a b : Str), prefixOf a b = true ↔ b.take a.length = a
  | [], b => by simp [prefixOf]
  | x :: a2, [] => by
    simp [prefixOf]
  | x :: a2, y :: b2 => by
    simp only [prefixOf, List.length_cons, List.take_succ_cons, Bool.and_eq_true,
      decide_eq_true_eq, List.cons.injEq]
    rw [prefixOf_eq_true_iff a2 b2]
    constructor
    · rintro ⟨rfl, h⟩
      exact ⟨rfl, h⟩
    · rintro ⟨rfl, h⟩
      exact ⟨rfl, h⟩

end Re

namespace Re

open FortKnox

/-! ### Structural properties of matcher elements, toward the idempotence
of the date/time masking -/

/-- Candidates have at least this length. -/
def Mlow (m : M) (n : Nat) : Prop := ∀ s l, l ∈ m s → n ≤ l

/-- Candidates never exceed the text length. -/
def Mup (m : M) : Prop := ∀ s l, l ∈ m s → l ≤ s.length

/-- Non-empty candidates start with a word character. -/
def MStart (m : M) : Prop :=
  ∀ s l, l ∈ m s → 1 ≤ l → ∃ c, s.head? = some c ∧ isWordChar c = true

/-- Non-empty candidates end with a word character. -/
def MEnd (m : M) : Prop :=
  ∀ s l, l ∈ m s → 1 ≤ l → ∃ c, (s.take l).getLast? = some c ∧ isWordChar c = true

/-- Matched prefixes contain no bracket character. -/
def MNB (m : M) : Prop :=
  ∀ s l, l ∈ m s → ∀ c ∈ s.take l, c ≠ '[' ∧ c ≠ ']'

/-- Candidate membership depends only on the matched prefix. -/
def MPL (m : M) : Prop :=
  ∀ l s t, s.take l = t.take l → (l ∈ m s ↔ l ∈ m t)

/-- Word characters are never brackets. -/
theorem word_ne_bracket {c : Char} (h : isWordChar c = true) :
    c ≠ '[' ∧ c ≠ ']' := by
  constructor
  · rintro rfl
    exact absurd h (by decide)
  · rintro rfl
    exact absurd h (by decide)

/-- Taking at least one character preserves the head. -/
theorem head?_take_pos {s : Str} {n : Nat} (h : 1 ≤ n) :
    (s.take n).head? = s.head? := by
  cases s with
  | nil => simp
  | cons c rest =>
    cases n with
    | zero => omega
    | succ m => simp

/-- Shorter takes of equal takes are equal. -/
theorem take_eq_of_take_eq {s t : Str} {k j : Nat} (h : s.take k = t.take k)
    (hj : j ≤ k) : s.take j = t.take j := by
  have h2 := congrArg (List.take j) h
  rwa [List.take_take, List.take_take, Nat.min_eq_left hj] at h2

/-- Equal takes have equal heads (for a positive take). -/
theorem head_eq_of_take_eq {s t : Str} {k : Nat} (h : s.take k = t.take k)
    (hk : 1 ≤ k) : s.head? = t.head? := by
  rw [← head?_take_pos (s := s) hk, ← head?_take_pos (s := t) hk, h]

/-- Equal takes give equal drop-takes inside the window. -/
theorem drop_take_eq_of_take_eq {s t : Str} {a b : Nat}
    (h : s.take (a + b) = t.take (a + b)) :
    (s.drop a).take b = (t.drop a).take b := by
  have h2 := congrArg (List.drop a) h
  rw [List.drop_take, List.drop_take] at h2
  simpa using h2

/-- Equal takes give equal inner elements. -/
theorem drop_head_eq_of_take_eq {s t : Str} {k l : Nat} (h : s.take k = t.take k)
    (hl : l < k) : (s.drop l).head? = (t.drop l).head? := by
  rw [List.head?_drop, List.head?_drop]
  have h1 : (s.take k)[l]? = s[l]? := by
    rw [List.getElem?_take]
    simp [hl]
  have h2 : (t.take k)[l]? = t[l]? := by
    rw [List.getElem?_take]
    simp [hl]
  rw [← h1, ← h2, h]

/-! ### Closure rules: single characters -/

theorem Mlow_one {p : Char → Bool} : Mlow (one p) 1 := by
  intro s l hl
  rw [mem_one] at hl
  obtain ⟨rfl, -⟩ := hl
  exact Nat.le_refl 1

theorem Mup_one {p : Char → Bool} : Mup (one p) := by
  intro s l hl
  rw [mem_one] at hl
  obtain ⟨rfl, c, hc, -⟩ := hl
  cases s with
  | nil => simp at hc
  | cons d rest => simp

theorem MStart_one {p : Char → Bool}
    (hp : ∀ c, p c = true → isWordChar c = true) : MStart (one p) := by
  intro s l hl _
  rw [mem_one] at hl
  obtain ⟨rfl, c, hc, hpc⟩ := hl
  exact ⟨c, hc, hp c hpc⟩

theorem MEnd_one {p : Char → Bool}
    (hp : ∀ c, p c = true → isWordChar c = true) : MEnd (one p) := by
  intro s l hl _
  rw [mem_one] at hl
  obtain ⟨rfl, c, hc, hpc⟩ := hl
  cases s with
  | nil => simp at hc
  | cons d rest =>
    simp only [List.head?_cons, Option.some.injEq] at hc
    subst hc
    exact ⟨d, by simp, hp d hpc⟩

theorem MNB_one {p : Char → Bool} (hb1 : p '[' = false) (hb2 : p ']' = false) :
    MNB (one p) := by
  intro s l hl c hc
  rw [mem_one] at hl
  obtain ⟨rfl, d, hd, hpd⟩ := hl
  cases s with
  | nil => simp at hd
  | cons e rest =>
    simp only [List.head?_cons, Option.some.injEq] at hd
    subst hd
    simp only [List.take_succ_cons, List.take_zero] at hc
    rw [List.mem_singleton] at hc
    subst hc
    constructor
    · rintro rfl
      rw [hpd] at hb1
      cases hb1
    · rintro rfl
      rw [hpd] at hb2
      cases hb2

theorem MPL_one {p : Char → Bool} : MPL (one p) := by
  intro l s t hst
  rw [mem_one, mem_one]
  constructor
  · rintro ⟨rfl, c, hc, hpc⟩
    exact ⟨rfl, c, by rw [← head_eq_of_take_eq hst (by omega)]; exact hc, hpc⟩
  · rintro ⟨rfl, c, hc, hpc⟩
    exact ⟨rfl, c, by rw [head_eq_of_take_eq hst (by omega)]; exact hc, hpc⟩

/-! ### Closure rules: sequencing -/

theorem Mlow_seqM {a b : M} {na nb : Nat} (ha : Mlow a na) (hb : Mlow b nb) :
    Mlow (seqM a b) (na + nb) := by
  intro s l hl
  rw [mem_seqM] at hl
  obtain ⟨la, lb, hla, hlb, rfl⟩ := hl
  have h1 := ha s la hla
  have h2 := hb _ lb hlb
  omega

theorem Mup_seqM {a b : M} (ha : Mup a) (hb : Mup b) : Mup (seqM a b) := by
  intro s l hl
  rw [mem_seqM] at hl
  obtain ⟨la, lb, hla, hlb, rfl⟩ := hl
  have h1 := ha s la hla
  have h2 := hb _ lb hlb
  rw [List.length_drop] at h2
  omega

theorem MStart_seqM_low {a b : M} (hlow : Mlow a 1) (ha : MStart a) :
    MStart (seqM a b) := by
  intro s l hl _
  rw [mem_seqM] at hl
  obtain ⟨la, lb, hla, hlb, rfl⟩ := hl
  exact ha s la hla (hlow s la hla)

theorem MStart_seqM {a b : M} (ha : MStart a) (hb : MStart b) :
    MStart (seqM a b) := by
  intro s l hl hpos
  rw [mem_seqM] at hl
  obtain ⟨la, lb, hla, hlb, rfl⟩ := hl
  rcases Nat.eq_zero_or_pos la with hz | hp
  · subst hz
    rw [List.drop_zero] at hlb
    exact hb s lb hlb (by omega)
  · exact ha s la hla hp

theorem MEnd_seqM_low {a b : M} (hlow : Mlow b 1) (hub : Mup b) (hb : MEnd b) :
    MEnd (seqM a b) := by
  intro s l hl _
  rw [mem_seqM] at hl
  obtain ⟨la, lb, hla, hlb, rfl⟩ := hl
  have hlb1 : 1 ≤ lb := hlow _ lb hlb
  obtain ⟨c, hc, hw⟩ := hb _ lb hlb hlb1
  have hlen : lb ≤ (s.drop la).length := hub _ lb hlb
  have hne : (s.drop la).take lb ≠ [] := by
    intro he
    have h3 := congrArg List.length he
    rw [List.length_take] at h3
    simp only [List.length_nil] at h3
    omega
  refine ⟨c, ?_, hw⟩
  rw [List.take_add, List.getLast?_append_of_ne_nil _ hne]
  exact hc

theorem MNB_seqM {a b : M} (ha : MNB a) (hb : MNB b) : MNB (seqM a b) := by
  intro s l hl c hc
  rw [mem_seqM] at hl
  obtain ⟨la, lb, hla, hlb, rfl⟩ := hl
  rw [List.take_add, List.mem_append] at hc
  rcases hc with hc | hc
  · exact ha s la hla c hc
  · exact hb _ lb hlb c hc

theorem MPL_seqM {a b : M} (ha : MPL a) (hb : MPL b) :
    MPL (seqM a b) := by
  intro l s t hst
  rw [mem_seqM, mem_seqM]
  constructor
  · rintro ⟨la, lb, hla, hlb, rfl⟩
    refine ⟨la, lb, ?_, ?_, rfl⟩
    · exact (ha la s t (take_eq_of_take_eq hst (by omega))).mp hla
    · exact (hb lb (s.drop la) (t.drop la) (drop_take_eq_of_take_eq hst)).mp hlb
  · rintro ⟨la, lb, hla, hlb, rfl⟩
    refine ⟨la, lb, ?_, ?_, rfl⟩
    · exact (ha la s t (take_eq_of_take_eq hst (by omega))).mpr hla
    · exact (hb lb (s.drop la) (t.drop la) (drop_take_eq_of_take_eq hst)).mpr hlb

end Re

namespace Re

open FortKnox

/-! ### Closure rules: alternation, option, classes, literals -/

theorem Mlow_altM {a b : M} {n : Nat} (ha : Mlow a n) (hb : Mlow b n) :
    Mlow (altM a b) n := by
  intro s l hl
  rw [mem_altM] at hl
  rcases hl with hl | hl
  · exact ha s l hl
  · exact hb s l hl

theorem Mup_altM {a b : M} (ha : Mup a) (hb : Mup b) : Mup (altM a b) := by
  intro s l hl
  rw [mem_altM] at hl
  rcases hl with hl | hl
  · exact ha s l hl
  · exact hb s l hl

theorem MStart_altM {a b : M} (ha : MStart a) (hb : MStart b) :
    MStart (altM a b) := by
  intro s l hl hp
  rw [mem_altM] at hl
  rcases hl with hl | hl
  · exact ha s l hl hp
  · exact hb s l hl hp

theorem MEnd_altM {a b : M} (ha : MEnd a) (hb : MEnd b) : MEnd (altM a b) := by
  intro s l hl hp
  rw [mem_altM] at hl
  rcases hl with hl | hl
  · exact ha s l hl hp
  · exact hb s l hl hp

theorem MNB_altM {a b : M} (ha : MNB a) (hb : MNB b) : MNB (altM a b) := by
  intro s l hl c hc
  rw [mem_altM] at hl
  rcases hl with hl | hl
  · exact ha s l hl c hc
  · exact hb s l hl c hc

theorem MPL_altM {a b : M} (ha : MPL a) (hb : MPL b) : MPL (altM a b) := by
  intro l s t hst
  rw [mem_altM, mem_altM, ha l s t hst, hb l s t hst]

theorem Mlow_alts {ms : List M} {n : Nat} (h : ∀ m ∈ ms, Mlow m n) :
    Mlow (alts ms) n := by
  intro s l hl
  rw [mem_alts] at hl
  obtain ⟨m, hm, hl⟩ := hl
  exact h m hm s l hl

theorem Mup_alts {ms : List M} (h : ∀ m ∈ ms, Mup m) : Mup (alts ms) := by
  intro s l hl
  rw [mem_alts] at hl
  obtain ⟨m, hm, hl⟩ := hl
  exact h m hm s l hl

theorem MStart_alts {ms : List M} (h : ∀ m ∈ ms, MStart m) :
    MStart (alts ms) := by
  intro s l hl hp
  rw [mem_alts] at hl
  obtain ⟨m, hm, hl⟩ := hl
  exact h m hm s l hl hp

theorem MEnd_alts {ms : List M} (h : ∀ m ∈ ms, MEnd m) : MEnd (alts ms) := by
  intro s l hl hp
  rw [mem_alts] at hl
  obtain ⟨m, hm, hl⟩ := hl
  exact h m hm s l hl hp

theorem MNB_alts {ms : List M} (h : ∀ m ∈ ms, MNB m) : MNB (alts ms) := by
  intro s l hl c hc
  rw [mem_alts] at hl
  obtain ⟨m, hm, hl⟩ := hl
  exact h m hm s l hl c hc

theorem MPL_alts {ms : List M} (h : ∀ m ∈ ms, MPL m) : MPL (alts ms) := by
  intro l s t hst
  rw [mem_alts, mem_alts]
  constructor
  · rintro ⟨m, hm, hl⟩
    exact ⟨m, hm, (h m hm l s t hst).mp hl⟩
  · rintro ⟨m, hm, hl⟩
    exact ⟨m, hm, (h m hm l s t hst).mpr hl⟩

theorem Mlow_opt {a : M} : Mlow (opt a) 0 := by
  intro s l _
  exact Nat.zero_le l

theorem Mup_opt {a : M} (ha : Mup a) : Mup (opt a) := by
  intro s l hl
  rw [mem_opt] at hl
  rcases hl with hl | rfl
  · exact ha s l hl
  · exact Nat.zero_le _

theorem MStart_opt {a : M} (ha : MStart a) : MStart (opt a) := by
  intro s l hl hp
  rw [mem_opt] at hl
  rcases hl with hl | rfl
  · exact ha s l hl hp
  · omega

theorem MEnd_opt {a : M} (ha : MEnd a) : MEnd (opt a) := by
  intro s l hl hp
  rw [mem_opt] at hl
  rcases hl with hl | rfl
  · exact ha s l hl hp
  · omega

theorem MNB_opt {a : M} (ha : MNB a) : MNB (opt a) := by
  intro s l hl c hc
  rw [mem_opt] at hl
  rcases hl with hl | rfl
  · exact ha s l hl c hc
  · simp at hc

theorem MPL_opt {a : M} (ha : MPL a) : MPL (opt a) := by
  intro l s t hst
  rw [mem_opt, mem_opt, ha l s t hst]

theorem Mlow_classPlus {p : Char → Bool} : Mlow (classPlus p) 1 := by
  intro s l hl
  rw [mem_classPlus] at hl
  exact hl.1

theorem Mup_classPlus {p : Char → Bool} : Mup (classPlus p) := by
  intro s l hl
  rw [mem_classPlus] at hl
  have := runLen_le_length p s
  omega

theorem MNB_classPlus {p : Char → Bool} (hb1 : p '[' = false)
    (hb2 : p ']' = false) : MNB (classPlus p) := by
  intro s l hl c hc
  rw [mem_classPlus] at hl
  have h2 := ((le_runLen_iff (p := p) l s).mp hl.2).2 c hc
  constructor
  · rintro rfl
    rw [h2] at hb1
    cases hb1
  · rintro rfl
    rw [h2] at hb2
    cases hb2

theorem MPL_classPlus {p : Char → Bool} : MPL (classPlus p) := by
  intro l s t hst
  rw [mem_classPlus, mem_classPlus, le_runLen_iff, le_runLen_iff, hst]

theorem Mlow_classCnt {p : Char → Bool} {n : Nat} : Mlow (classCnt p n) n := by
  intro s l hl
  rw [mem_classCnt] at hl
  omega

theorem Mup_classCnt {p : Char → Bool} {n : Nat} : Mup (classCnt p n) := by
  intro s l hl
  rw [mem_classCnt] at hl
  have := runLen_le_length p s
  omega

theorem MStart_classCnt {p : Char → Bool} {n : Nat}
    (hp : ∀ c, p c = true → isWordChar c = true) : MStart (classCnt p n) := by
  intro s l hl hpos
  rw [mem_classCnt] at hl
  obtain ⟨rfl, hrun⟩ := hl
  cases s with
  | nil =>
    have := runLen_le_length p ([] : Str)
    simp at this
    omega
  | cons c rest =>
    refine ⟨c, rfl, ?_⟩
    have h2 := ((le_runLen_iff (p := p) l (c :: rest)).mp hrun).2 c ?_
    · exact hp c h2
    · cases l with
      | zero => omega
      | succ m => simp

theorem MEnd_classCnt {p : Char → Bool} {n : Nat}
    (hp : ∀ c, p c = true → isWordChar c = true) : MEnd (classCnt p n) := by
  intro s l hl hpos
  rw [mem_classCnt] at hl
  obtain ⟨rfl, hrun⟩ := hl
  obtain ⟨hlen, hall⟩ := (le_runLen_iff (p := p) l s).mp hrun
  have hne : s.take l ≠ [] := by
    intro he
    rw [he] at hlen
    simp at hlen
    omega
  exact exists_getLast?_prop hne (fun c hc => hp c (hall c hc))

theorem MNB_classCnt {p : Char → Bool} {n : Nat} (hb1 : p '[' = false)
    (hb2 : p ']' = false) : MNB (classCnt p n) := by
  intro s l hl c hc
  rw [mem_classCnt] at hl
  obtain ⟨rfl, hrun⟩ := hl
  have h2 := ((le_runLen_iff (p := p) l s).mp hrun).2 c hc
  constructor
  · rintro rfl
    rw [h2] at hb1
    cases hb1
  · rintro rfl
    rw [h2] at hb2
    cases hb2

theorem MPL_classCnt {p : Char → Bool} {n : Nat} : MPL (classCnt p n) := by
  intro l s t hst
  rw [mem_classCnt, mem_classCnt]
  constructor
  · rintro ⟨rfl, hrun⟩
    rw [le_runLen_iff, ← hst, ← le_runLen_iff] at *
    exact ⟨rfl, by rwa [le_runLen_iff, ← hst, ← le_runLen_iff]⟩
  · rintro ⟨rfl, hrun⟩
    exact ⟨rfl, by rwa [le_runLen_iff, hst, ← le_runLen_iff]⟩

end Re

namespace Re

open FortKnox

/-! ### Closure rules: case-sensitive and case-insensitive literals -/

theorem lit_spec {w : String} {s : Str} {l : Nat} (h : l ∈ lit w s) :
    l = w.toList.length ∧ w.toList.length ≤ s.length ∧
      s.take w.toList.length = w.toList := by
  rw [mem_lit] at h
  obtain ⟨rfl, hp⟩ := h
  rw [prefixOf_eq_true_iff] at hp
  refine ⟨rfl, ?_, hp⟩
  have h2 := congrArg List.length hp
  rw [List.length_take] at h2
  omega

theorem Mlow_lit {w : String} : Mlow (lit w) w.toList.length := by
  intro s l hl
  rw [(lit_spec hl).1]

theorem Mup_lit {w : String} : Mup (lit w) := by
  intro s l hl
  obtain ⟨rfl, h2, -⟩ := lit_spec hl
  exact h2

theorem MStart_lit {w : String}
    (hword : ∀ c ∈ w.toList, isWordChar c = true) : MStart (lit w) := by
  intro s l hl hpos
  obtain ⟨rfl, hlen, heq⟩ := lit_spec hl
  cases hw : w.toList with
  | nil =>
    rw [hw] at hpos
    simp at hpos
  | cons d ws =>
    refine ⟨d, ?_, hword d (by rw [hw]; exact List.mem_cons_self _ _)⟩
    rw [← head?_take_pos (s := s) hpos, heq, hw]
    rfl

theorem MEnd_lit {w : String}
    (hword : ∀ c ∈ w.toList, isWordChar c = true) : MEnd (lit w) := by
  intro s l hl hpos
  obtain ⟨rfl, hlen, heq⟩ := lit_spec hl
  rw [heq]
  have hne : w.toList ≠ [] := by
    intro he
    rw [he] at hpos
    simp at hpos
  exact exists_getLast?_prop hne hword

theorem MNB_lit {w : String}
    (hword : ∀ c ∈ w.toList, isWordChar c = true) : MNB (lit w) := by
  intro s l hl c hc
  obtain ⟨rfl, hlen, heq⟩ := lit_spec hl
  rw [heq] at hc
  exact word_ne_bracket (hword c hc)

theorem MPL_lit {w : String} : MPL (lit w) := by
  intro l s t hst
  rw [mem_lit, mem_lit]
  constructor
  · rintro ⟨rfl, hp⟩
    refine ⟨rfl, ?_⟩
    rw [prefixOf_eq_true_iff] at hp ⊢
    rwa [← hst]
  · rintro ⟨rfl, hp⟩
    refine ⟨rfl, ?_⟩
    rw [prefixOf_eq_true_iff] at hp ⊢
    rwa [hst]

theorem litCI_spec {w : String} {s : Str} {l : Nat} (h : l ∈ litCI w s) :
    l = w.toList.length ∧ w.toList.length ≤ s.length ∧
      lowerStr (s.take w.toList.length) = w.toList := by
  rw [mem_litCI] at h
  obtain ⟨rfl, hp⟩ := h
  rw [prefixOf_eq_true_iff] at hp
  have hlen : (lowerStr (s.take w.toList.length)).length ≤ w.toList.length := by
    simp only [lowerStr, List.length_map, List.length_take]
    omega
  rw [List.take_of_length_le hlen] at hp
  refine ⟨rfl, ?_, hp⟩
  have h2 := congrArg List.length hp
  simp only [lowerStr, List.length_map, List.length_take] at h2
  omega

theorem Mlow_litCI {w : String} : Mlow (litCI w) w.toList.length := by
  intro s l hl
  rw [(litCI_spec hl).1]

theorem Mup_litCI {w : String} : Mup (litCI w) := by
  intro s l hl
  obtain ⟨rfl, h2, -⟩ := litCI_spec hl
  exact h2

theorem MStart_litCI {w : String}
    (hh : ∃ d, w.toList.head? = some d ∧ isWordChar d = true) :
    MStart (litCI w) := by
  intro s l hl hpos
  obtain ⟨rfl, hlen, heq⟩ := litCI_spec hl
  obtain ⟨d, hd, hdw⟩ := hh
  cases s with
  | nil =>
    simp only [List.length_nil] at hlen
    omega
  | cons c rest =>
    refine ⟨c, rfl, ?_⟩
    obtain ⟨n', hn'⟩ : ∃ n', w.toList.length = n' + 1 := ⟨w.toList.length - 1, by omega⟩
    rw [hn', List.take_succ_cons] at heq
    simp only [lowerStr, List.map_cons] at heq
    cases hw : w.toList with
    | nil =>
      rw [hw] at hn'
      simp at hn'
    | cons d2 ws =>
      rw [hw] at heq
      have hcd : lowerChar c = d2 := (List.cons.injEq _ _ _ _).mp heq |>.1
      rw [hw] at hd
      simp only [List.head?_cons, Option.some.injEq] at hd
      subst hd
      rw [← hcd] at hdw
      rw [← isWordChar_lowerChar]
      exact hdw

theorem MEnd_litCI {w : String}
    (hl2 : ∃ c, w.toList.getLast? = some c ∧ isWordChar c = true) :
    MEnd (litCI w) := by
  intro s l hl hpos
  obtain ⟨rfl, hlen, heq⟩ := litCI_spec hl
  obtain ⟨c, hc, hcw⟩ := hl2
  have hne : s.take w.toList.length ≠ [] := by
    intro he
    rw [he] at heq
    have h4 := congrArg List.length heq
    simp only [lowerStr, List.map_nil, List.length_nil] at h4
    omega
  refine ⟨(s.take w.toList.length).getLast hne,
    List.getLast?_eq_getLast_of_ne_nil hne, ?_⟩
  have h5 := congrArg List.getLast? heq
  rw [lowerStr, List.getLast?_map, hc,
    List.getLast?_eq_getLast_of_ne_nil hne] at h5
  simp only [Option.map_some, Option.map_some', Option.some.injEq] at h5
  rw [← isWordChar_lowerChar, h5]
  exact hcw

theorem MNB_litCI {w : String}
    (hnb : ∀ c ∈ w.toList, c ≠ '[' ∧ c ≠ ']') : MNB (litCI w) := by
  intro s l hl c hc
  obtain ⟨rfl, hlen, heq⟩ := litCI_spec hl
  have hmem2 : lowerChar c ∈ w.toList := by
    have h3 : lowerChar c ∈ lowerStr (s.take w.toList.length) :=
      List.mem_map_of_mem lowerChar hc
    rwa [heq] at h3
  have h2 := hnb _ hmem2
  constructor
  · rintro rfl
    exact h2.1 (by decide)
  · rintro rfl
    exact h2.2 (by decide)

theorem MPL_litCI {w : String} : MPL (litCI w) := by
  intro l s t hst
  rw [mem_litCI, mem_litCI]
  constructor
  · rintro ⟨rfl, hp⟩
    refine ⟨rfl, ?_⟩
    rwa [← hst]
  · rintro ⟨rfl, hp⟩
    refine ⟨rfl, ?_⟩
    rwa [hst]

end Re

namespace Re

open FortKnox

/-- Bundle of the four context-free structural properties of an element. -/
structure MOK (m : M) (lo : Nat) : Prop where
  low : Mlow m lo
  up : Mup m
  nb : MNB m
  pl : MPL m

theorem MOK.mono {m : M} {lo k : Nat} (h : MOK m lo) (hk : k ≤ lo) : MOK m k :=
  ⟨fun s l hl => le_trans hk (h.low s l hl), h.up, h.nb, h.pl⟩

theorem MOK_one {p : Char → Bool} (hb1 : p '[' = false) (hb2 : p ']' = false) :
    MOK (one p) 1 :=
  ⟨Mlow_one, Mup_one, MNB_one hb1 hb2, MPL_one⟩

theorem MOK_seqM {a b : M} {la lb : Nat} (ha : MOK a la) (hb : MOK b lb) :
    MOK (seqM a b) (la + lb) :=
  ⟨Mlow_seqM ha.low hb.low, Mup_seqM ha.up hb.up, MNB_seqM ha.nb hb.nb,
   MPL_seqM ha.pl hb.pl⟩

theorem MOK_altM {a b : M} {la lb : Nat} (ha : MOK a la) (hb : MOK b lb) :
    MOK (altM a b) (min la lb) :=
  ⟨Mlow_altM (fun s l hl => le_trans (Nat.min_le_left _ _) (ha.low s l hl))
     (fun s l hl => le_trans (Nat.min_le_right _ _) (hb.low s l hl)),
   Mup_altM ha.up hb.up, MNB_altM ha.nb hb.nb, MPL_altM ha.pl hb.pl⟩

theorem MOK_alts {ms : List M} {lo : Nat} (h : ∀ m ∈ ms, MOK m lo) :
    MOK (alts ms) lo :=
  ⟨Mlow_alts (fun m hm => (h m hm).low), Mup_alts (fun m hm => (h m hm).up),
   MNB_alts (fun m hm => (h m hm).nb), MPL_alts (fun m hm => (h m hm).pl)⟩

theorem MOK_opt {a : M} {la : Nat} (ha : MOK a la) : MOK (opt a) 0 :=
  ⟨Mlow_opt, Mup_opt ha.up, MNB_opt ha.nb, MPL_opt ha.pl⟩

theorem MOK_lit {w : String} (hw : ∀ c ∈ w.toList, isWordChar c = true) :
    MOK (lit w) w.toList.length :=
  ⟨Mlow_lit, Mup_lit, MNB_lit hw, MPL_lit⟩

theorem MOK_litCI {w : String} (hnb : ∀ c ∈ w.toList, c ≠ '[' ∧ c ≠ ']') :
    MOK (litCI w) w.toList.length :=
  ⟨Mlow_litCI, Mup_litCI, MNB_litCI hnb, MPL_litCI⟩

theorem MOK_classPlus {p : Char → Bool} (hb1 : p '[' = false)
    (hb2 : p ']' = false) : MOK (classPlus p) 1 :=
  ⟨Mlow_classPlus, Mup_classPlus, MNB_classPlus hb1 hb2, MPL_classPlus⟩

theorem MOK_classCnt {p : Char → Bool} {n : Nat} (hb1 : p '[' = false)
    (hb2 : p ']' = false) : MOK (classCnt p n) n :=
  ⟨Mlow_classCnt, Mup_classCnt, MNB_classCnt hb1 hb2, MPL_classCnt⟩

/-- Convert a computed Option check into the existential form. -/
theorem exists_of_option_elim {o : Option Char}
    (h : o.elim false isWordChar = true) :
    ∃ d, o = some d ∧ isWordChar d = true := by
  cases o with
  | none => cases h
  | some d => exact ⟨d, rfl, h⟩

end Re

namespace FortKnox

open Re

/-! ### Word-class helpers for the concrete character classes -/

theorem digit_word {c : Char} (h : isDigitChar c = true) : isWordChar c = true := by
  simp [isWordChar, h]

theorem digit19_word : ∀ c, digit19 c = true → isWordChar c = true := by
  intro c h
  simp only [digit19, Bool.and_eq_true, decide_eq_true_eq] at h
  apply digit_word
  simp only [isDigitChar, Bool.and_eq_true, decide_eq_true_eq]
  exact ⟨le_trans (by decide) h.1, h.2⟩

theorem word_range05 : ∀ c : Char, ('0' ≤ c && c ≤ '5') = true →
    isWordChar c = true := by
  intro c h
  simp only [Bool.and_eq_true, decide_eq_true_eq] at h
  apply digit_word
  simp only [isDigitChar, Bool.and_eq_true, decide_eq_true_eq]
  exact ⟨h.1, le_trans h.2 (by decide)⟩

theorem word_eq_chr {x : Char} (hx : isWordChar x = true) :
    ∀ c, (decide (c = x) : Bool) = true → isWordChar c = true := by
  intro c h
  simp only [decide_eq_true_eq] at h
  subst h
  exact hx

theorem word_or2 {x y : Char} (hx : isWordChar x = true)
    (hy : isWordChar y = true) :
    ∀ c, (decide (c = x) || decide (c = y) : Bool) = true →
      isWordChar c = true := by
  intro c h
  simp only [Bool.or_eq_true, decide_eq_true_eq] at h
  rcases h with rfl | rfl
  · exact hx
  · exact hy

theorem word_or3 {x y z : Char} (hx : isWordChar x = true)
    (hy : isWordChar y = true) (hz : isWordChar z = true) :
    ∀ c, (decide (c = x) || decide (c = y) || decide (c = z) : Bool) = true →
      isWordChar c = true := by
  intro c h
  simp only [Bool.or_eq_true, decide_eq_true_eq] at h
  rcases h with (rfl | rfl) | rfl
  · exact hx
  · exact hy
  · exact hz

theorem word_or4 {x y z u : Char} (hx : isWordChar x = true)
    (hy : isWordChar y = true) (hz : isWordChar z = true)
    (hu : isWordChar u = true) :
    ∀ c, (decide (c = x) || decide (c = y) || decide (c = z) ||
      decide (c = u) : Bool) = true → isWordChar c = true := by
  intro c h
  simp only [Bool.or_eq_true, decide_eq_true_eq] at h
  rcases h with ((rfl | rfl) | rfl) | rfl
  · exact hx
  · exact hy
  · exact hz
  · exact hu

end FortKnox

namespace FortKnox

open Re

/-! ### Structural facts about the date/time pattern elements -/

theorem mok_yearHead : MOK yearHead 2 :=
  (MOK_altM (MOK_lit (w := "19") (by decide)) (MOK_lit (w := "20") (by decide))).mono
    (by decide)

theorem sw_yearHead : MStart yearHead :=
  MStart_altM (MStart_lit (by decide)) (MStart_lit (by decide))

theorem mok_cnt2 : MOK (classCnt isDigitChar 2) 2 :=
  MOK_classCnt (by decide) (by decide)

theorem ew_cnt2 : MEnd (classCnt isDigitChar 2) :=
  MEnd_classCnt (fun c h => digit_word h)

theorem mok_dateSep : MOK dateSep 1 := MOK_one (by decide) (by decide)

theorem mok_month2 : MOK month2 2 :=
  (MOK_altM (MOK_seqM (MOK_one (by decide) (by decide)) (MOK_one (by decide) (by decide)))
    (MOK_seqM (MOK_one (by decide) (by decide)) (MOK_one (by decide) (by decide)))).mono
    (by decide)

theorem mok_day2 : MOK day2 2 := by
  apply MOK_alts
  intro m hm
  simp only [List.mem_cons, List.not_mem_nil, or_false] at hm
  rcases hm with rfl | rfl | rfl
  · exact MOK_seqM (MOK_one (by decide) (by decide)) (MOK_one (by decide) (by decide))
  · exact MOK_seqM (MOK_one (by decide) (by decide)) (MOK_one (by decide) (by decide))
  · exact MOK_seqM (MOK_one (by decide) (by decide)) (MOK_one (by decide) (by decide))

theorem ew_day2 : MEnd day2 := by
  apply MEnd_alts
  intro m hm
  simp only [List.mem_cons, List.not_mem_nil, or_false] at hm
  rcases hm with rfl | rfl | rfl
  · exact MEnd_seqM_low Mlow_one Mup_one (MEnd_one digit19_word)
  · exact MEnd_seqM_low Mlow_one Mup_one (MEnd_one (fun c h => digit_word h))
  · exact MEnd_seqM_low Mlow_one Mup_one (MEnd_one (word_or2 (by decide) (by decide)))

theorem mok_dayFlex : MOK dayFlex 1 := by
  apply MOK_alts
  intro m hm
  simp only [List.mem_cons, List.not_mem_nil, or_false] at hm
  rcases hm with rfl | rfl | rfl
  · exact (MOK_seqM (MOK_opt (MOK_one (by decide) (by decide)))
      (MOK_one (by decide) (by decide))).mono (by decide)
  · exact (MOK_seqM (MOK_one (by decide) (by decide))
      (MOK_one (by decide) (by decide))).mono (by decide)
  · exact (MOK_seqM (MOK_one (by decide) (by decide))
      (MOK_one (by decide) (by decide))).mono (by decide)

theorem sw_dayFlex : MStart dayFlex := by
  apply MStart_alts
  intro m hm
  simp only [List.mem_cons, List.not_mem_nil, or_false] at hm
  rcases hm with rfl | rfl | rfl
  · exact MStart_seqM (MStart_opt (MStart_one (word_eq_chr (by decide))))
      (MStart_one digit19_word)
  · exact MStart_seqM (MStart_one (word_or2 (by decide) (by decide)))
      (MStart_one (fun c h => digit_word h))
  · exact MStart_seqM (MStart_one (word_eq_chr (by decide)))
      (MStart_one (word_or2 (by decide) (by decide)))

theorem mok_monthFlex : MOK monthFlex 1 :=
  (MOK_altM (MOK_seqM (MOK_opt (MOK_one (by decide) (by decide)))
      (MOK_one (by decide) (by decide)))
    (MOK_seqM (MOK_one (by decide) (by decide))
      (MOK_one (by decide) (by decide)))).mono (by decide)

theorem mok_ws1 : MOK ws1 1 := MOK_classPlus (by decide) (by decide)

theorem mok_longMonthM : MOK longMonthM 1 := by
  apply MOK_alts
  intro m hm
  rw [List.mem_map] at hm
  obtain ⟨w, hw, rfl⟩ := hm
  have hall : ∀ w2 ∈ longMonths, (∀ c ∈ w2.toList, c ≠ '[' ∧ c ≠ ']') ∧
      1 ≤ w2.toList.length := by decide
  exact (MOK_litCI (hall w hw).1).mono (hall w hw).2

theorem ew_longMonthM : MEnd longMonthM := by
  apply MEnd_alts
  intro m hm
  rw [List.mem_map] at hm
  obtain ⟨w, hw, rfl⟩ := hm
  have hall : ∀ w2 ∈ longMonths,
      (w2.toList.getLast?.elim false isWordChar) = true := by decide
  exact MEnd_litCI (exists_of_option_elim (hall w hw))

theorem mok_shortMonthM : MOK shortMonthM 1 := by
  apply MOK_alts
  intro m hm
  rw [List.mem_map] at hm
  obtain ⟨w, hw, rfl⟩ := hm
  have hall : ∀ w2 ∈ shortMonths, (∀ c ∈ w2.toList, c ≠ '[' ∧ c ≠ ']') ∧
      1 ≤ w2.toList.length := by decide
  exact (MOK_litCI (hall w hw).1).mono (hall w hw).2

theorem ew_shortMonthM : MEnd shortMonthM := by
  apply MEnd_alts
  intro m hm
  rw [List.mem_map] at hm
  obtain ⟨w, hw, rfl⟩ := hm
  have hall : ∀ w2 ∈ shortMonths,
      (w2.toList.getLast?.elim false isWordChar) = true := by decide
  exact MEnd_litCI (exists_of_option_elim (hall w hw))

theorem mok_hourM : MOK hourM 1 := by
  apply MOK_alts
  intro m hm
  simp only [List.mem_cons, List.not_mem_nil, or_false] at hm
  rcases hm with rfl | rfl | rfl
  · exact (MOK_seqM (MOK_opt (MOK_one (by decide) (by decide)))
      (MOK_one (by decide) (by decide))).mono (by decide)
  · exact (MOK_seqM (MOK_one (by decide) (by decide))
      (MOK_one (by decide) (by decide))).mono (by decide)
  · exact (MOK_seqM (MOK_one (by decide) (by decide))
      (MOK_one (by decide) (by decide))).mono (by decide)

theorem sw_hourM : MStart hourM := by
  apply MStart_alts
  intro m hm
  simp only [List.mem_cons, List.not_mem_nil, or_false] at hm
  rcases hm with rfl | rfl | rfl
  · exact MStart_seqM (MStart_opt (MStart_one (word_eq_chr (by decide))))
      (MStart_one (fun c h => digit_word h))
  · exact MStart_seqM (MStart_one (word_eq_chr (by decide)))
      (MStart_one (fun c h => digit_word h))
  · exact MStart_seqM (MStart_one (word_eq_chr (by decide)))
      (MStart_one (word_or4 (by decide) (by decide) (by decide) (by decide)))

end FortKnox

namespace Re

open FortKnox

/-- Everything the idempotence argument needs of a whole pattern. -/
structure PatOK (pt : Pat) : Prop where
  lbt : pt.lb = true
  tbt : pt.tb = true
  low : Mlow pt.m 1
  up : Mup pt.m
  sw : MStart pt.m
  ew : MEnd pt.m
  nb : MNB pt.m
  pl : MPL pt.m

end Re

namespace FortKnox

open Re

/-! ### The seven date/time patterns are well-behaved -/

theorem patOK_isoDatePat : PatOK isoDatePat := by
  have m5 : MOK (seqM dateSep day2) 3 := MOK_seqM mok_dateSep mok_day2
  have e5 : MEnd (seqM dateSep day2) :=
    MEnd_seqM_low (mok_day2.mono (by decide)).low mok_day2.up ew_day2
  have m4 : MOK (seqM month2 (seqM dateSep day2)) 5 := MOK_seqM mok_month2 m5
  have e4 : MEnd (seqM month2 (seqM dateSep day2)) :=
    MEnd_seqM_low (m5.mono (by decide)).low m5.up e5
  have m3 : MOK (seqM dateSep (seqM month2 (seqM dateSep day2))) 6 :=
    MOK_seqM mok_dateSep m4
  have e3 : MEnd (seqM dateSep (seqM month2 (seqM dateSep day2))) :=
    MEnd_seqM_low (m4.mono (by decide)).low m4.up e4
  have m2 : MOK (seqM (classCnt isDigitChar 2)
      (seqM dateSep (seqM month2 (seqM dateSep day2)))) 8 := MOK_seqM mok_cnt2 m3
  have e2 : MEnd (seqM (classCnt isDigitChar 2)
      (seqM dateSep (seqM month2 (seqM dateSep day2)))) :=
    MEnd_seqM_low (m3.mono (by decide)).low m3.up e3
  have m1 : MOK isoDatePat.m 10 := MOK_seqM mok_yearHead m2
  have e1 : MEnd isoDatePat.m := MEnd_seqM_low (m2.mono (by decide)).low m2.up e2
  exact ⟨rfl, rfl, (m1.mono (by decide)).low, m1.up,
    MStart_seqM_low (mok_yearHead.mono (by decide)).low sw_yearHead, e1,
    m1.nb, m1.pl⟩

theorem patOK_dmyPat : PatOK dmyPat := by
  have mslash : MOK (chr '/') 1 := MOK_one (by decide) (by decide)
  have m5 : MOK (seqM yearHead (classCnt isDigitChar 2)) 4 :=
    MOK_seqM mok_yearHead mok_cnt2
  have e5 : MEnd (seqM yearHead (classCnt isDigitChar 2)) :=
    MEnd_seqM_low (mok_cnt2.mono (by decide)).low mok_cnt2.up ew_cnt2
  have m4 : MOK (seqM (chr '/') (seqM yearHead (classCnt isDigitChar 2))) 5 :=
    MOK_seqM mslash m5
  have e4 : MEnd (seqM (chr '/') (seqM yearHead (classCnt isDigitChar 2))) :=
    MEnd_seqM_low (m5.mono (by decide)).low m5.up e5
  have m3 : MOK (seqM monthFlex
      (seqM (chr '/') (seqM yearHead (classCnt isDigitChar 2)))) 6 :=
    MOK_seqM mok_monthFlex m4
  have e3 : MEnd (seqM monthFlex
      (seqM (chr '/') (seqM yearHead (classCnt isDigitChar 2)))) :=
    MEnd_seqM_low (m4.mono (by decide)).low m4.up e4
  have m2 : MOK (seqM (chr '/') (seqM monthFlex
      (seqM (chr '/') (seqM yearHead (classCnt isDigitChar 2))))) 7 :=
    MOK_seqM mslash m3
  have e2 : MEnd (seqM (chr '/') (seqM monthFlex
      (seqM (chr '/') (seqM yearHead (classCnt isDigitChar 2))))) :=
    MEnd_seqM_low (m3.mono (by decide)).low m3.up e3
  have m1 : MOK dmyPat.m 8 := MOK_seqM mok_dayFlex m2
  have e1 : MEnd dmyPat.m := MEnd_seqM_low (m2.mono (by decide)).low m2.up e2
  exact ⟨rfl, rfl, (m1.mono (by decide)).low, m1.up,
    MStart_seqM_low mok_dayFlex.low sw_dayFlex, e1, m1.nb, m1.pl⟩

theorem patOK_longMonthYearPat : PatOK longMonthYearPat := by
  have m4 : MOK (seqM yearHead (classCnt isDigitChar 2)) 4 :=
    MOK_seqM mok_yearHead mok_cnt2
  have e4 : MEnd (seqM yearHead (classCnt isDigitChar 2)) :=
    MEnd_seqM_low (mok_cnt2.mono (by decide)).low mok_cnt2.up ew_cnt2
  have m3 : MOK (seqM ws1 (seqM yearHead (classCnt isDigitChar 2))) 5 :=
    MOK_seqM mok_ws1 m4
  have e3 : MEnd (seqM ws1 (seqM yearHead (classCnt isDigitChar 2))) :=
    MEnd_seqM_low (m4.mono (by decide)).low m4.up e4
  have m2 : MOK (seqM longMonthM
      (seqM ws1 (seqM yearHead (classCnt isDigitChar 2)))) 6 :=
    MOK_seqM mok_longMonthM m3
  have e2 : MEnd (seqM longMonthM
      (seqM ws1 (seqM yearHead (classCnt isDigitChar 2)))) :=
    MEnd_seqM_low (m3.mono (by decide)).low m3.up e3
  have m1b : MOK (seqM ws1 (seqM longMonthM
      (seqM ws1 (seqM yearHead (classCnt isDigitChar 2))))) 7 :=
    MOK_seqM mok_ws1 m2
  have e1b : MEnd (seqM ws1 (seqM longMonthM
      (seqM ws1 (seqM yearHead (classCnt isDigitChar 2))))) :=
    MEnd_seqM_low (m2.mono (by decide)).low m2.up e2
  have m1 : MOK longMonthYearPat.m 8 := MOK_seqM mok_dayFlex m1b
  have e1 : MEnd longMonthYearPat.m :=
    MEnd_seqM_low (m1b.mono (by decide)).low m1b.up e1b
  exact ⟨rfl, rfl, (m1.mono (by decide)).low, m1.up,
    MStart_seqM_low mok_dayFlex.low sw_dayFlex, e1, m1.nb, m1.pl⟩

theorem patOK_shortMonthYearPat : PatOK shortMonthYearPat := by
  have m5 : MOK (seqM yearHead (classCnt isDigitChar 2)) 4 :=
    MOK_seqM mok_yearHead mok_cnt2
  have e5 : MEnd (seqM yearHead (classCnt isDigitChar 2)) :=
    MEnd_seqM_low (mok_cnt2.mono (by decide)).low mok_cnt2.up ew_cnt2
  have m4 : MOK (seqM ws1 (seqM yearHead (classCnt isDigitChar 2))) 5 :=
    MOK_seqM mok_ws1 m5
  have e4 : MEnd (seqM ws1 (seqM yearHead (classCnt isDigitChar 2))) :=
    MEnd_seqM_low (m5.mono (by decide)).low m5.up e5
  have m3 : MOK (seqM (opt (chr '.'))
      (seqM ws1 (seqM yearHead (classCnt isDigitChar 2)))) 5 :=
    (MOK_seqM (MOK_opt (MOK_one (by decide) (by decide))) m4).mono (by decide)
  have e3 : MEnd (seqM (opt (chr '.'))
      (seqM ws1 (seqM yearHead (classCnt isDigitChar 2)))) :=
    MEnd_seqM_low (m4.mono (by decide)).low m4.up e4
  have m2 : MOK (seqM shortMonthM (seqM (opt (chr '.'))
      (seqM ws1 (seqM yearHead (classCnt isDigitChar 2))))) 6 :=
    MOK_seqM mok_shortMonthM m3
  have e2 : MEnd (seqM shortMonthM (seqM (opt (chr '.'))
      (seqM ws1 (seqM yearHead (classCnt isDigitChar 2))))) :=
    MEnd_seqM_low (m3.mono (by decide)).low m3.up e3
  have m1b : MOK (seqM ws1 (seqM shortMonthM (seqM (opt (chr '.'))
      (seqM ws1 (seqM yearHead (classCnt isDigitChar 2)))))) 7 :=
    MOK_seqM mok_ws1 m2
  have e1b : MEnd (seqM ws1 (seqM shortMonthM (seqM (opt (chr '.'))
      (seqM ws1 (seqM yearHead (classCnt isDigitChar 2)))))) :=
    MEnd_seqM_low (m2.mono (by decide)).low m2.up e2
  have m1 : MOK shortMonthYearPat.m 8 := MOK_seqM mok_dayFlex m1b
  have e1 : MEnd shortMonthYearPat.m :=
    MEnd_seqM_low (m1b.mono (by decide)).low m1b.up e1b
  exact ⟨rfl, rfl, (m1.mono (by decide)).low, m1.up,
    MStart_seqM_low mok_dayFlex.low sw_dayFlex, e1, m1.nb, m1.pl⟩

theorem patOK_longMonthNoYearPat : PatOK longMonthNoYearPat := by
  have m2 : MOK (seqM ws1 longMonthM) 2 := MOK_seqM mok_ws1 mok_longMonthM
  have e2 : MEnd (seqM ws1 longMonthM) :=
    MEnd_seqM_low mok_longMonthM.low mok_longMonthM.up ew_longMonthM
  have m1 : MOK longMonthNoYearPat.m 3 := MOK_seqM mok_dayFlex m2
  have e1 : MEnd longMonthNoYearPat.m :=
    MEnd_seqM_low (m2.mono (by decide)).low m2.up e2
  exact ⟨rfl, rfl, (m1.mono (by decide)).low, m1.up,
    MStart_seqM_low mok_dayFlex.low sw_dayFlex, e1, m1.nb, m1.pl⟩

theorem patOK_timePat : PatOK timePat := by
  have mkl : MOK (seqM (litCI "kl") (seqM (opt (chr '.')) ws1)) 3 :=
    (MOK_seqM (MOK_litCI (by decide))
      (MOK_seqM (MOK_opt (MOK_one (by decide) (by decide))) mok_ws1)).mono (by decide)
  have swkl : MStart (seqM (litCI "kl") (seqM (opt (chr '.')) ws1)) :=
    MStart_seqM_low ((MOK_litCI (w := "kl") (by decide)).mono (by decide)).low
      (MStart_litCI (exists_of_option_elim (by decide)))
  have m4 : MOK (seqM (one (fun c => '0' ≤ c && c ≤ '5')) (one isDigitChar)) 2 :=
    MOK_seqM (MOK_one (by decide) (by decide)) (MOK_one (by decide) (by decide))
  have e4 : MEnd (seqM (one (fun c => '0' ≤ c && c ≤ '5')) (one isDigitChar)) :=
    MEnd_seqM_low Mlow_one Mup_one (MEnd_one (fun c h => digit_word h))
  have m3 : MOK (seqM (one (fun c => c = ':' || c = '.'))
      (seqM (one (fun c => '0' ≤ c && c ≤ '5')) (one isDigitChar))) 3 :=
    MOK_seqM (MOK_one (by decide) (by decide)) m4
  have e3 : MEnd (seqM (one (fun c => c = ':' || c = '.'))
      (seqM (one (fun c => '0' ≤ c && c ≤ '5')) (one isDigitChar))) :=
    MEnd_seqM_low (m4.mono (by decide)).low m4.up e4
  have m2 : MOK (seqM hourM (seqM (one (fun c => c = ':' || c = '.'))
      (seqM (one (fun c => '0' ≤ c && c ≤ '5')) (one isDigitChar)))) 4 :=
    MOK_seqM mok_hourM m3
  have e2 : MEnd (seqM hourM (seqM (one (fun c => c = ':' || c = '.'))
      (seqM (one (fun c => '0' ≤ c && c ≤ '5')) (one isDigitChar)))) :=
    MEnd_seqM_low (m3.mono (by decide)).low m3.up e3
  have sw2 : MStart (seqM hourM (seqM (one (fun c => c = ':' || c = '.'))
      (seqM (one (fun c => '0' ≤ c && c ≤ '5')) (one isDigitChar)))) :=
    MStart_seqM_low mok_hourM.low sw_hourM
  have m1 : MOK timePat.m 4 :=
    (MOK_seqM (MOK_opt mkl) m2).mono (by decide)
  have e1 : MEnd timePat.m :=
    MEnd_seqM_low (m2.mono (by decide)).low m2.up e2
  exact ⟨rfl, rfl, (m1.mono (by decide)).low, m1.up,
    MStart_seqM (MStart_opt swkl) sw2, e1, m1.nb, m1.pl⟩

theorem patOK_relativePat : PatOK relativePat := by
  have hall : ∀ w2 ∈ relativeWords, ((∀ c ∈ w2.toList, c ≠ '[' ∧ c ≠ ']') ∧
      1 ≤ w2.toList.length) ∧
      (w2.toList.head?.elim false isWordChar) = true ∧
      (w2.toList.getLast?.elim false isWordChar) = true := by decide
  have m1 : MOK relativePat.m 1 := by
    apply MOK_alts
    intro m hm
    rw [List.mem_map] at hm
    obtain ⟨w, hw, rfl⟩ := hm
    exact (MOK_litCI ((hall w hw).1.1)).mono (hall w hw).1.2
  have sw1 : MStart relativePat.m := by
    apply MStart_alts
    intro m hm
    rw [List.mem_map] at hm
    obtain ⟨w, hw, rfl⟩ := hm
    exact MStart_litCI (exists_of_option_elim (hall w hw).2.1)
  have ew1 : MEnd relativePat.m := by
    apply MEnd_alts
    intro m hm
    rw [List.mem_map] at hm
    obtain ⟨w, hw, rfl⟩ := hm
    exact MEnd_litCI (exists_of_option_elim (hall w hw).2.2)
  exact ⟨rfl, rfl, m1.low, m1.up, sw1, ew1, m1.nb, m1.pl⟩

end FortKnox

namespace Re

open FortKnox

/-! ### Match analysis for well-behaved patterns -/

theorem mem_of_getElem?_self {l : Str} {n : Nat} {a : Char} (h : l[n]? = some a) :
    a ∈ l := by
  obtain ⟨hlt, rfl⟩ := List.getElem?_eq_some_iff.mp h
  exact List.getElem_mem hlt

theorem matchAt_none_iff {pt : Pat} (hok : PatOK pt) {prev : Option Char}
    {s : Str} :
    matchAt pt prev s = none ↔
      wb prev s.head? = false ∨
        ∀ l ∈ pt.m s, wb ((s.take l).getLast?) ((s.drop l).head?) = false := by
  unfold matchAt
  rw [hok.lbt, hok.tbt]
  simp only [Bool.true_and]
  by_cases hwb : wb prev s.head? = true
  · rw [hwb]
    simp only [Bool.not_true, Bool.false_eq_true, if_false]
    rw [List.find?_eq_none]
    constructor
    · intro h
      refine Or.inr (fun l hl => ?_)
      have h2 := h l hl
      simp only [Bool.not_true, Bool.false_or, Bool.not_eq_true] at h2
      exact h2
    · intro h l hl
      rcases h with h | h
      · exact absurd h (by decide)
      · simp only [Bool.not_true, Bool.false_or, Bool.not_eq_true]
        exact h l hl
  · have hwb2 : wb prev s.head? = false := by simpa using hwb
    constructor
    · intro _
      exact Or.inl hwb2
    · intro _
      rw [hwb2]
      simp only [Bool.not_false, if_true]

theorem matchAt_some_spec {pt : Pat} (hok : PatOK pt) {prev : Option Char}
    {s : Str} {l : Nat} (h : matchAt pt prev s = some l) :
    wb prev s.head? = true ∧ l ∈ pt.m s ∧
      wb ((s.take l).getLast?) ((s.drop l).head?) = true := by
  unfold matchAt at h
  rw [hok.lbt, hok.tbt] at h
  simp only [Bool.true_and] at h
  by_cases hwb : wb prev s.head? = true
  · rw [hwb] at h
    simp only [Bool.not_true, Bool.false_eq_true, if_false] at h
    refine ⟨hwb, List.mem_of_find?_eq_some h, ?_⟩
    have h2 := List.find?_some h
    simp only [Bool.not_true, Bool.false_or] at h2
    exact h2
  · have hwb2 : wb prev s.head? = false := by simpa using hwb
    rw [hwb2] at h
    simp at h

/-- No candidate can begin at a non-word character. -/
theorem m_nil_of_nonword_head {pt : Pat} (hok : PatOK pt) {s : Str}
    (h : ∀ c, s.head? = some c → isWordChar c = false) : pt.m s = [] := by
  rw [List.eq_nil_iff_forall_not_mem]
  intro l hl
  obtain ⟨c, hc, hw⟩ := hok.sw s l hl (hok.low s l hl)
  rw [h c hc] at hw
  cases hw

theorem matchAt_none_of_nonword_head {pt : Pat} (hok : PatOK pt)
    {prev : Option Char} {s : Str}
    (h : ∀ c, s.head? = some c → isWordChar c = false) :
    matchAt pt prev s = none := by
  rw [matchAt_none_iff hok]
  right
  rw [m_nil_of_nonword_head hok h]
  intro l hl
  cases hl

/-- The central transfer lemma: a no-match position stays a no-match
position when the text beyond a non-word cut point is replaced by
bracketed material. -/
theorem matchAt_transfer {pt : Pat} (hok : PatOK pt) {prev : Option Char}
    {s t : Str} {k : Nat} (hnone : matchAt pt prev s = none)
    (htake : s.take k = t.take k) (hbr : (t.drop k).head? = some '[')
    (hend : (k = 0 ∧ True) ∨
      (1 ≤ k ∧ ∃ c, (s.take k).getLast? = some c ∧ isWordChar c = false)) :
    matchAt pt prev t = none := by
  rcases hend with ⟨rfl, -⟩ | ⟨hkpos, c, hc, hcw⟩
  · apply matchAt_none_of_nonword_head hok
    intro d hd
    rw [List.drop_zero] at hbr
    have h2 : some d = some '[' := by rw [← hd, hbr]
    simp only [Option.some.injEq] at h2
    subst h2
    decide
  · have hhead : s.head? = t.head? := head_eq_of_take_eq htake hkpos
    rw [matchAt_none_iff hok] at hnone ⊢
    rcases hnone with hnone | hnone
    · left
      rwa [← hhead]
    · right
      intro l hl
      have hl1 : 1 ≤ l := hok.low t l hl
      have hlk : l ≤ k := by
        by_contra hgt
        push_neg at hgt
        have hbrk : '[' ∈ t.take l := by
          rw [List.head?_drop] at hbr
          have h3 : (t.take l)[k]? = some '[' := by
            rw [List.getElem?_take]
            simp only [hgt, if_true]
            exact hbr
          exact mem_of_getElem?_self h3
        exact ((hok.nb t l hl) '[' hbrk).1 rfl
      have hmem_s : l ∈ pt.m s :=
        (hok.pl l s t (take_eq_of_take_eq htake hlk)).mpr hl
      rcases Nat.lt_or_ge k l with h2 | h2
      · omega
      rcases Nat.eq_or_lt_of_le hlk with rfl | hlt
      · obtain ⟨d, hd, hdw⟩ := hok.ew t l hl hl1
        rw [take_eq_of_take_eq htake (Nat.le_refl l)] at hc
        rw [hd] at hc
        simp only [Option.some.injEq] at hc
        subst hc
        rw [hdw] at hcw
        cases hcw
      · have h4 := hnone l hmem_s
        have htl : s.take l = t.take l := take_eq_of_take_eq htake hlk
        have hnext : (s.drop l).head? = (t.drop l).head? :=
          drop_head_eq_of_take_eq htake hlt
        rw [htl, hnext] at h4
        exact h4

end Re

namespace Re

open FortKnox

/-! ### Scan analysis -/

theorem searchB_cons_false {pt : Pat} {prev : Option Char} {c : Char}
    {rest : Str} :
    searchB pt prev (c :: rest) = false ↔
      matchAt pt prev (c :: rest) = none ∧ searchB pt (some c) rest = false := by
  show ((matchAt pt prev (c :: rest)).isSome || searchB pt (some c) rest) =
      false ↔ _
  rw [Bool.or_eq_false_iff]
  constructor
  · rintro ⟨h1, h2⟩
    refine ⟨?_, h2⟩
    cases hm : matchAt pt prev (c :: rest) with
    | none => rfl
    | some l =>
      rw [hm] at h1
      cases h1
  · rintro ⟨h1, h2⟩
    rw [h1]
    exact ⟨rfl, h2⟩

/-- The previous-character context is irrelevant when the text starts with
a non-word character (or is empty). -/
theorem searchB_prev_congr {pt : Pat} (hok : PatOK pt) {v : Str}
    (hv : v = [] ∨ ∃ c v2, v = c :: v2 ∧ isWordChar c = false)
    (prev1 prev2 : Option Char) : searchB pt prev1 v = searchB pt prev2 v := by
  rcases hv with rfl | ⟨c, v2, rfl, hc⟩
  · rfl
  · have hh : ∀ d, (c :: v2).head? = some d → isWordChar d = false := by
      intro d hd
      simp only [List.head?_cons, Option.some.injEq] at hd
      rw [← hd]
      exact hc
    show ((matchAt pt prev1 (c :: v2)).isSome || searchB pt (some c) v2) =
      ((matchAt pt prev2 (c :: v2)).isSome || searchB pt (some c) v2)
    rw [matchAt_none_of_nonword_head hok hh, matchAt_none_of_nonword_head hok hh]

/-- A clean scan stays clean after dropping a prefix, in the context of the
last dropped character. -/
theorem searchB_drop {pt : Pat} :
    ∀ (l : Nat) (s : Str) (prev : Option Char), 1 ≤ l →
      searchB pt prev s = false →
      searchB pt ((s.take l).getLast?) (s.drop l) = false
  | l, [], _, hl, _ => by
    cases l with
    | zero => omega
    | succ n => rfl
  | 0, c :: rest, _, hl, _ => by omega
  | 1, c :: rest, prev, _, hs => by
    rw [searchB_cons_false] at hs
    simpa using hs.2
  | n + 2, c :: rest, prev, _, hs => by
    rw [searchB_cons_false] at hs
    rcases rest with _ | ⟨d, rest2⟩
    · simp only [List.drop_succ_cons, List.drop_nil]
      rfl
    · have ih := searchB_drop (n + 1) (d :: rest2) (some c) (by omega) hs.2
      simp only [List.take_succ_cons, List.drop_succ_cons]
      rw [getLast?_cons_ne]
      · exact ih
      · intro he
        simp at he

/-- Walking a scan over an inert word segment. -/
theorem searchB_inert_aux {pt : Pat} (hok : PatOK pt) :
    ∀ (V : Str), (∀ j rest, pt.m ((V.drop j) ++ ']' :: rest) = []) →
      ∀ (prev : Option Char) (tail : Str),
        searchB pt prev (V ++ ']' :: tail) = searchB pt (some ']') tail
  | [], _, prev, tail => by
    show ((matchAt pt prev (']' :: tail)).isSome || searchB pt (some ']') tail) = _
    rw [matchAt_none_of_nonword_head hok]
    · rfl
    · intro c hc
      simp only [List.head?_cons, Option.some.injEq] at hc
      rw [← hc]
      decide
  | c :: V2, hin, prev, tail => by
    have hm : pt.m (c :: (V2 ++ ']' :: tail)) = [] := by
      have h0 := hin 0 tail
      exact h0
    have hma : matchAt pt prev (c :: (V2 ++ ']' :: tail)) = none := by
      rw [matchAt_none_iff hok]
      right
      rw [hm]
      intro l hl
      cases hl
    show ((matchAt pt prev (c :: (V2 ++ ']' :: tail))).isSome ||
      searchB pt (some c) (V2 ++ ']' :: tail)) = _
    rw [hma,
      searchB_inert_aux hok V2 (fun j rest => by
        have h1 := hin (j + 1) rest
        exact h1) (some c) tail]
    rfl

/-- Scanning across a whole bracketed token. -/
theorem searchB_token {pt : Pat} (hok : PatOK pt) {W : Str}
    (hin : ∀ j rest, pt.m ((W.drop j) ++ ']' :: rest) = [])
    (prev : Option Char) (tail : Str) :
    searchB pt prev ('[' :: (W ++ ']' :: tail)) = searchB pt (some ']') tail := by
  show ((matchAt pt prev ('[' :: (W ++ ']' :: tail))).isSome ||
    searchB pt (some '[') (W ++ ']' :: tail)) = _
  rw [matchAt_none_of_nonword_head hok]
  · rw [searchB_inert_aux hok W hin (some '[') tail]
    rfl
  · intro c hc
    simp only [List.head?_cons, Option.some.injEq] at hc
    rw [← hc]
    decide

/-- A clean text passes through a substitution scan unchanged. -/
theorem scanSub_clean_id {pt : Pat} (repl : Str → Str) :
    ∀ (fuel : Nat) (s : Str) (prev : Option Char), s.length ≤ fuel →
      searchB pt prev s = false → scanSub pt repl fuel prev s = (s, 0)
  | fuel, [], prev, _, _ => by cases fuel <;> rfl
  | 0, c :: rest, prev, hf, _ => by simp at hf
  | fuel + 1, c :: rest, prev, hf, hs => by
    rw [searchB_cons_false] at hs
    rw [scanSub, hs.1]
    dsimp only
    rw [scanSub_clean_id repl fuel rest (some c) (by simpa using hf) hs.2]

end Re

namespace Re

open FortKnox

/-- Shape of a substitution-scan output: it is the input itself, or agrees
with the input up to a cut point followed by the bracketed replacement,
where the cut is at the start (with a non-word previous context) or right
after a non-word character. -/
theorem scanSub_shape {pt : Pat} (hok : PatOK pt) {repl : Str → Str} {W : Str}
    (hrepl : ∀ u, repl u = '[' :: (W ++ [']'])) :
    ∀ (fuel : Nat) (s : Str) (prev : Option Char), s.length ≤ fuel →
      (scanSub pt repl fuel prev s).1 = s ∨
      ∃ k, k < s.length ∧ (scanSub pt repl fuel prev s).1.take k = s.take k ∧
        ((scanSub pt repl fuel prev s).1.drop k).head? = some '[' ∧
        ((k = 0 ∧ isWordOpt prev = false) ∨
         (1 ≤ k ∧ ∃ c, (s.take k).getLast? = some c ∧ isWordChar c = false))
  | fuel, [], _, _ => by
    left
    cases fuel <;> rfl
  | 0, c :: rest, _, hf => by simp at hf
  | fuel + 1, c :: rest, prev, hf => by
    rw [scanSub]
    cases hm : matchAt pt prev (c :: rest) with
    | none =>
      dsimp only
      rcases scanSub_shape hok hrepl fuel rest (some c) (by simpa using hf) with
        h | ⟨k, hk, ht, hh, he⟩
      · left
        rw [h]
      · right
        refine ⟨k + 1, by simp only [List.length_cons]; omega, ?_, ?_, ?_⟩
        · simp only [List.take_succ_cons]
          rw [ht]
        · simp only [List.drop_succ_cons]
          exact hh
        · right
          rcases he with ⟨rfl, hpw⟩ | ⟨hk1, d, hd, hdw⟩
          · refine ⟨by omega, c, by simp, ?_⟩
            simpa using hpw
          · refine ⟨by omega, d, ?_, hdw⟩
            simp only [List.take_succ_cons]
            rw [getLast?_cons_ne]
            · exact hd
            · intro hnil
              rw [hnil] at hd
              cases hd
    | some l =>
      dsimp only
      have hspec := matchAt_some_spec hok hm
      have hl1 : 1 ≤ l := hok.low _ l hspec.2.1
      rw [if_pos (by omega : 0 < l)]
      right
      refine ⟨0, by simp, by simp, ?_, Or.inl ⟨rfl, ?_⟩⟩
      · rw [List.drop_zero, hrepl]
        rfl
      · obtain ⟨d, hd, hdw⟩ := hok.sw _ l hspec.2.1 hl1
        have hwb := hspec.1
        unfold wb at hwb
        rw [hd] at hwb
        simp only [isWordOpt, hdw] at hwb
        simpa using hwb

end Re

namespace Re

open FortKnox

/-- A no-match head position stays a no-match head position on the scan
output of the tail. -/
theorem matchAt_none_out {q pt : Pat} (hq : PatOK q) (hok : PatOK pt)
    {repl : Str → Str} {W : Str} (hrepl : ∀ u, repl u = '[' :: (W ++ [']']))
    {fuel : Nat} {rest : Str} {c : Char} {prev : Option Char}
    (hf : rest.length ≤ fuel)
    (hn : matchAt q prev (c :: rest) = none) :
    matchAt q prev (c :: (scanSub pt repl fuel (some c) rest).1) = none := by
  rcases scanSub_shape hok hrepl fuel rest (some c) hf with h | ⟨k, hk, ht, hh, he⟩
  · rw [h]
    exact hn
  · apply matchAt_transfer hq hn (k := k + 1)
    · simp only [List.take_succ_cons]
      rw [ht]
    · simp only [List.drop_succ_cons]
      exact hh
    · right
      refine ⟨by omega, ?_⟩
      rcases he with ⟨rfl, hpw⟩ | ⟨hk1, d, hd, hdw⟩
      · exact ⟨c, by simp, by simpa using hpw⟩
      · refine ⟨d, ?_, hdw⟩
        simp only [List.take_succ_cons]
        rw [getLast?_cons_ne]
        · exact hd
        · intro hnil
          rw [hnil] at hd
          cases hd

/-- The scan output of a text with a non-word (or absent) head again has a
non-word (or absent) head. -/
theorem scanSub_out_head {pt : Pat} (hok : PatOK pt) {repl : Str → Str}
    {W : Str} (hrepl : ∀ u, repl u = '[' :: (W ++ [']']))
    (fuel : Nat) (v : Str) (prev : Option Char) (hf : v.length ≤ fuel)
    (hnw : ∀ d, v.head? = some d → isWordChar d = false) :
    (scanSub pt repl fuel prev v).1 = [] ∨
      ∃ d v2, (scanSub pt repl fuel prev v).1 = d :: v2 ∧
        isWordChar d = false := by
  rcases scanSub_shape hok hrepl fuel v prev hf with h | ⟨k, hk, ht, hh, he⟩
  · rw [h]
    cases v with
    | nil => exact Or.inl rfl
    | cons d v2 => exact Or.inr ⟨d, v2, rfl, hnw d rfl⟩
  · cases hout : (scanSub pt repl fuel prev v).1 with
    | nil =>
      rcases Nat.eq_zero_or_pos k with rfl | hkpos
      · rw [hout] at hh
        rw [List.drop_zero] at hh
        cases hh
      · rw [hout] at ht
        have h2 := congrArg List.length ht
        simp only [List.take_nil, List.length_nil, List.length_take] at h2
        omega
    | cons e v2 =>
      right
      refine ⟨e, v2, rfl, ?_⟩
      rcases Nat.eq_zero_or_pos k with rfl | hkpos
      · rw [hout, List.drop_zero] at hh
        simp only [List.head?_cons, Option.some.injEq] at hh
        rw [hh]
        decide
      · have hheads := head_eq_of_take_eq ht hkpos
        rw [hout] at hheads
        simp only [List.head?_cons] at hheads
        cases hv : v with
        | nil =>
          rw [hv] at hk
          simp at hk
        | cons d u =>
          rw [hv] at hheads
          simp only [List.head?_cons, Option.some.injEq] at hheads
          rw [hheads]
          exact hnw d (by rw [hv]; rfl)

/-- The non-word continuation property after an accepted match. -/
theorem drop_head_nonword {pt : Pat} (hok : PatOK pt) {prev : Option Char}
    {s : Str} {l : Nat} (hm : matchAt pt prev s = some l) :
    ∀ d, (s.drop l).head? = some d → isWordChar d = false := by
  intro d hd
  have hspec := matchAt_some_spec hok hm
  have hl1 : 1 ≤ l := hok.low _ l hspec.2.1
  obtain ⟨e, he, hew⟩ := hok.ew _ l hspec.2.1 hl1
  have htb := hspec.2.2
  unfold wb at htb
  rw [he, hd] at htb
  simp only [isWordOpt, hew] at htb
  simpa using htb

/-- Self-cleaning: a substitution scan leaves no match of its own pattern
in its output. -/
theorem scanSub_self_clean {pt : Pat} (hok : PatOK pt) {repl : Str → Str}
    {W : Str} (hrepl : ∀ u, repl u = '[' :: (W ++ [']']))
    (hin : ∀ j rest, pt.m ((W.drop j) ++ ']' :: rest) = []) :
    ∀ (fuel : Nat) (s : Str) (prev : Option Char), s.length ≤ fuel →
      searchB pt prev (scanSub pt repl fuel prev s).1 = false
  | fuel, [], prev, _ => by cases fuel <;> rfl
  | 0, c :: rest, prev, hf => by simp at hf
  | fuel + 1, c :: rest, prev, hf => by
    rw [scanSub]
    cases hm : matchAt pt prev (c :: rest) with
    | none =>
      dsimp only
      rw [searchB_cons_false]
      exact ⟨matchAt_none_out hok hok hrepl (by simpa using hf) hm,
        scanSub_self_clean hok hrepl hin fuel rest (some c) (by simpa using hf)⟩
    | some l =>
      dsimp only
      have hspec := matchAt_some_spec hok hm
      have hl1 : 1 ≤ l := hok.low _ l hspec.2.1
      rw [if_pos (by omega : 0 < l)]
      dsimp only
      rw [hrepl]
      rw [show ('[' :: (W ++ [']'])) ++
          (scanSub pt repl fuel ((c :: rest).take l).getLast?
            ((c :: rest).drop l)).1 =
          '[' :: (W ++ ']' ::
          (scanSub pt repl fuel ((c :: rest).take l).getLast?
            ((c :: rest).drop l)).1) by simp]
      rw [searchB_token hok hin]
      have hfd : ((c :: rest).drop l).length ≤ fuel := by
        simp only [List.length_drop, List.length_cons]
        simp only [List.length_cons] at hf
        omega
      have hout := scanSub_out_head hok hrepl fuel ((c :: rest).drop l)
        (((c :: rest).take l).getLast?) hfd (drop_head_nonword hok hm)
      rw [searchB_prev_congr hok hout (some ']')
        (((c :: rest).take l).getLast?)]
      exact scanSub_self_clean hok hrepl hin fuel ((c :: rest).drop l)
        (((c :: rest).take l).getLast?) hfd

/-- Preservation: a substitution scan with one well-behaved pattern leaves
a text clean for another well-behaved pattern clean. -/
theorem scanSub_preserve_clean {p q : Pat} (hp : PatOK p) (hq : PatOK q)
    {repl : Str → Str} {W : Str} (hrepl : ∀ u, repl u = '[' :: (W ++ [']']))
    (hinq : ∀ j rest, q.m ((W.drop j) ++ ']' :: rest) = []) :
    ∀ (fuel : Nat) (s : Str) (prev : Option Char), s.length ≤ fuel →
      searchB q prev s = false →
      searchB q prev (scanSub p repl fuel prev s).1 = false
  | fuel, [], prev, _, _ => by cases fuel <;> rfl
  | 0, c :: rest, prev, hf, _ => by simp at hf
  | fuel + 1, c :: rest, prev, hf, hs => by
    rw [searchB_cons_false] at hs
    rw [scanSub]
    cases hm : matchAt p prev (c :: rest) with
    | none =>
      dsimp only
      rw [searchB_cons_false]
      exact ⟨matchAt_none_out hq hp hrepl (by simpa using hf) hs.1,
        scanSub_preserve_clean hp hq hrepl hinq fuel rest (some c)
          (by simpa using hf) hs.2⟩
    | some l =>
      dsimp only
      have hspec := matchAt_some_spec hp hm
      have hl1 : 1 ≤ l := hp.low _ l hspec.2.1
      rw [if_pos (by omega : 0 < l)]
      dsimp only
      rw [hrepl]
      rw [show ('[' :: (W ++ [']'])) ++
          (scanSub p repl fuel ((c :: rest).take l).getLast?
            ((c :: rest).drop l)).1 =
          '[' :: (W ++ ']' ::
          (scanSub p repl fuel ((c :: rest).take l).getLast?
            ((c :: rest).drop l)).1) by simp]
      rw [searchB_token hq hinq]
      have hfd : ((c :: rest).drop l).length ≤ fuel := by
        simp only [List.length_drop, List.length_cons]
        simp only [List.length_cons] at hf
        omega
      have hout := scanSub_out_head hp hrepl fuel ((c :: rest).drop l)
        (((c :: rest).take l).getLast?) hfd (drop_head_nonword hp hm)
      rw [searchB_prev_congr hq hout (some ']')
        (((c :: rest).take l).getLast?)]
      have hdropped : searchB q (((c :: rest).take l).getLast?)
          ((c :: rest).drop l) = false := by
        have h0 : searchB q prev (c :: rest) = false := by
          rw [searchB_cons_false]
          exact hs
        exact searchB_drop l (c :: rest) prev hl1 h0
      exact scanSub_preserve_clean hp hq hrepl hinq fuel ((c :: rest).drop l)
        (((c :: rest).take l).getLast?) hfd hdropped

end Re

namespace Re

open FortKnox

/-- Token-interior inertness follows from a finite check on the concrete
interior, by prefix-locality and bracket-freeness. -/
theorem inert_of_check {pt : Pat} (hok : PatOK pt) (W : Str)
    (hchk : ∀ j ∈ List.range (W.length + 1), ∀ l ∈ List.range (W.length + 1),
      l ∉ pt.m ((W.drop j).take l)) :
    ∀ j rest, pt.m ((W.drop j) ++ ']' :: rest) = [] := by
  intro j rest
  rw [List.eq_nil_iff_forall_not_mem]
  intro l hl
  have hl1 : 1 ≤ l := hok.low _ l hl
  have hlen : l ≤ (W.drop j).length := by
    by_contra hgt
    push_neg at hgt
    have hidx : ((W.drop j) ++ ']' :: rest)[(W.drop j).length]? = some ']' := by
      rw [List.getElem?_append_right (Nat.le_refl _)]
      simp
    have h3 : (((W.drop j) ++ ']' :: rest).take l)[(W.drop j).length]? =
        some ']' := by
      rw [List.getElem?_take]
      simp only [hgt, if_true]
      exact hidx
    exact ((hok.nb _ l hl) ']' (mem_of_getElem?_self h3)).2 rfl
  have heq : ((W.drop j) ++ ']' :: rest).take l = (W.drop j).take l :=
    List.take_append_of_le_length hlen
  have hmem2 : l ∈ pt.m ((W.drop j).take l) := by
    refine (hok.pl l ((W.drop j) ++ ']' :: rest) ((W.drop j).take l) ?_).mp hl
    rw [heq, List.take_take]
    simp
  rcases Nat.lt_or_ge j (W.length + 1) with hj | hj
  · have hdl : (W.drop j).length ≤ W.length := by
      rw [List.length_drop]
      omega
    exact hchk j (List.mem_range.mpr hj) l (List.mem_range.mpr (by omega))
      hmem2
  · have hz : (W.drop j).length = 0 := by
      rw [List.length_drop]
      omega
    omega

end Re

namespace FortKnox

open Re

/-- A pass whose pattern finds nothing is the identity. -/
theorem pass_id {pt : Pat} {r : String} {st : Str × Nat}
    (h : searchB pt none st.1 = false) : pass pt r st = st := by
  cases st with
  | mk a b =>
    unfold pass Re.subn
    dsimp only
    rw [Re.scanSub_clean_id _ a.length a none (Nat.le_refl _) h]
    simp

/-- mask_datetime is the identity (with zero count) on a text that is
clean for all its patterns. -/
theorem mask_datetime_id_of_clean (F : Str) (L : String)
    (h1 : searchB isoDatePat none F = false)
    (h2 : searchB dmyPat none F = false)
    (h3 : searchB longMonthYearPat none F = false)
    (h4 : searchB shortMonthYearPat none F = false)
    (h5 : searchB longMonthNoYearPat none F = false)
    (h6 : searchB timePat none F = false)
    (h7 : L = "paranoid" → searchB relativePat none F = false) :
    mask_datetime F L = (F, 0) := by
  have p1 : pass isoDatePat "[DATUM]" (F, 0) = (F, 0) := pass_id h1
  have p2 : pass dmyPat "[DATUM]" (F, 0) = (F, 0) := pass_id h2
  have p3 : pass longMonthYearPat "[DATUM]" (F, 0) = (F, 0) := pass_id h3
  have p4 : pass shortMonthYearPat "[DATUM]" (F, 0) = (F, 0) := pass_id h4
  have p5 : pass longMonthNoYearPat "[DATUM]" (F, 0) = (F, 0) := pass_id h5
  have p6 : pass timePat "[TID]" (F, 0) = (F, 0) := pass_id h6
  unfold mask_datetime
  dsimp only
  rw [p1, p2, p3, p4, p5, p6]
  by_cases hL : L = "paranoid"
  · rw [if_pos hL, pass_id (h7 hL)]
  · rw [if_neg hL]

end FortKnox

namespace FortKnox

open Re

theorem inert_iso_datum : ∀ j rest,
    isoDatePat.m (("DATUM".toList.drop j) ++ ']' :: rest) = [] :=
  inert_of_check patOK_isoDatePat ("DATUM".toList) (by decide)


theorem inert_dmy_datum : ∀ j rest,
    dmyPat.m (("DATUM".toList.drop j) ++ ']' :: rest) = [] :=
  inert_of_check patOK_dmyPat ("DATUM".toList) (by decide)

theorem inert_lmy_datum : ∀ j rest,
    longMonthYearPat.m (("DATUM".toList.drop j) ++ ']' :: rest) = [] :=
  inert_of_check patOK_longMonthYearPat ("DATUM".toList) (by decide)

theorem inert_smy_datum : ∀ j rest,
    shortMonthYearPat.m (("DATUM".toList.drop j) ++ ']' :: rest) = [] :=
  inert_of_check patOK_shortMonthYearPat ("DATUM".toList) (by decide)

theorem inert_lmny_datum : ∀ j rest,
    longMonthNoYearPat.m (("DATUM".toList.drop j) ++ ']' :: rest) = [] :=
  inert_of_check patOK_longMonthNoYearPat ("DATUM".toList) (by decide)

theorem inert_iso_tid : ∀ j rest,
    isoDatePat.m (("TID".toList.drop j) ++ ']' :: rest) = [] :=
  inert_of_check patOK_isoDatePat ("TID".toList) (by decide)

theorem inert_dmy_tid : ∀ j rest,
    dmyPat.m (("TID".toList.drop j) ++ ']' :: rest) = [] :=
  inert_of_check patOK_dmyPat ("TID".toList) (by decide)

theorem inert_lmy_tid : ∀ j rest,
    longMonthYearPat.m (("TID".toList.drop j) ++ ']' :: rest) = [] :=
  inert_of_check patOK_longMonthYearPat ("TID".toList) (by decide)

theorem inert_smy_tid : ∀ j rest,
    shortMonthYearPat.m (("TID".toList.drop j) ++ ']' :: rest) = [] :=
  inert_of_check patOK_shortMonthYearPat ("TID".toList) (by decide)

theorem inert_lmny_tid : ∀ j rest,
    longMonthNoYearPat.m (("TID".toList.drop j) ++ ']' :: rest) = [] :=
  inert_of_check patOK_longMonthNoYearPat ("TID".toList) (by decide)

theorem inert_time_tid : ∀ j rest,
    timePat.m (("TID".toList.drop j) ++ ']' :: rest) = [] :=
  inert_of_check patOK_timePat ("TID".toList) (by decide)

theorem inert_iso_reltid : ∀ j rest,
    isoDatePat.m (("RELATIV_TID".toList.drop j) ++ ']' :: rest) = [] :=
  inert_of_check patOK_isoDatePat ("RELATIV_TID".toList) (by decide)

theorem inert_dmy_reltid : ∀ j rest,
    dmyPat.m (("RELATIV_TID".toList.drop j) ++ ']' :: rest) = [] :=
  inert_of_check patOK_dmyPat ("RELATIV_TID".toList) (by decide)

theorem inert_lmy_reltid : ∀ j rest,
    longMonthYearPat.m (("RELATIV_TID".toList.drop j) ++ ']' :: rest) = [] :=
  inert_of_check patOK_longMonthYearPat ("RELATIV_TID".toList) (by decide)

theorem inert_smy_reltid : ∀ j rest,
    shortMonthYearPat.m (("RELATIV_TID".toList.drop j) ++ ']' :: rest) = [] :=
  inert_of_check patOK_shortMonthYearPat ("RELATIV_TID".toList) (by decide)

theorem inert_lmny_reltid : ∀ j rest,
    longMonthNoYearPat.m (("RELATIV_TID".toList.drop j) ++ ']' :: rest) = [] :=
  inert_of_check patOK_longMonthNoYearPat ("RELATIV_TID".toList) (by decide)

theorem inert_time_reltid : ∀ j rest,
    timePat.m (("RELATIV_TID".toList.drop j) ++ ']' :: rest) = [] :=
  inert_of_check patOK_timePat ("RELATIV_TID".toList) (by decide)

theorem inert_rel_reltid : ∀ j rest,
    relativePat.m (("RELATIV_TID".toList.drop j) ++ ']' :: rest) = [] :=
  inert_of_check patOK_relativePat ("RELATIV_TID".toList) (by decide)

end FortKnox

namespace FortKnox

open Re

/-- The output of mask_datetime contains no match of any of its
patterns (the relative-word pattern at paranoid level). -/
theorem mask_datetime_output_clean (t : Str) (L : String) :
    searchB isoDatePat none (mask_datetime t L).1 = false ∧
    searchB dmyPat none (mask_datetime t L).1 = false ∧
    searchB longMonthYearPat none (mask_datetime t L).1 = false ∧
    searchB shortMonthYearPat none (mask_datetime t L).1 = false ∧
    searchB longMonthNoYearPat none (mask_datetime t L).1 = false ∧
    searchB timePat none (mask_datetime t L).1 = false ∧
    (L = "paranoid" → searchB relativePat none (mask_datetime t L).1 = false) := by
  have hreplD : ∀ u : Str, (fun _ : Str => "[DATUM]".toList) u =
      '[' :: ("DATUM".toList ++ [']']) := fun _ => rfl
  have hreplT : ∀ u : Str, (fun _ : Str => "[TID]".toList) u =
      '[' :: ("TID".toList ++ [']']) := fun _ => rfl
  have hreplR : ∀ u : Str, (fun _ : Str => "[RELATIV_TID]".toList) u =
      '[' :: ("RELATIV_TID".toList ++ [']']) := fun _ => rfl
  unfold mask_datetime
  dsimp only
  by_cases hL : L = "paranoid"
  · rw [if_pos hL]
    simp only [pass]
    refine ⟨?_, ?_, ?_, ?_, ?_, ?_, fun _ => ?_⟩
    · exact (scanSub_preserve_clean patOK_relativePat patOK_isoDatePat hreplR inert_iso_reltid _ _ none (Nat.le_refl _)
          (scanSub_preserve_clean patOK_timePat patOK_isoDatePat hreplT inert_iso_tid _ _ none (Nat.le_refl _)
          (scanSub_preserve_clean patOK_longMonthNoYearPat patOK_isoDatePat hreplD inert_iso_datum _ _ none (Nat.le_refl _)
          (scanSub_preserve_clean patOK_shortMonthYearPat patOK_isoDatePat hreplD inert_iso_datum _ _ none (Nat.le_refl _)
          (scanSub_preserve_clean patOK_longMonthYearPat patOK_isoDatePat hreplD inert_iso_datum _ _ none (Nat.le_refl _)
          (scanSub_preserve_clean patOK_dmyPat patOK_isoDatePat hreplD inert_iso_datum _ _ none (Nat.le_refl _)
          (scanSub_self_clean patOK_isoDatePat hreplD inert_iso_datum _ _ none (Nat.le_refl _))))))))
    · exact (scanSub_preserve_clean patOK_relativePat patOK_dmyPat hreplR inert_dmy_reltid _ _ none (Nat.le_refl _)
          (scanSub_preserve_clean patOK_timePat patOK_dmyPat hreplT inert_dmy_tid _ _ none (Nat.le_refl _)
          (scanSub_preserve_clean patOK_longMonthNoYearPat patOK_dmyPat hreplD inert_dmy_datum _ _ none (Nat.le_refl _)
          (scanSub_preserve_clean patOK_shortMonthYearPat patOK_dmyPat hreplD inert_dmy_datum _ _ none (Nat.le_refl _)
          (scanSub_preserve_clean patOK_longMonthYearPat patOK_dmyPat hreplD inert_dmy_datum _ _ none (Nat.le_refl _)
          (scanSub_self_clean patOK_dmyPat hreplD inert_dmy_datum _ _ none (Nat.le_refl _)))))))
    · exact (scanSub_preserve_clean patOK_relativePat patOK_longMonthYearPat hreplR inert_lmy_reltid _ _ none (Nat.le_refl _)
          (scanSub_preserve_clean patOK_timePat patOK_longMonthYearPat hreplT inert_lmy_tid _ _ none (Nat.le_refl _)
          (scanSub_preserve_clean patOK_longMonthNoYearPat patOK_longMonthYearPat hreplD inert_lmy_datum _ _ none (Nat.le_refl _)
          (scanSub_preserve_clean patOK_shortMonthYearPat patOK_longMonthYearPat hreplD inert_lmy_datum _ _ none (Nat.le_refl _)
          (scanSub_self_clean patOK_longMonthYearPat hreplD inert_lmy_datum _ _ none (Nat.le_refl _))))))
    · exact (scanSub_preserve_clean patOK_relativePat patOK_shortMonthYearPat hreplR inert_smy_reltid _ _ none (Nat.le_refl _)
          (scanSub_preserve_clean patOK_timePat patOK_shortMonthYearPat hreplT inert_smy_tid _ _ none (Nat.le_refl _)
          (scanSub_preserve_clean patOK_longMonthNoYearPat patOK_shortMonthYearPat hreplD inert_smy_datum _ _ none (Nat.le_refl _)
          (scanSub_self_clean patOK_shortMonthYearPat hreplD inert_smy_datum _ _ none (Nat.le_refl _)))))
    · exact (scanSub_preserve_clean patOK_relativePat patOK_longMonthNoYearPat hreplR inert_lmny_reltid _ _ none (Nat.le_refl _)
          (scanSub_preserve_clean patOK_timePat patOK_longMonthNoYearPat hreplT inert_lmny_tid _ _ none (Nat.le_refl _)
          (scanSub_self_clean patOK_longMonthNoYearPat hreplD inert_lmny_datum _ _ none (Nat.le_refl _))))
    · exact (scanSub_preserve_clean patOK_relativePat patOK_timePat hreplR inert_time_reltid _ _ none (Nat.le_refl _)
          (scanSub_self_clean patOK_timePat hreplT inert_time_tid _ _ none (Nat.le_refl _)))
    · exact (scanSub_self_clean patOK_relativePat hreplR inert_rel_reltid _ _ none (Nat.le_refl _))
  · rw [if_neg hL]
    simp only [pass]
    refine ⟨?_, ?_, ?_, ?_, ?_, ?_, fun hc => absurd hc hL⟩
    · exact (scanSub_preserve_clean patOK_timePat patOK_isoDatePat hreplT inert_iso_tid _ _ none (Nat.le_refl _)
          (scanSub_preserve_clean patOK_longMonthNoYearPat patOK_isoDatePat hreplD inert_iso_datum _ _ none (Nat.le_refl _)
          (scanSub_preserve_clean patOK_shortMonthYearPat patOK_isoDatePat hreplD inert_iso_datum _ _ none (Nat.le_refl _)
          (scanSub_preserve_clean patOK_longMonthYearPat patOK_isoDatePat hreplD inert_iso_datum _ _ none (Nat.le_refl _)
          (scanSub_preserve_clean patOK_dmyPat patOK_isoDatePat hreplD inert_iso_datum _ _ none (Nat.le_refl _)
          (scanSub_self_clean patOK_isoDatePat hreplD inert_iso_datum _ _ none (Nat.le_refl _)))))))
    · exact (scanSub_preserve_clean patOK_timePat patOK_dmyPat hreplT inert_dmy_tid _ _ none (Nat.le_refl _)
          (scanSub_preserve_clean patOK_longMonthNoYearPat patOK_dmyPat hreplD inert_dmy_datum _ _ none (Nat.le_refl _)
          (scanSub_preserve_clean patOK_shortMonthYearPat patOK_dmyPat hreplD inert_dmy_datum _ _ none (Nat.le_refl _)
          (scanSub_preserve_clean patOK_longMonthYearPat patOK_dmyPat hreplD inert_dmy_datum _ _ none (Nat.le_refl _)
          (scanSub_self_clean patOK_dmyPat hreplD inert_dmy_datum _ _ none (Nat.le_refl _))))))
    · exact (scanSub_preserve_clean patOK_timePat patOK_longMonthYearPat hreplT inert_lmy_tid _ _ none (Nat.le_refl _)
          (scanSub_preserve_clean patOK_longMonthNoYearPat patOK_longMonthYearPat hreplD inert_lmy_datum _ _ none (Nat.le_refl _)
          (scanSub_preserve_clean patOK_shortMonthYearPat patOK_longMonthYearPat hreplD inert_lmy_datum _ _ none (Nat.le_refl _)
          (scanSub_self_clean patOK_longMonthYearPat hreplD inert_lmy_datum _ _ none (Nat.le_refl _)))))
    · exact (scanSub_preserve_clean patOK_timePat patOK_shortMonthYearPat hreplT inert_smy_tid _ _ none (Nat.le_refl _)
          (scanSub_preserve_clean patOK_longMonthNoYearPat patOK_shortMonthYearPat hreplD inert_smy_datum _ _ none (Nat.le_refl _)
          (scanSub_self_clean patOK_shortMonthYearPat hreplD inert_smy_datum _ _ none (Nat.le_refl _))))
    · exact (scanSub_preserve_clean patOK_timePat patOK_longMonthNoYearPat hreplT inert_lmny_tid _ _ none (Nat.le_refl _)
          (scanSub_self_clean patOK_longMonthNoYearPat hreplD inert_lmny_datum _ _ none (Nat.le_refl _)))
    · exact (scanSub_self_clean patOK_timePat hreplT inert_time_tid _ _ none (Nat.le_refl _))

end FortKnox

/-- Claim C9: re-masking already-masked text is a no-op for the date/time
masking: for every text and every level, applying mask_datetime to the
masked text returns that text unchanged, with zero further substitutions.
(Every pattern is word-boundary-anchored with word-character match edges,
the replacement tokens are bracket-delimited and inert, so no pass can
create a new match for any other pass.) -/
theorem claim9_datetime_idempotent (t : FortKnox.Str) (L : String) :
    FortKnox.mask_datetime (FortKnox.mask_datetime t L).1 L =
      ((FortKnox.mask_datetime t L).1, 0) := by
  obtain ⟨h1, h2, h3, h4, h5, h6, h7⟩ := FortKnox.mask_datetime_output_clean t L
  exact FortKnox.mask_datetime_id_of_clean _ L h1 h2 h3 h4 h5 h6 h7
